import Mathlib

/-!
Verification of the QLearning repository's linsim core and learning loop.

The linsim implementation modules (flags, nodes, elements, blocks, netlist)
are not present under src/; only their tests are.  Their behaviour is
modelled from the specification (spec.md) below, faithful to its words, and
checked against the concrete examples asserted by src/qlearn/linsim/test.py.
The `variablenstep` learning procedure is embedded directly from
src/qlearn/algorithms/variablenstep.py.

The file is organized as definitions first, then lemmas and the claim
theorems.
-/

namespace Linsim

/-! ## Mixed-Radix Codec (FlagGenerator), modelled from the spec §4.1 -/

/-- Modelled from the spec: the codec is missing from src (flags.py);
`states` = product of all cardinalities. -/
def states (b : List Nat) : Nat := b.prod

/-- Modelled from the spec: the codec is missing from src (flags.py);
`encode(d₀,…,d_{n-1})` uses standard mixed-radix positional weighting,
most-significant digit first: index = Σ dᵢ · Π_{j>i} bⱼ. -/
def encode : List Nat → List Nat → Nat
  | _ :: bs, d :: ds => d * bs.prod + encode bs ds
  | _, _ => 0

/-- Modelled from the spec: the codec is missing from src (flags.py);
digit extraction for `decode`, most-significant digit first. -/
def decodeAux : List Nat → Nat → List Nat
  | [], _ => []
  | _ :: bs, i => i / bs.prod :: decodeAux bs (i % bs.prod)

/-- Modelled from the spec: the codec is missing from src (flags.py);
`decode(index)` is the exact inverse of `encode`; fails if `index` is
outside `[0, states)`. -/
def decode (b : List Nat) (i : Nat) : Option (List Nat) :=
  if i < states b then some (decodeAux b i) else none

/-! ## Declaration records (Element), modelled from the spec §3 and §6 -/

/-- Whitespace characters inside a declaration line. -/
def isWs (c : Char) : Bool := c = ' ' || c = '\t'

/-- Modelled from the spec: elements.py is not under src/; normalization of a
declaration line's characters: whitespace around `=` is removed
(spec §3). -/
def normEq : List Char → List Char
  | [] => []
  | c :: rest =>
    match normEq rest with
    | [] => [c]
    | d :: ds =>
      if isWs c && d = '=' then d :: ds
      else if c = '=' && isWs d then c :: List.dropWhile isWs ds
      else c :: d :: ds

/-- Splits a normalized line into whitespace-free tokens. -/
def splitPlainAux : List Char → List Char → List (List Char)
  | [], acc => if acc.isEmpty then [] else [acc.reverse]
  | c :: rest, acc =>
    if isWs c then
      if acc.isEmpty then splitPlainAux rest []
      else acc.reverse :: splitPlainAux rest []
    else splitPlainAux rest (c :: acc)

def splitPlain (cs : List Char) : List (List Char) := splitPlainAux cs []

/-- The tokens of one declaration line: lower-cased, `=`-normalized,
whitespace-split (spec §3, §6). -/
def tokenize (s : String) : List (List Char) :=
  splitPlain (normEq (s.toList.map Char.toLower))

/-- The parenthesis balance of a character sequence. -/
def parenBal (cs : List Char) : Int :=
  cs.foldl (fun b c => if c = '(' then b + 1 else if c = ')' then b - 1 else b) 0

/-- Joins the next token onto a parameter value being grouped: whitespace
after a comma is stripped, otherwise a single space separates the parts
(spec §6: parameter `table=(0 1e-1,10 100)`). -/
def joinStep (acc t : List Char) : List Char :=
  if acc.getLast? = some ',' then acc ++ t else acc ++ ' ' :: t

/-- Modelled from the spec: elements.py is not under src/; splits a
declaration's field tokens into positional fields and key=value parameters;
a parameter whose value opens an unbalanced parenthesized group (such as
`table=(0 1e-1, 10 100)`) absorbs the following tokens until the group
closes, stripping whitespace after commas (spec §3, §6). -/
def groupAux : List (List Char) → Option (List Char × List Char × Int) →
    List (List Char) × List (List Char × List Char)
  | [], none => ([], [])
  | [], some (k, v, _) => ([], [(k, v)])
  | w :: ws, none =>
    if w.contains '=' then
      if parenBal ((w.dropWhile (fun c => c ≠ '=')).tail) > 0 then
        groupAux ws (some (w.takeWhile (fun c => c ≠ '='),
          (w.dropWhile (fun c => c ≠ '=')).tail,
          parenBal ((w.dropWhile (fun c => c ≠ '=')).tail)))
      else
        ((groupAux ws none).1,
         (w.takeWhile (fun c => c ≠ '='), (w.dropWhile (fun c => c ≠ '=')).tail)
           :: (groupAux ws none).2)
    else
      (w :: (groupAux ws none).1, (groupAux ws none).2)
  | w :: ws, some (k, v, b) =>
    if b + parenBal w > 0 then groupAux ws (some (k, joinStep v w, b + parenBal w))
    else ((groupAux ws none).1, (k, joinStep v w) :: (groupAux ws none).2)

def groupFields (ws : List (List Char)) :
    List (List Char) × List (List Char × List Char) :=
  groupAux ws none

/-- Joins words with single spaces. -/
def interSp : List (List Char) → List Char
  | [] => []
  | [w] => w
  | w :: ws => w ++ ' ' :: interSp ws

/-- Modelled from the spec: elements.py is not under src/; a Declaration
Record (spec §3): `name` (lower-cased), `pfx` (the `prefix` attribute:
leading non-digit characters of the name), `nodes` (first k positional
fields, k type-specific with default 2), `value` (remaining positional
fields joined), `params` (key=value pairs), and for a BlockInstance the
name of the Block it instantiates. -/
structure Element where
  name : String
  pfx : String
  nodes : List String
  value : String
  params : List (String × String)
  blockRef : Option String
deriving DecidableEq, Repr

/-- Modelled from the spec: elements.py is not under src/; builds an
Element record from a declaration's tokens: the name is the line's first
token (`<name> <field> <field> ... [key=value ...]`, spec §3), the first
`numNodes` positional fields are the nodes, the remaining positional fields
joined are the value, and key=value pairs are the parameters. -/
def elemOfWords (numNodes : Nat) (ws : List (List Char)) : Element :=
  { name := (ws.headD []).asString
    pfx := ((ws.headD []).takeWhile (fun c => !c.isDigit)).asString
    nodes := ((groupFields ws.tail).1.take numNodes).map List.asString
    value := (interSp ((groupFields ws.tail).1.drop numNodes)).asString
    params := (groupFields ws.tail).2.map
      (fun p => (p.1.asString, p.2.asString))
    blockRef := none }

/-- Modelled from the spec: elements.py is not under src/; parses one
declaration line with `numNodes` positional node fields (spec §3, §6). -/
def parseElementWith (numNodes : Nat) (s : String) : Element :=
  elemOfWords numNodes (tokenize s)

/-- Modelled from the spec: element lines have 2 positional node fields by
default (spec §3). -/
def parseElement (s : String) : Element := parseElementWith 2 s

/-- Modelled from the spec: parameter fetching by case-insensitive key
(keys are already lower-cased by parsing). -/
def Element.param (e : Element) (k : String) : Option String :=
  e.params.lookup k

/-! ## Block: graph and hierarchy management, modelled from the spec §3, §4.3 -/

/-- The adjacency map of a Block: each node name maps to the set of names of
the elements incident on it (order irrelevant). -/
abbrev Graph := List (String × List String)

/-! Modelled from the spec: blocks.py is not under src/; a Block has a name,
an ordered formal port list, an ordered element map, a node-to-incident-
elements graph, and a registry of nested subcircuit definitions (spec §3).
`BlockList` is the nested-definition registry keyed by block name. -/
mutual
inductive Block where
  | mk (name : String) (ports : List String) (elements : List Element)
       (graph : Graph) (blocks : BlockList)
inductive BlockList where
  | nil
  | cons (key : String) (b : Block) (rest : BlockList)
end

def Block.name : Block → String
  | .mk n _ _ _ _ => n

def Block.ports : Block → List String
  | .mk _ p _ _ _ => p

def Block.elements : Block → List Element
  | .mk _ _ es _ _ => es

def Block.graph : Block → Graph
  | .mk _ _ _ g _ => g

def Block.blocks : Block → BlockList
  | .mk _ _ _ _ bs => bs

def BlockList.lookup : BlockList → String → Option Block
  | .nil, _ => none
  | .cons k b rest, n => if k = n then some b else rest.lookup n

def BlockList.keys : BlockList → List String
  | .nil => []
  | .cons k _ rest => k :: rest.keys

/-- Replaces a Block's elements and graph, keeping name, ports and nested
definitions. -/
def Block.setEG : Block → List Element → Graph → Block
  | .mk n p _ _ bs, es, g => .mk n p es g bs

/-- Association lookup in a Graph by node name. -/
def alookup (g : Graph) (n : String) : Option (List String) :=
  match g with
  | [] => none
  | (k, s) :: rest => if k = n then some s else alookup rest n

/-- Modelled from the spec: adds an element name to the adjacency set of one
node, creating the graph entry if needed (spec §4.3 `add`). -/
def graphAdd (g : Graph) (n ename : String) : Graph :=
  match g with
  | [] => [(n, [ename])]
  | (k, s) :: rest =>
    if k = n then (k, if s.contains ename then s else s ++ [ename]) :: rest
    else (k, s) :: graphAdd rest n ename

/-- Modelled from the spec: blocks.py is not under src/; `add(element)` fails
(no mutation) if an element with the same name already exists; otherwise
inserts the element into `elements` and adds it to the adjacency set of
every Node in its `nodes`, creating new graph entries as needed (spec §4.3). -/
def Block.add (b : Block) (e : Element) : Option Block :=
  if b.elements.any (fun e' => e'.name = e.name) then none
  else some (b.setEG (b.elements ++ [e])
    (e.nodes.foldl (fun g n => graphAdd g n e.name) b.graph))

/-- Modelled from the spec: blocks.py is not under src/; `remove` drops the
named element from `elements` and from every adjacency set, deleting any
node whose adjacency set becomes empty (spec §4.3 `remove`). -/
def Block.removeElem (b : Block) (ename : String) : Block :=
  b.setEG (b.elements.filter (fun e => e.name ≠ ename))
    (((b.graph.map (fun p => (p.1, p.2.filter (fun x => x ≠ ename)))).filter
      (fun p => !p.2.isEmpty)))

/-- Substitutes node `nb` by `na` in an element's node list. -/
def Element.substNode (e : Element) (na nb : String) : Element :=
  { e with nodes := e.nodes.map (fun n => if n = nb then na else n) }

/-- Whether a node list has two or more identical entries. -/
def hasDup : List String → Bool
  | [] => false
  | x :: xs => xs.contains x || hasDup xs

/-- Modelled from the spec: blocks.py is not under src/; `short(node_a,
node_b)` merges `node_b` into `node_a`: every element referencing `node_b`
has that reference replaced with `node_a`, `node_b`'s adjacency is merged
into `node_a`'s and its entry deleted from `graph`, and any element that
after substitution has two or more identical node entries is removed from
the Block entirely, cascading through `remove` (spec §4.3); referencing a
node absent from the graph fails (spec §7). -/
def Block.short (b : Block) (na nb : String) : Option Block :=
  if (alookup b.graph na).isNone || (alookup b.graph nb).isNone then none
  else
    let elems := b.elements.map (fun e => e.substNode na nb)
    let nbSet := (alookup b.graph nb).getD []
    let g1 := (b.graph.filter (fun p => p.1 ≠ nb)).map
      (fun p => if p.1 = na then (p.1, p.2 ++ nbSet.filter (fun x => !p.2.contains x)) else p)
    let b1 := b.setEG elems g1
    some ((elems.filter (fun e => hasDup e.nodes)).foldl
      (fun bl e => bl.removeElem e.name) b1)

/-- Recomputes a Block's node-to-incident-elements graph from an element
list (the Block invariant makes `graph` determined by `elements`,
spec §3). -/
def graphOf (es : List Element) : Graph :=
  es.foldl (fun g e => e.nodes.foldl (fun g' n => graphAdd g' n e.name) g) []

/-- Modelled from the spec: blocks.py is not under src/; rewrites one node of
an expanded subcircuit element: formal port nodes are bound positionally to
the instance's caller-side nodes, and internal nodes get a fresh
collision-free name derived from the referenced block's name and the
nesting-depth counter (spec §4.3 flatten (a)-(b); the renaming prefix
`<block-name>_<depth>_` matches test_block_class, which expects
`block1_1_e1` and the internal node `block1_1_3`). -/
def bindNode (sub : Block) (inst : Element) (d : Nat) (n : String) : String :=
  match sub.ports.findIdx? (fun p => p = n) with
  | some i => inst.nodes.getD i n
  | none => sub.name ++ "_" ++ toString d ++ "_" ++ n

/-- Modelled from the spec: blocks.py is not under src/; for every element
inside the referenced Block, creates a renamed copy
`<block-name>_<depth>_<original-element-name>` with its nodes rewritten
through the port binding or the fresh internal names (spec §4.3 flatten
(c)). -/
def expandInstance (sub : Block) (d : Nat) (inst : Element) : List Element :=
  sub.elements.map (fun se =>
    { se with
        name := sub.name ++ "_" ++ toString d ++ "_" ++ se.name
        nodes := se.nodes.map (bindNode sub inst d) })

/-! Modelled from the spec: blocks.py is not under src/; `flatten()`
recursively eliminates hierarchy until `blocks` is empty: nested definitions
are flattened first with an incremented depth counter (spec §4.3 flatten
(e)), then every BlockInstance element referencing a defined subcircuit is
replaced by the renamed copies of the referenced Block's elements (steps
(a)-(d)); afterwards `blocks` is emptied and the graph is rebuilt for the
expanded element list. -/
mutual
def Block.flattenAux : Block → Nat → Block
  | .mk n p es _ bs, d =>
    let fbs := BlockList.flattenAll bs (d + 1)
    let elems := es.foldl (fun acc e =>
      match e.blockRef with
      | some r =>
        match fbs.lookup r with
        | some sub => acc ++ expandInstance sub d e
        | none => acc ++ [e]
      | none => acc ++ [e]) []
    .mk n p elems (graphOf elems) .nil
def BlockList.flattenAll : BlockList → Nat → BlockList
  | .nil, _ => .nil
  | .cons k b rest, d => .cons k (b.flattenAux d) (rest.flattenAll d)
end

/-- Top-level flattening starts the nesting-depth counter at 1. -/
def Block.flatten (b : Block) : Block := b.flattenAux 1

/-- The BlockInstance element `x1 1 2 3 4 BLocK1` of test_block_class: its
caller-side nodes bind positionally to the referenced Block's ports and its
`block` attribute references the Block named `block1`. -/
def x1inst : Element :=
  { name := "x1", pfx := "x", nodes := ["1", "2", "3", "4"],
    value := "block1", params := [], blockRef := some "block1" }

/-- The subcircuit `block1` of test_block_class: ports `1 2 n3 n12`,
elements `E1 1 2 45` and `E2 2 3 50` (node `3` is internal). -/
def block1 : Block :=
  .mk "block1" ["1", "2", "n3", "n12"]
    [parseElement "E1 1 2 45", parseElement "E2 2 3 50"]
    (graphOf [parseElement "E1 1 2 45", parseElement "E2 2 3 50"]) .nil

/-- The parent Block of test_block_class's flattening scenario: its own
elements plus the BlockInstance `x1` of `block1`. -/
def flattenParent : Block :=
  .mk "test" ["1", "n2", "node3"]
    [parseElement "e6 2 4 90", parseElement "ELEM45 1 2 64",
     parseElement "es1 s1 1 10", parseElement "es2 s2 3 10k",
     parseElement "es3 s2 s1 1M", x1inst]
    (graphOf [parseElement "e6 2 4 90", parseElement "ELEM45 1 2 64",
      parseElement "es1 s1 1 10", parseElement "es2 s2 3 10k",
      parseElement "es3 s2 s1 1M", x1inst])
    (.cons "block1" block1 .nil)

/-! ## Netlist: parsing and serialization, modelled from the spec §3, §4.4, §6 -/

/-- Modelled from the spec: directives.py is not under src/; a Directive is a
specialization for lines beginning with `.`: `kind` is the token following
`.`, positional value tokens and key=value pairs are normalized like
Element parameters (spec §3). -/
structure Directive where
  kind : String
  args : List String
  params : List (String × String)
deriving DecidableEq, Repr

/-- Modelled from the spec: builds a Directive from the tokens of a
`.`-line: `kind` is the first token with its leading `.` removed, the other
fields are positional values and key=value pairs (spec §3). -/
def mkDirective (ws : List (List Char)) : Directive :=
  match ws with
  | [] => ⟨"", [], []⟩
  | w :: wrest =>
    { kind := (w.tail).asString
      args := (groupFields wrest).1.map List.asString
      params := (groupFields wrest).2.map
        (fun p => (p.1.asString, p.2.asString)) }

/-- Modelled from the spec: netlist.py is not under src/; builds a
BlockInstance record (`x1 1 2 3 4 block1`): the last positional field names
the instantiated Block, the fields between are the caller-side nodes
(spec §3 BlockInstance). -/
def instOfWords (ws : List (List Char)) : Element :=
  { name := (ws.headD []).asString
    pfx := ((ws.headD []).takeWhile (fun c => !c.isDigit)).asString
    nodes := ((groupFields ws.tail).1.dropLast).map List.asString
    value := ((groupFields ws.tail).1.getLastD []).asString
    params := (groupFields ws.tail).2.map
      (fun p => (p.1.asString, p.2.asString))
    blockRef := some (((groupFields ws.tail).1.getLastD []).asString) }

/-- Parses one BlockInstance line. -/
def parseInstance (s : String) : Element := instOfWords (tokenize s)

/-- The serialized words of an Element: name, nodes, value, then key=value
parameters (spec §3 canonical re-serialization). -/
def Element.serWords (e : Element) : List (List Char) :=
  [e.name.toList] ++ e.nodes.map String.toList
    ++ (if e.value = "" then [] else [e.value.toList])
    ++ e.params.map (fun p => p.1.toList ++ '=' :: p.2.toList)

/-- Re-serializes an Element to its canonical lower-cased line (spec §3). -/
def Element.toLine (e : Element) : String := (interSp e.serWords).asString

/-- The serialized words of a Directive. -/
def Directive.serWords (d : Directive) : List (List Char) :=
  [('.' :: d.kind.toList)] ++ d.args.map String.toList
    ++ d.params.map (fun p => p.1.toList ++ '=' :: p.2.toList)

/-- Re-serializes a Directive to its canonical lower-cased line (spec §3). -/
def Directive.toLine (d : Directive) : String := (interSp d.serWords).asString

/-- The subcircuit-definition opening boundary line
`.subckt <name> <port>...` (spec §6). -/
def subcktHeader (b : Block) : String :=
  (interSp ([".subckt".toList] ++ [b.name.toList]
    ++ b.ports.map String.toList)).asString

/-! Serialization of a Block definition: nested subcircuit definitions, each
wrapped in begin/end boundary lines, followed by the Block's own element
lines (spec §4.3 definition). -/
mutual
def Block.defnLines : Block → List String
  | .mk _ _ es _ bs => BlockList.defnLines bs ++ es.map Element.toLine
def BlockList.defnLines : BlockList → List String
  | .nil => []
  | .cons _ b rest =>
    (subcktHeader b :: (Block.defnLines b ++ [".ends " ++ b.name]))
      ++ BlockList.defnLines rest
end

/-! Structural equality of Blocks (used to state the structural round-trip). -/
mutual
def Block.beq : Block → Block → Bool
  | .mk n1 p1 e1 g1 b1, .mk n2 p2 e2 g2 b2 =>
    n1 == n2 && p1 == p2 && e1 == e2 && g1 == g2 && BlockList.beq b1 b2
def BlockList.beq : BlockList → BlockList → Bool
  | .nil, .nil => true
  | .cons k1 b1 r1, .cons k2 b2 r2 =>
    k1 == k2 && Block.beq b1 b2 && BlockList.beq r1 r2
  | _, _ => false
end

/-- One parsed line of a Netlist, in file order: an element line, a
subcircuit definition, or a directive (spec §4.4). -/
inductive NetItem where
  | elem (e : Element)
  | blockDef (b : Block)
  | dir (d : Directive)

/-- Modelled from the spec: the Netlist keeps the original ordered sequence
of definition/element/directive lines (spec §4.4). -/
structure Netlist where
  name : String
  items : List NetItem

/-- An open (not yet `.ends`-closed) subcircuit definition during parsing. -/
structure Frame where
  name : String
  ports : List String
  elems : List Element
  bs : BlockList

/-- Appends a nested Block at the end of a registry. -/
def appendB : BlockList → String → Block → BlockList
  | .nil, k, b => .cons k b .nil
  | .cons k0 b0 r, k, b => .cons k0 b0 (appendB r k b)

/-- Closes a Frame into a Block, rebuilding its graph from its elements. -/
def buildBlock (f : Frame) : Block :=
  .mk f.name f.ports f.elems (graphOf f.elems) f.bs

/-- Modelled from the spec: netlist.py is not under src/; processes one
input line: blank and comment (`*`) lines are skipped, `.subckt`/`.ends`
lines are consumed as subcircuit-definition boundaries building nested
Blocks, other `.`-lines are recorded as Directives, and all other lines are
dispatched as element declarations (spec §4.4). -/
def netStep (line : String) (st : List Frame × List NetItem) :
    List Frame × List NetItem :=
  match tokenize line with
  | [] => st
  | w :: wrest =>
    if w.headD ' ' = '*' then st
    else if w.headD ' ' = '.' then
      if (w.tail).asString = "subckt" then
        (⟨(wrest.headD []).asString, wrest.tail.map List.asString, [], .nil⟩
          :: st.1, st.2)
      else if (w.tail).asString = "ends" then
        match st.1 with
        | [] => st
        | f :: stack' =>
          match stack' with
          | [] => ([], st.2 ++ [.blockDef (buildBlock f)])
          | f2 :: s2 =>
            (⟨f2.name, f2.ports, f2.elems,
              appendB f2.bs (buildBlock f).name (buildBlock f)⟩ :: s2, st.2)
      else (st.1, st.2 ++ [.dir (mkDirective (w :: wrest))])
    else
      match st.1 with
      | [] => ([], st.2 ++ [.elem (if w.headD ' ' = 'x'
          then instOfWords (w :: wrest) else elemOfWords 2 (w :: wrest))])
      | f :: stack' =>
        (⟨f.name, f.ports, f.elems ++ [if w.headD ' ' = 'x'
          then instOfWords (w :: wrest) else elemOfWords 2 (w :: wrest)],
          f.bs⟩ :: stack',
         st.2)

/-- Modelled from the spec: netlist.py is not under src/; parses input
lines into a Netlist (spec §4.4). -/
def parseNetlist (name : String) (lines : List String) : Netlist :=
  ⟨name, (lines.foldl (fun st l => netStep l st) ([], [])).2⟩

/-- Folds the parser step over a list of input lines. -/
def netFold (lines : List String) (st : List Frame × List NetItem) :
    List Frame × List NetItem :=
  lines.foldl (fun st l => netStep l st) st

/-- Appends every entry of the second registry onto the first, in order. -/
def appendAll : BlockList → BlockList → BlockList
  | bs, .nil => bs
  | bs, .cons k b r => appendAll (appendB bs k b) r

/-- Registry concatenation. -/
def concatB : BlockList → BlockList → BlockList
  | .nil, ys => ys
  | .cons k b r, ys => .cons k b (concatB r ys)

/-- The serialized lines of one NetItem. -/
def NetItem.lines : NetItem → List String
  | .elem e => [e.toLine]
  | .dir d => [d.toLine]
  | .blockDef b =>
    subcktHeader b :: (Block.defnLines b ++ [".ends " ++ b.name])

/-- Modelled from the spec: serialization reproduces a header comment
`* Netlist: <name>` followed by the ordered sequence of
definition/element/directive lines, case-normalized (spec §4.4). -/
def Netlist.lines (nl : Netlist) : List String :=
  ("* Netlist: " ++ nl.name) :: (nl.items.map NetItem.lines).flatten

/-- Structural equality of NetItems. -/
def NetItem.beq : NetItem → NetItem → Bool
  | .elem e1, .elem e2 => e1 == e2
  | .blockDef b1, .blockDef b2 => Block.beq b1 b2
  | .dir d1, .dir d2 => d1 == d2
  | _, _ => false

def itemsBeq : List NetItem → List NetItem → Bool
  | [], [] => true
  | i :: is, j :: js => NetItem.beq i j && itemsBeq is js
  | _, _ => false

/-- Structural equivalence of Netlists (spec §4.4 "structurally
equivalent"). -/
def Netlist.beq (n1 n2 : Netlist) : Bool :=
  n1.name == n2.name && itemsBeq n1.items n2.items

/-- The netlist text of test_netlist_class. -/
def netLines : List String :=
  [".model sw sw0", ".subckt blah 1 2 3", "r1 1 2 1e10", "c1 1 3 1e-4",
   ".ends blah", "C1 0 T1 1mF", "R1 T1 N001 1k",
   "G1 N001 0 T1 0 1 table=(0 0,0.1 1m)", ".ic 0 15s 0 1m uic V(T1)=10V",
   ".end"]

/-- The Netlist parsed from test_netlist_class's text. -/
def testNetlist : Netlist := parseNetlist "test" netLines

/-! Invariants of tokenized lines and parsed records, used to prove that
re-parsing a serialized Netlist reconstructs it exactly. -/

/-- A basic token: nonempty, whitespace-free, already lower-cased. -/
def tokBasic (w : List Char) : Prop :=
  w ≠ [] ∧ ∀ c ∈ w, isWs c = false ∧ Char.toLower c = c

/-- The invariants `tokenize` guarantees for a line's tokens: basic tokens,
no non-first token starts with `=`, no non-last token ends with `=`. -/
def tksOK (ws : List (List Char)) : Prop :=
  (∀ w ∈ ws, tokBasic w) ∧
  (∀ w ∈ ws.tail, w.headD ' ' ≠ '=') ∧
  (∀ w ∈ ws.dropLast, w.getLast? ≠ some '=')

/-- An adjacent character pair that `normEq` leaves in place. -/
def eqOkPair (a b : Char) : Prop :=
  ¬(isWs a = true ∧ b = '=') ∧ ¬(a = '=' ∧ isWs b = true)

/-- No whitespace adjacent to `=` anywhere in the character sequence. -/
def noEqWs : List Char → Prop
  | [] => True
  | [_] => True
  | a :: b :: r => eqOkPair a b ∧ noEqWs (b :: r)

/-- A parameter key as produced by grouping: nonempty, `=`-free, basic. -/
def kGood (k : List Char) : Prop :=
  k ≠ [] ∧ '=' ∉ k ∧ ∀ c ∈ k, isWs c = false ∧ Char.toLower c = c

/-- The space-separated chunks of an absorbed parameter value: basic
chunks, no non-first chunk starts with `=`, no non-last chunk ends with a
comma (the grouping strips whitespace after commas) or with `=`. -/
def chunksGood (cs : List (List Char)) : Prop :=
  (∀ c ∈ cs, c ≠ [] ∧ ∀ x ∈ c, isWs x = false ∧ Char.toLower x = x) ∧
  (∀ c ∈ cs.tail, c.headD ' ' ≠ '=') ∧
  (∀ c ∈ cs.dropLast, c.getLast? ≠ some ',' ∧ c.getLast? ≠ some '=')

/-- From open balance `b`, absorbing the chunks keeps the balance positive
through every chunk (a group that never closes, at the end of a line). -/
def ranOff : Int → List (List Char) → Prop
  | _, [] => True
  | b, c :: cs => b + parenBal c > 0 ∧ ranOff (b + parenBal c) cs

/-- From open balance `b`, absorbing the chunks keeps the balance positive
until exactly the last chunk closes the group. -/
def closesAt : Int → List (List Char) → Prop
  | _, [] => False
  | b, [c] => b + parenBal c ≤ 0
  | b, c :: cs => b + parenBal c > 0 ∧ closesAt (b + parenBal c) cs

/-- A parameter value that is a single token: whitespace-free, lower-cased,
with non-positive parenthesis balance. -/
def pSimpleShape (v : List Char) : Prop :=
  (∀ c ∈ v, isWs c = false ∧ Char.toLower c = c) ∧ parenBal v ≤ 0

/-- A parameter value built by absorbing tokens into a parenthesized group
that closed before the end of the line. -/
def pClosedShape (v : List Char) : Prop :=
  ∃ c cs, v = interSp (c :: cs) ∧ cs ≠ [] ∧ chunksGood (c :: cs) ∧
    parenBal c > 0 ∧ closesAt (parenBal c) cs

/-- A parameter value built by absorbing tokens to the end of the line
without the group closing. -/
def pFinalShape (v : List Char) : Prop :=
  ∃ c cs, v = interSp (c :: cs) ∧ chunksGood (c :: cs) ∧
    parenBal c > 0 ∧ ranOff (parenBal c) cs

/-- A parameter as produced by grouping, in non-final position: its value
is additionally nonempty and does not end in `=` (a token ending in `=`
can only be the line's last). -/
def pGood (p : List Char × List Char) : Prop :=
  kGood p.1 ∧ (pSimpleShape p.2 ∨ pClosedShape p.2) ∧
  p.2 ≠ [] ∧ p.2.getLast? ≠ some '='

/-- A parameter as produced by grouping, in final position. -/
def pGoodFinal (p : List Char × List Char) : Prop :=
  kGood p.1 ∧ (pSimpleShape p.2 ∨ pClosedShape p.2 ∨ pFinalShape p.2)

/-- A parameter list as produced by grouping. -/
def prsGood : List (List Char × List Char) → Prop
  | [] => True
  | [p] => pGoodFinal p
  | p :: ps => pGood p ∧ prsGood ps

/-- Positional fields as produced by grouping: basic `=`-free tokens. -/
def posGood (pos : List (List Char)) : Prop :=
  ∀ w ∈ pos, tokBasic w ∧ '=' ∉ w

/-- The invariants available for the tokens handed to `groupFields` (the
tokens after a line's name token). -/
def gtoksOK (toks : List (List Char)) : Prop :=
  (∀ w ∈ toks, tokBasic w ∧ w.headD ' ' ≠ '=') ∧
  (∀ w ∈ toks.dropLast, w.getLast? ≠ some '=')

/-- The open-group state invariant of `groupAux`, relative to the remaining
tokens: the value is the space-join of good chunks whose balance stayed
positive, the running balance is the value's balance, and the value ends in
`=` only if the line does. -/
def stOK : Option (List Char × List Char × Int) → List (List Char) → Prop
  | none, _ => True
  | some (k, v, b), toks =>
    kGood k ∧ ∃ c cs, v = interSp (c :: cs) ∧ chunksGood (c :: cs) ∧
      parenBal c > 0 ∧ ranOff (parenBal c) cs ∧
      b = parenBal c + (cs.map parenBal).sum ∧
      (v.getLast? = some '=' → toks = [])

/-- The tokens a serialized `key=value` parameter word splits back into:
the key, `=` and the value's first space-chunk fused, then the value's
remaining space-chunks. -/
def expandParam (p : List Char × List Char) : List (List Char) :=
  match splitPlain p.2 with
  | [] => [p.1 ++ ['=']]
  | c :: cs => (p.1 ++ '=' :: c) :: cs

/-- An Element as produced by the netlist parser from some line's tokens. -/
def elemGood (e : Element) : Prop :=
  ∃ w ws, tksOK (w :: ws) ∧ w.headD ' ' ≠ '*' ∧ w.headD ' ' ≠ '.' ∧
    ((w.headD ' ' = 'x' ∧ e = instOfWords (w :: ws)) ∨
     (w.headD ' ' ≠ 'x' ∧ e = elemOfWords 2 (w :: ws)))

/-- A Directive as produced by the netlist parser from some line's tokens. -/
def dirGood (d : Directive) : Prop :=
  ∃ w ws, tksOK (w :: ws) ∧ w.headD ' ' = '.' ∧
    (w.tail).asString ≠ "subckt" ∧ (w.tail).asString ≠ "ends" ∧
    d = mkDirective (w :: ws)

/-! Parser-image invariants for Blocks, nested registries, frames and
items. -/
mutual
def blockGood : Block → Prop
  | .mk n p es g bs =>
    (∃ nw pws, tksOK ((".subckt".toList) :: nw ++ pws.map String.toList) ∧
      ((nw = [] ∧ n = "" ∧ p = []) ∨
       (∃ nt, nw = [nt] ∧ n = nt.asString ∧ p = pws))) ∧
    g = graphOf es ∧ (∀ e ∈ es, elemGood e) ∧ blockListGood bs
def blockListGood : BlockList → Prop
  | .nil => True
  | .cons k b rest => k = b.name ∧ blockGood b ∧ blockListGood rest
end

/-- A parser frame whose collected pieces are parser-image values. -/
def frameGood (f : Frame) : Prop :=
  (∃ nw pws, tksOK ((".subckt".toList) :: nw ++ pws.map String.toList) ∧
    ((nw = [] ∧ f.name = "" ∧ f.ports = []) ∨
     (∃ nt, nw = [nt] ∧ f.name = nt.asString ∧ f.ports = pws))) ∧
  (∀ e ∈ f.elems, elemGood e) ∧ blockListGood f.bs

/-- A NetItem as produced by the netlist parser. -/
def itemGood : NetItem → Prop
  | .elem e => elemGood e
  | .dir d => dirGood d
  | .blockDef b => blockGood b

/-! ## Type Registry / Dispatcher (ElementMux), modelled from the spec §4.2 -/

/-! Modelled from the spec: elements.py is not under src/; the registry is
built by introspecting all transitive descendants of a root type.  The
descendant hierarchy is modelled as a tree of declared prefixes. -/
mutual
inductive TypeTree where
  | node (pfx : String) (children : TypeTreeList)
inductive TypeTreeList where
  | nil
  | cons (t : TypeTree) (rest : TypeTreeList)
end

def TypeTree.pfx : TypeTree → String
  | .node p _ => p

/-! Modelled from the spec: elements.py is not under src/; every transitive
descendant of the root is enrolled by its declared prefix, except that a
subtype whose prefix is named in the exclusion set (`leave`) is skipped
together with its descendants (spec §4.2; test_element_mux expects
`leave=('x',)` to keep `x` itself out of the prefix list). -/
mutual
def TypeTree.enroll (leave : List String) : TypeTree → List String
  | .node p cs => if p ∈ leave then [] else p :: TypeTreeList.enroll leave cs
def TypeTreeList.enroll (leave : List String) : TypeTreeList → List String
  | .nil => []
  | .cons t ts => TypeTree.enroll leave t ++ TypeTreeList.enroll leave ts
end

/-- Modelled from the spec: the Type Registry holds a root type (used when
no more specific type matches) and the prefix registry built from the
root's descendants (spec §4.2). -/
structure ElementMux where
  rootPfx : String
  registry : List String

/-- Builds an ElementMux from the root type's prefix, its descendant tree
and the exclusion set. -/
def ElementMux.make (rootPfx : String) (children : TypeTreeList)
    (leave : List String) : ElementMux :=
  ⟨rootPfx, TypeTreeList.enroll leave children⟩

/-- Character-list prefix test. -/
def isPfx : List Char → List Char → Bool
  | [], _ => true
  | _ :: _, [] => false
  | c :: cs, d :: ds => c == d && isPfx cs ds

/-- Selects the longest string of a candidate list. -/
def pickLongest : List String → Option String
  | [] => none
  | p :: ps =>
    match pickLongest ps with
    | none => some p
    | some q => if p.length < q.length then some q else some p

/-- The leading alphabetic run of a declaration's name token (spec §4.2). -/
def leadingAlphaRun (decl : String) : List Char :=
  ((tokenize decl).headD []).takeWhile Char.isAlpha

/-- Modelled from the spec: elements.py is not under src/; `mux` extracts
the leading alphabetic run of the declaration's name token and selects the
registered type whose prefix is the longest registered prefix of that run,
falling back to the root when no registered prefix matches (spec §4.2). -/
def ElementMux.mux (m : ElementMux) (decl : String) : String :=
  match pickLongest (m.registry.filter
      (fun p => isPfx p.toList (leadingAlphaRun decl))) with
  | some s => s
  | none => m.rootPfx

/-- The descendant tree of test_element_mux: root `a` with children `b`
(which has child `bc`) and `x`. -/
def testTree : TypeTreeList :=
  .cons (.node "b" (.cons (.node "bc" .nil) .nil)) (.cons (.node "x" .nil) .nil)

/-- The mux of test_element_mux: `ElementMux(root=a, leave=('x',))`. -/
def testMux : ElementMux := ElementMux.make "a" testTree ["x"]

/-- A small concrete Block used to instantiate the `add` theorem. -/
def sampleBlock : Block :=
  .mk "sample" [] [parseElement "R1 n1 0 100"]
    [("n1", ["r1"]), ("0", ["r1"])] .nil

/-- A concrete Block mirroring the `short` scenario of test_block_class:
elements es1 (s1,1), es2 (s2,3), es3 (s2,s1); shorting merges s2 into s1
and removes es3, which would connect s1 to itself. -/
def shortBlock : Block :=
  .mk "test" [] [parseElement "es1 s1 1 10", parseElement "es2 s2 3 10k",
    parseElement "es3 s2 s1 1M"]
    [("s1", ["es1", "es3"]), ("1", ["es1"]), ("s2", ["es2", "es3"]),
     ("3", ["es2"])] .nil

end Linsim

namespace QLearn

/-! ## variablenstep, embedded from src/qlearn/algorithms/variablenstep.py

The learning loop is a method over a QLearner object `self`.  The
embedding threads `self`'s mutable state (an environment `σ`: the
function-approximation weights changed by `update`, and the simulator
continuation state advanced by `next_state`, see src/qlearn/slearner.py)
explicitly; the remaining methods read that state.  `np.inf` is modelled
as `none : Option Nat`, and the real-valued quantities as rationals. -/

/-- The QLearner interface used by `variablenstep` (src/qlearn/slearner.py):
`qvalueAll` is `self.qvalue(state)` without an action (the array of
q-values of all actions), and `actionIndex` is the index of an action into
that array (`naction` itself, or `self.actionconverter.encode(naction)` for
vector actions). -/
structure Learner (σ State Action : Type) where
  depth : Nat
  steps : Nat
  discount : ℚ
  next_action : σ → State → Action
  qvalue : σ → State → Action → ℚ
  qvalueAll : σ → State → List ℚ
  stepsize : σ → State → Option ℚ
  next_state : σ → State → Action → Option ℚ → State × σ
  reward : σ → State → Action → State → Option ℚ → ℚ
  a_probs : σ → State → List ℚ
  actionIndex : Action → Nat
  goal : σ → State → Bool
  update : σ → State → Action → ℚ → σ

/-- `np.dot` of two lists of rationals. -/
def dotQ (xs ys : List ℚ) : ℚ := (List.zipWith (fun a b => a * b) xs ys).sum

/-- The local variables of the `variablenstep` loop
(src/qlearn/algorithms/variablenstep.py:40-47): termination time `T`
(`none` = np.inf), the error history `delta`, the q-value history `Q`, the
action-probability history `pi`, the action history `A`, the state history
`S`, and the threaded learner environment. -/
structure LoopState (σ State Action : Type) where
  T : Option Nat
  delta : List ℚ
  Q : List ℚ
  pi : List ℚ
  A : List Action
  S : List State
  env : σ

/-- The loop guard `tau <= T - 1` (src line 53), true when `T` is np.inf. -/
def tauCond : Option Nat → Int → Bool
  | none, _ => true
  | some n, tau => tau ≤ (n : Int) - 1

/-- The look-ahead guard `t < T` (src line 57), true when `T` is np.inf. -/
def tLtT : Option Nat → Nat → Bool
  | none, _ => true
  | some n, t => t < n

/-- The inner accumulation `for k in range(tau, min(tau+steps, T))` of the
expected return `G` with weight `E` (src lines 92-99). -/
def gReturn (disc : ℚ) (delta pi : List ℚ) (tn upper : Nat) (G0 : ℚ) : ℚ :=
  ((List.range' tn (upper - tn)).foldl
    (fun (p : ℚ × ℚ) k =>
      (p.1 + p.2 * delta.getD k 0, disc * p.2 * pi.getD (k + 1) 0))
    (G0, 1)).1

/-- The look-ahead phase of one loop iteration (src lines 57-87): when
`t < T`, takes the next action and state, appends to the `A`/`S`/`Q`/`pi`
histories, appends the temporal-difference error to `delta`, and sets
`T = t+1` when the next state is a goal; otherwise leaves everything
unchanged. -/
def lookStep {σ State Action : Type} [Inhabited State] [Inhabited Action]
    (L : Learner σ State Action) (t : Nat) (ls : LoopState σ State Action) :
    LoopState σ State Action :=
  if tLtT ls.T t then
    let action := ls.A.getLastD default
    let state := ls.S.getLastD default
    let naction := L.next_action ls.env state
    let step := L.stepsize ls.env state
    let ns := L.next_state ls.env state action step
    let cq := L.qvalue ns.2 state action
    let nq := L.qvalue ns.2 ns.1 naction
    let rew := L.reward ns.2 state action ns.1 step
    let aprobs := L.a_probs ns.2 ns.1
    { T := if L.goal ns.2 ns.1 then some (t + 1) else ls.T
      delta := ls.delta ++ [if L.goal ns.2 ns.1 then rew - cq
        else rew + L.discount * dotQ aprobs (L.qvalueAll ns.2 ns.1) - cq]
      Q := ls.Q ++ [nq]
      pi := ls.pi ++ [aprobs.getD (L.actionIndex naction) 0]
      A := ls.A ++ [naction]
      S := ls.S ++ [ns.1]
      env := ns.2 }
  else ls

/-- The update phase of one loop iteration (src lines 90-100), run when
`tau = t - steps + 1` is non-negative: computes the n-step return `G` from
`Q[tau]` and calls `self.update(S[tau], A[tau], qvalue(S[tau],A[tau]) - G)`,
returning the updated learner environment. -/
def updStep {σ State Action : Type} [Inhabited State] [Inhabited Action]
    (L : Learner σ State Action) (tn : Nat)
    (ls : LoopState σ State Action) : σ :=
  L.update ls.env (ls.S.getD tn default) (ls.A.getD tn default)
    (L.qvalue ls.env (ls.S.getD tn default) (ls.A.getD tn default)
      - gReturn L.discount ls.delta ls.pi tn
          (match ls.T with
           | none => tn + L.steps
           | some n => min (tn + L.steps) n)
          (ls.Q.getD tn 0))

/-- The main loop `while tau <= T-1 and t < self.depth` (src lines 53-101):
each iteration runs the look-ahead phase, recomputes `tau = t - steps + 1`,
runs the update phase when `tau >= 0`, and increments `t`; it terminates
because `t` increases by one each iteration and the guard requires
`t < depth`, so the measure `depth - t` decreases. -/
def vnsLoop {σ State Action : Type} [Inhabited State] [Inhabited Action]
    (L : Learner σ State Action) (tau : Int) (t : Nat)
    (ls : LoopState σ State Action) : List State × List Action :=
  if h : tauCond ls.T tau = true ∧ t < L.depth then
    vnsLoop L ((t : Int) - L.steps + 1) (t + 1)
      (if 0 ≤ (t : Int) - L.steps + 1 then
        { lookStep L t ls with
          env := updStep L ((t : Int) - L.steps + 1).toNat (lookStep L t ls) }
      else lookStep L t ls)
  else (ls.S, ls.A)
termination_by L.depth - t
decreasing_by exact Nat.sub_succ_lt_self _ _ h.2

/-- The initial action: `self.next_action(state) if action is None else
action` (src line 49). -/
def initAction {σ State Action : Type} (L : Learner σ State Action) (env : σ)
    (state : State) (action : Option Action) : Action :=
  match action with
  | none => L.next_action env state
  | some a => a

/-- The loop variables at entry (src lines 40-50): `T = inf`, `tau = 0`,
`t = 0`, `delta = []`, `Q = [qvalue(state, A[-1])]`, `A = [initial action]`,
`S = [state]`, `pi = [1]`. -/
def initLS {σ State Action : Type} (L : Learner σ State Action) (env : σ)
    (state : State) (action : Option Action) : LoopState σ State Action :=
  { T := none, delta := []
    Q := [L.qvalue env state (initAction L env state action)]
    pi := [1]
    A := [initAction L env state action]
    S := [state]
    env := env }

/-- `variablenstep` (src lines 18-102): runs the loop from the given state
and returns `S[1:], A` — the states traversed after the initial state and
the actions taken including the initial one. -/
def variablenstep {σ State Action : Type} [Inhabited State]
    [Inhabited Action] (L : Learner σ State Action) (env : σ) (state : State)
    (action : Option Action) : List State × List Action :=
  ((vnsLoop L 0 0 (initLS L env state action)).1.drop 1,
   (vnsLoop L 0 0 (initLS L env state action)).2)

/-- A trivial concrete learner over unit types, used to instantiate the
depth-bound theorem. -/
def unitLearner : Learner Unit Unit Unit :=
  { depth := 1, steps := 1, discount := 1
    next_action := fun _ _ => ()
    qvalue := fun _ _ _ => 0
    qvalueAll := fun _ _ => [0]
    stepsize := fun _ _ => none
    next_state := fun e s _ _ => (s, e)
    reward := fun _ _ _ _ _ => 0
    a_probs := fun _ _ => [1]
    actionIndex := fun _ => 0
    goal := fun _ _ => false
    update := fun e _ _ _ => e }

end QLearn

namespace Linsim

/-! ## Lemmas -/

lemma encode_decodeAux (b : List Nat) : ∀ i : Nat, i < states b →
    encode b (decodeAux b i) = i := by
  induction b with
  | nil =>
      intro i hi
      simp [states] at hi
      simp [decodeAux, encode, hi]
  | cons b0 bs ih =>
      intro i hi
      have hprod : 0 < bs.prod := by
        rcases Nat.eq_zero_or_pos bs.prod with h0 | h0
        · exfalso
          simp [states, h0] at hi
        · exact h0
      have hmod : i % bs.prod < states bs := Nat.mod_lt _ hprod
      simp only [decodeAux, encode]
      rw [ih _ hmod]
      exact Nat.div_add_mod' i bs.prod

lemma setEG_elements (b : Block) (es : List Element) (g : Graph) :
    (b.setEG es g).elements = es := by
  cases b; rfl

lemma setEG_graph (b : Block) (es : List Element) (g : Graph) :
    (b.setEG es g).graph = g := by
  cases b; rfl

lemma setEG_name (b : Block) (es : List Element) (g : Graph) :
    (b.setEG es g).name = b.name := by
  cases b; rfl

lemma graphAdd_lookup_self (g : Graph) (n x : String) :
    ∃ s, alookup (graphAdd g n x) n = some s ∧ x ∈ s := by
  induction g with
  | nil => exact ⟨[x], by simp [graphAdd, alookup], by simp⟩
  | cons p rest ih =>
      obtain ⟨k, s⟩ := p
      by_cases hk : k = n
      · subst hk
        by_cases hc : x ∈ s
        · exact ⟨s, by simp [graphAdd, alookup, hc], hc⟩
        · exact ⟨s ++ [x], by simp [graphAdd, alookup, hc], by simp⟩
      · obtain ⟨s', h1, h2⟩ := ih
        exact ⟨s', by simpa [graphAdd, alookup, hk] using h1, h2⟩

lemma graphAdd_lookup_preserve (g : Graph) (n x m : String)
    (h : ∃ s, alookup g m = some s ∧ x ∈ s) :
    ∃ s, alookup (graphAdd g n x) m = some s ∧ x ∈ s := by
  induction g with
  | nil => simp [alookup] at h
  | cons p rest ih =>
      obtain ⟨k, s⟩ := p
      obtain ⟨s0, h1, h2⟩ := h
      by_cases hk : k = n
      · subst hk
        by_cases hm : k = m
        · subst hm
          simp [alookup] at h1
          subst h1
          by_cases hc : x ∈ s
          · exact ⟨s, by simp [graphAdd, alookup, hc], h2⟩
          · exact ⟨s ++ [x], by simp [graphAdd, alookup, hc],
              by simp [h2]⟩
        · have h1' : alookup rest m = some s0 := by
            simpa [alookup, hm] using h1
          exact ⟨s0, by simpa [graphAdd, alookup, hm] using h1', h2⟩
      · by_cases hm : k = m
        · subst hm
          simp [alookup] at h1
          subst h1
          exact ⟨s, by simp [graphAdd, hk, alookup], h2⟩
        · have h1' : alookup rest m = some s0 := by
            simpa [alookup, hm] using h1
          obtain ⟨s', h3, h4⟩ := ih ⟨s0, h1', h2⟩
          exact ⟨s', by simpa [graphAdd, hk, alookup, hm] using h3, h4⟩

lemma substNode_name (e : Element) (na nb : String) :
    (e.substNode na nb).name = e.name := rfl

lemma removeElem_elements (b : Block) (x : String) :
    (b.removeElem x).elements = b.elements.filter (fun e => e.name ≠ x) := by
  simp [Block.removeElem, setEG_elements]

lemma removeElem_graph (b : Block) (x : String) :
    (b.removeElem x).graph
      = (b.graph.map (fun p => (p.1, p.2.filter (fun y => y ≠ x)))).filter
          (fun p => !p.2.isEmpty) := by
  simp [Block.removeElem, setEG_graph]

lemma foldl_remove_subset (L : List Element) :
    ∀ (bl : Block) (e' : Element),
      e' ∈ (L.foldl (fun b e => b.removeElem e.name) bl).elements →
      e' ∈ bl.elements := by
  induction L with
  | nil =>
      intro bl e' h
      simpa using h
  | cons a L ih =>
      intro bl e' h
      simp only [List.foldl_cons] at h
      have h2 := ih _ _ h
      rw [removeElem_elements] at h2
      exact List.mem_of_mem_filter h2

lemma foldl_remove_names (L : List Element) :
    ∀ (bl : Block) (eR : Element), eR ∈ L →
      ∀ e' ∈ (L.foldl (fun b e => b.removeElem e.name) bl).elements,
        e'.name ≠ eR.name := by
  induction L with
  | nil => simp
  | cons a L ih =>
      intro bl eR hmem e' he'
      simp only [List.foldl_cons] at he'
      rcases List.mem_cons.mp hmem with h | h
      · subst h
        have hsub := foldl_remove_subset L _ _ he'
        rw [removeElem_elements] at hsub
        have hfilter := List.of_mem_filter hsub
        simpa using hfilter
      · exact ih _ _ h _ he'

lemma alookup_none_iff (g : Graph) (m : String) :
    alookup g m = none ↔ ∀ p ∈ g, p.1 ≠ m := by
  induction g with
  | nil => simp [alookup]
  | cons p rest ih =>
      obtain ⟨k, s⟩ := p
      by_cases hk : k = m
      · subst hk
        simp [alookup]
      · simp [alookup, hk, ih]

lemma foldl_remove_graph_none (L : List Element) :
    ∀ (bl : Block) (m : String), alookup bl.graph m = none →
      alookup ((L.foldl (fun b e => b.removeElem e.name) bl).graph) m
        = none := by
  induction L with
  | nil =>
      intro bl m h
      simpa using h
  | cons a L ih =>
      intro bl m h
      simp only [List.foldl_cons]
      apply ih
      rw [removeElem_graph, alookup_none_iff]
      intro p' hp'
      have hmap := List.mem_of_mem_filter hp'
      obtain ⟨p, hp, hpe⟩ := List.mem_map.mp hmap
      have hk := (alookup_none_iff bl.graph m).mp h p hp
      rw [← hpe]
      exact hk

lemma splitPlainAux_sep (xs ys : List Char) :
    ∀ acc, splitPlainAux (xs ++ ' ' :: ys) acc
      = splitPlainAux xs acc ++ splitPlain ys := by
  induction xs with
  | nil =>
      intro acc
      cases acc with
      | nil => simp [splitPlainAux, splitPlain, isWs]
      | cons a as => simp [splitPlainAux, splitPlain, isWs]
  | cons c xs ih =>
      intro acc
      by_cases hc : isWs c
      · cases acc with
        | nil => simp [splitPlainAux, hc, ih]
        | cons a as => simp [splitPlainAux, hc, ih]
      · simp [splitPlainAux, hc, ih]

lemma splitPlainAux_nows : ∀ (t : List Char), t ≠ [] →
    (∀ c ∈ t, isWs c = false) →
    ∀ acc, splitPlainAux t acc = [acc.reverse ++ t] := by
  intro t
  induction t with
  | nil => intro h; cases h rfl
  | cons c t ih =>
      intro _ hsf acc
      have hc : isWs c = false := hsf c (List.mem_cons_self _ _)
      cases t with
      | nil => simp [splitPlainAux, hc]
      | cons d t' =>
          have hsf' : ∀ x ∈ d :: t', isWs x = false := fun x hx =>
            hsf x (List.mem_cons_of_mem _ hx)
          rw [show splitPlainAux (c :: d :: t') acc
              = splitPlainAux (d :: t') (c :: acc) by simp [splitPlainAux, hc]]
          rw [ih (by simp) hsf' (c :: acc)]
          simp

lemma splitPlain_single (t : List Char) (hne : t ≠ [])
    (hsf : ∀ c ∈ t, isWs c = false) : splitPlain t = [t] := by
  rw [splitPlain, splitPlainAux_nows t hne hsf []]
  simp

lemma splitPlain_interSp_flat : ∀ ws : List (List Char),
    splitPlain (interSp ws) = (ws.map splitPlain).flatten := by
  intro ws
  induction ws with
  | nil => simp [interSp, splitPlain, splitPlainAux]
  | cons w rest ih =>
      cases rest with
      | nil => simp [interSp]
      | cons w' rest' =>
          rw [show interSp (w :: w' :: rest') = w ++ ' ' :: interSp (w' :: rest')
            from rfl]
          rw [splitPlain, splitPlainAux_sep, ← splitPlain, ih]
          simp

lemma splitPlainAux_basic : ∀ (cs acc : List Char),
    (∀ c ∈ acc, isWs c = false) →
    ∀ w ∈ splitPlainAux cs acc, w ≠ [] ∧ ∀ c ∈ w, isWs c = false := by
  intro cs
  induction cs with
  | nil =>
      intro acc hacc w hw
      cases acc with
      | nil => simp [splitPlainAux] at hw
      | cons a as =>
          simp [splitPlainAux] at hw
          subst hw
          refine ⟨by simp, ?_⟩
          intro c hc
          exact hacc c (by simp at hc ⊢; exact Or.symm hc)
  | cons c rest ih =>
      intro acc hacc w hw
      by_cases hc : isWs c
      · cases acc with
        | nil =>
            simp only [splitPlainAux, hc, if_true, List.isEmpty_nil] at hw
            exact ih [] (by simp) w (by simpa using hw)
        | cons a as =>
            simp only [splitPlainAux, hc, if_true] at hw
            rcases List.mem_cons.mp (by simpa using hw) with h | h
            · subst h
              refine ⟨by simp, ?_⟩
              intro x hx
              exact hacc x (by simp at hx ⊢; exact Or.symm hx)
            · exact ih [] (by simp) w h
      · have hc' : isWs c = false := by simpa using hc
        simp only [splitPlainAux, hc', if_false] at hw
        refine ih (c :: acc) ?_ w (by simpa using hw)
        intro x hx
        rcases List.mem_cons.mp hx with h | h
        · subst h; exact hc'
        · exact hacc x h

lemma splitPlainAux_subset : ∀ (cs acc : List Char),
    ∀ w ∈ splitPlainAux cs acc, ∀ c ∈ w, c ∈ cs ∨ c ∈ acc := by
  intro cs
  induction cs with
  | nil =>
      intro acc w hw c hc
      cases acc with
      | nil => simp [splitPlainAux] at hw
      | cons a as =>
          simp [splitPlainAux] at hw
          subst hw
          exact Or.inr (by simp at hc ⊢; exact Or.symm hc)
  | cons x rest ih =>
      intro acc w hw c hc
      by_cases hx : isWs x
      · cases acc with
        | nil =>
            simp only [splitPlainAux, hx, if_true, List.isEmpty_nil] at hw
            rcases ih [] w (by simpa using hw) c hc with h | h
            · exact Or.inl (List.mem_cons_of_mem _ h)
            · simp at h
        | cons a as =>
            simp only [splitPlainAux, hx, if_true] at hw
            rcases List.mem_cons.mp (by simpa using hw) with h | h
            · subst h
              exact Or.inr (by simp at hc ⊢; exact Or.symm hc)
            · rcases ih [] w h c hc with h2 | h2
              · exact Or.inl (List.mem_cons_of_mem _ h2)
              · simp at h2
      · have hx' : isWs x = false := by simpa using hx
        simp only [splitPlainAux, hx', if_false] at hw
        rcases ih (x :: acc) w hw c hc with h | h
        · exact Or.inl (List.mem_cons_of_mem _ h)
        · rcases List.mem_cons.mp h with h2 | h2
          · subst h2
            exact Or.inl (List.mem_cons_self _ _)
          · exact Or.inr h2

lemma noEqWs_tail : ∀ {a : Char} {l : List Char}, noEqWs (a :: l) → noEqWs l := by
  intro a l h
  cases l with
  | nil => trivial
  | cons b r => exact h.2

lemma noEqWs_dropWhile (p : Char → Bool) :
    ∀ l, noEqWs l → noEqWs (l.dropWhile p) := by
  intro l
  induction l with
  | nil => intro h; simpa using h
  | cons a l ih =>
      intro h
      by_cases hp : p a
      · rw [List.dropWhile_cons_of_pos hp]
        exact ih (noEqWs_tail h)
      · rw [List.dropWhile_cons_of_neg hp]
        exact h

lemma dropWhile_head_false (p : Char → Bool) :
    ∀ (l : List Char) (d : Char) (r : List Char),
      l.dropWhile p = d :: r → p d = false := by
  intro l
  induction l with
  | nil => intro d r h; simp at h
  | cons a l ih =>
      intro d r h
      by_cases hp : p a
      · rw [List.dropWhile_cons_of_pos hp] at h
        exact ih d r h
      · rw [List.dropWhile_cons_of_neg hp] at h
        cases h
        simpa using hp

lemma mem_dropWhile_mem (p : Char → Bool) :
    ∀ (l : List Char) (x : Char), x ∈ l.dropWhile p → x ∈ l := by
  intro l
  induction l with
  | nil => intro x hx; simpa using hx
  | cons a l ih =>
      intro x hx
      by_cases hp : p a
      · rw [List.dropWhile_cons_of_pos hp] at hx
        exact List.mem_cons_of_mem _ (ih x hx)
      · rw [List.dropWhile_cons_of_neg hp] at hx
        exact hx

lemma normEq_cons_nil {c : Char} {rest : List Char} (h : normEq rest = []) :
    normEq (c :: rest) = [c] := by
  simp [normEq, h]

lemma normEq_cons_cons {c d : Char} {ds rest : List Char}
    (h : normEq rest = d :: ds) :
    normEq (c :: rest)
      = if (isWs c && decide (d = '=')) = true then d :: ds
        else if (decide (c = '=') && isWs d) = true
          then c :: List.dropWhile isWs ds
        else c :: d :: ds := by
  simp [normEq, h]

lemma normEq_subset : ∀ cs, ∀ c ∈ normEq cs, c ∈ cs := by
  intro cs
  induction cs with
  | nil => simp [normEq]
  | cons c rest ih =>
      intro x hx
      rcases hrest : normEq rest with _ | ⟨d, ds⟩
      · rw [normEq_cons_nil hrest] at hx
        simp at hx
        simp [hx]
      · have hds : ∀ y ∈ d :: ds, y ∈ rest := fun y hy =>
          ih y (hrest ▸ hy)
        rw [normEq_cons_cons hrest] at hx
        by_cases h1 : (isWs c && decide (d = '=')) = true
        · rw [if_pos h1] at hx
          exact List.mem_cons_of_mem _ (hds x hx)
        · rw [if_neg h1] at hx
          by_cases h2 : (decide (c = '=') && isWs d) = true
          · rw [if_pos h2] at hx
            rcases List.mem_cons.mp hx with h | h
            · simp [h]
            · have hx2 : x ∈ ds := mem_dropWhile_mem isWs ds x h
              exact List.mem_cons_of_mem _ (hds x (List.mem_cons_of_mem _ hx2))
          · rw [if_neg h2] at hx
            rcases List.mem_cons.mp hx with h | h
            · simp [h]
            · exact List.mem_cons_of_mem _ (hds x h)

lemma normEq_noEqWs : ∀ cs, noEqWs (normEq cs) := by
  intro cs
  induction cs with
  | nil => simp [normEq, noEqWs]
  | cons c rest ih =>
      rcases hrest : normEq rest with _ | ⟨d, ds⟩
      · rw [normEq_cons_nil hrest]
        trivial
      · rw [hrest] at ih
        rw [normEq_cons_cons hrest]
        by_cases h1 : (isWs c && decide (d = '=')) = true
        · rw [if_pos h1]
          exact ih
        · rw [if_neg h1]
          by_cases h2 : (decide (c = '=') && isWs d) = true
          · rw [if_pos h2]
            rcases hd : List.dropWhile isWs ds with _ | ⟨e, es⟩
            · trivial
            · simp only [Bool.and_eq_true, decide_eq_true_eq] at h2
              refine ⟨⟨?_, ?_⟩, ?_⟩
              · intro hcon
                rw [h2.1] at hcon
                exact absurd hcon.1 (by decide)
              · intro hcon
                have he := dropWhile_head_false isWs ds e es hd
                rw [he] at hcon
                exact absurd hcon.2 (by decide)
              · rw [← hd]
                exact noEqWs_dropWhile isWs ds (noEqWs_tail ih)
          · rw [if_neg h2]
            simp only [Bool.and_eq_true, decide_eq_true_eq, not_and] at h1 h2
            refine ⟨⟨?_, ?_⟩, ih⟩
            · intro hcon
              exact h1 hcon.1 hcon.2
            · intro hcon
              exact h2 hcon.1 hcon.2

lemma normEq_id : ∀ cs, noEqWs cs → normEq cs = cs := by
  intro cs
  induction cs with
  | nil => simp [normEq]
  | cons c rest ih =>
      intro h
      simp only [normEq]
      rw [ih (noEqWs_tail h)]
      cases rest with
      | nil => rfl
      | cons d ds =>
          have hpair : eqOkPair c d := h.1
          have h1 : (isWs c && decide (d = '=')) = false := by
            rcases hcd : isWs c with _ | _
            · simp
            · simp only [Bool.true_and, decide_eq_false_iff_not]
              intro hcon
              exact hpair.1 ⟨hcd, hcon⟩
          have h2 : (decide (c = '=') && isWs d) = false := by
            rcases hcd : decide (c = '=') with _ | _
            · simp
            · simp only [Bool.true_and]
              simp only [decide_eq_true_eq] at hcd
              rcases hwd : isWs d with _ | _
              · rfl
              · exact absurd ⟨hcd, hwd⟩ hpair.2
          simp [h1, h2]

lemma char_ofNat_toNat {n : Nat} (h : n.isValidChar) : (Char.ofNat n).toNat = n := by
  unfold Char.ofNat
  rw [dif_pos h]
  rfl

lemma toLower_eq_of_upper {c : Char} (h : 65 ≤ c.toNat ∧ c.toNat ≤ 90) :
    c.toLower = Char.ofNat (c.toNat + 32) := by
  simp only [Char.toLower]
  rw [if_pos h]

lemma toLower_eq_self {c : Char} (h : ¬(65 ≤ c.toNat ∧ c.toNat ≤ 90)) :
    c.toLower = c := by
  simp only [Char.toLower]
  rw [if_neg h]

lemma toLower_idem (c : Char) : c.toLower.toLower = c.toLower := by
  by_cases h : 65 ≤ c.toNat ∧ c.toNat ≤ 90
  · rw [toLower_eq_of_upper h]
    have hv : (c.toNat + 32).isValidChar := Or.inl (by omega)
    have ht : (Char.ofNat (c.toNat + 32)).toNat = c.toNat + 32 :=
      char_ofNat_toNat hv
    exact toLower_eq_self (by rw [ht]; omega)
  · rw [toLower_eq_self h, toLower_eq_self h]

lemma splitPlainAux_acc : ∀ (cs : List Char) (acc : List Char), acc ≠ [] →
    splitPlainAux cs acc
      = (acc.reverse ++ cs.takeWhile (fun c => !isWs c))
        :: splitPlain (cs.dropWhile (fun c => !isWs c)) := by
  intro cs
  induction cs with
  | nil =>
      intro acc hne
      cases acc with
      | nil => cases hne rfl
      | cons a as => simp [splitPlainAux, splitPlain]
  | cons c cs ih =>
      intro acc hne
      by_cases hc : isWs c
      · cases acc with
        | nil => cases hne rfl
        | cons a as => simp [splitPlainAux, splitPlain, hc]
      · have hc' : isWs c = false := by simpa using hc
        rw [show splitPlainAux (c :: cs) acc = splitPlainAux cs (c :: acc) by
          simp [splitPlainAux, hc']]
        rw [ih (c :: acc) (by simp)]
        simp [hc']

lemma splitPlain_cons_ws {c : Char} {cs : List Char} (h : isWs c = true) :
    splitPlain (c :: cs) = splitPlain cs := by
  simp [splitPlain, splitPlainAux, h]

lemma splitPlain_cons_nws {c : Char} {cs : List Char} (h : isWs c = false) :
    splitPlain (c :: cs)
      = (c :: cs.takeWhile (fun x => !isWs x))
        :: splitPlain (cs.dropWhile (fun x => !isWs x)) := by
  rw [show splitPlain (c :: cs) = splitPlainAux cs [c] by
    simp [splitPlain, splitPlainAux, h]]
  rw [splitPlainAux_acc cs [c] (by simp)]
  simp

lemma dropWhile_length_le (p : Char → Bool) :
    ∀ l : List Char, (l.dropWhile p).length ≤ l.length := by
  intro l
  induction l with
  | nil => simp
  | cons a l ih =>
      by_cases hp : p a
      · rw [List.dropWhile_cons_of_pos hp]
        exact Nat.le_succ_of_le ih
      · rw [List.dropWhile_cons_of_neg hp]

lemma noEqWs_junction : ∀ (xs : List Char) (x y : Char) (ys : List Char),
    xs.getLast? = some x → noEqWs (xs ++ y :: ys) → eqOkPair x y := by
  intro xs
  induction xs with
  | nil => intro x y ys hl; simp at hl
  | cons a xs ih =>
      intro x y ys hl hn
      cases xs with
      | nil =>
          simp at hl
          subst hl
          exact hn.1
      | cons b xs' =>
          rw [List.getLast?_cons_cons] at hl
          simp only [List.cons_append] at hn
          exact ih x y ys hl hn.2

lemma splitPlain_headsAux : ∀ (n : Nat) (cs : List Char), cs.length ≤ n →
    noEqWs cs → (∀ d ds, cs = d :: ds → isWs d = true) →
    ∀ w ∈ splitPlain cs, w.headD ' ' ≠ '=' := by
  intro n
  induction n with
  | zero =>
      intro cs hlen _ _ w hw
      cases cs with
      | nil => simp [splitPlain, splitPlainAux] at hw
      | cons c cs' => simp at hlen
  | succ n ih =>
      intro cs hlen hne hws w hw
      cases cs with
      | nil => simp [splitPlain, splitPlainAux] at hw
      | cons c cs' =>
          have hc : isWs c = true := hws c cs' rfl
          rw [splitPlain_cons_ws hc] at hw
          cases cs' with
          | nil => simp [splitPlain, splitPlainAux] at hw
          | cons d cs'' =>
              by_cases hd : isWs d
              · refine ih (d :: cs'') ?_ (noEqWs_tail hne)
                  (fun e es he => by cases he; exact hd) w hw
                simp at hlen ⊢
                omega
              · have hd' : isWs d = false := by simpa using hd
                have hdne : d ≠ '=' := fun hcon => hne.1.1 ⟨hc, hcon⟩
                rw [splitPlain_cons_nws hd'] at hw
                rcases List.mem_cons.mp hw with h | h
                · subst h
                  simpa using hdne
                · refine ih (cs''.dropWhile (fun x => !isWs x)) ?_ ?_ ?_ w h
                  · have := dropWhile_length_le (fun x => !isWs x) cs''
                    simp at hlen
                    omega
                  · exact noEqWs_dropWhile _ _ (noEqWs_tail (noEqWs_tail hne))
                  · intro e es he
                    have := dropWhile_head_false (fun x => !isWs x) cs'' e es he
                    simpa using this

lemma splitPlain_tail_headsAux : ∀ (n : Nat) (cs : List Char), cs.length ≤ n →
    noEqWs cs → ∀ w ∈ (splitPlain cs).tail, w.headD ' ' ≠ '=' := by
  intro n
  induction n with
  | zero =>
      intro cs hlen _ w hw
      cases cs with
      | nil => simp [splitPlain, splitPlainAux] at hw
      | cons c cs' => simp at hlen
  | succ n ih =>
      intro cs hlen hne w hw
      cases cs with
      | nil => simp [splitPlain, splitPlainAux] at hw
      | cons c cs' =>
          by_cases hc : isWs c
          · rw [splitPlain_cons_ws hc] at hw
            refine ih cs' ?_ (noEqWs_tail hne) w hw
            simp at hlen
            omega
          · have hc' : isWs c = false := by simpa using hc
            rw [splitPlain_cons_nws hc'] at hw
            refine splitPlain_headsAux (cs'.dropWhile (fun x => !isWs x)).length
              (cs'.dropWhile (fun x => !isWs x)) le_rfl ?_ ?_ w hw
            · exact noEqWs_dropWhile _ _ (noEqWs_tail hne)
            · intro e es he
              have := dropWhile_head_false (fun x => !isWs x) cs' e es he
              simpa using this

lemma splitPlain_tail_heads (cs : List Char) (h : noEqWs cs) :
    ∀ w ∈ (splitPlain cs).tail, w.headD ' ' ≠ '=' :=
  splitPlain_tail_headsAux cs.length cs le_rfl h

lemma splitPlain_lastsAux : ∀ (n : Nat) (cs : List Char), cs.length ≤ n →
    noEqWs cs → ∀ w ∈ (splitPlain cs).dropLast, w.getLast? ≠ some '=' := by
  intro n
  induction n with
  | zero =>
      intro cs hlen _ w hw
      cases cs with
      | nil => simp [splitPlain, splitPlainAux] at hw
      | cons c cs' => simp at hlen
  | succ n ih =>
      intro cs hlen hne w hw
      cases cs with
      | nil => simp [splitPlain, splitPlainAux] at hw
      | cons c cs' =>
          by_cases hc : isWs c
          · rw [splitPlain_cons_ws hc] at hw
            refine ih cs' ?_ (noEqWs_tail hne) w hw
            simp at hlen
            omega
          · have hc' : isWs c = false := by simpa using hc
            rw [splitPlain_cons_nws hc'] at hw
            rcases hsr : splitPlain (cs'.dropWhile (fun x => !isWs x))
                with _ | ⟨w0, rest⟩
            · rw [hsr] at hw
              simp at hw
            · rw [hsr] at hw
              rcases hr : cs'.dropWhile (fun x => !isWs x) with _ | ⟨e, r'⟩
              · rw [hr] at hsr
                simp [splitPlain, splitPlainAux] at hsr
              · have he : isWs e = true := by
                  have := dropWhile_head_false (fun x => !isWs x) cs' e r' hr
                  simpa using this
                rw [List.dropLast_cons₂] at hw
                rcases List.mem_cons.mp hw with h | h
                · subst h
                  rcases hgl : (c :: cs'.takeWhile (fun x => !isWs x)).getLast?
                      with _ | ⟨x⟩
                  · simp at hgl
                  · have hsplit : (c :: cs'.takeWhile (fun x => !isWs x))
                        ++ (e :: r') = c :: cs' := by
                      rw [List.cons_append, ← hr,
                        List.takeWhile_append_dropWhile]
                    have hj : eqOkPair x e :=
                      noEqWs_junction _ x e r' hgl (by rw [hsplit]; exact hne)
                    intro hcon
                    have hx : x = '=' := by simpa using hcon
                    exact hj.2 ⟨hx, he⟩
                · rw [← hsr] at h
                  refine ih (cs'.dropWhile (fun x => !isWs x)) ?_ ?_ w h
                  · have := dropWhile_length_le (fun x => !isWs x) cs'
                    simp at hlen
                    omega
                  · exact noEqWs_dropWhile _ _ (noEqWs_tail hne)

lemma splitPlain_lasts (cs : List Char) (h : noEqWs cs) :
    ∀ w ∈ (splitPlain cs).dropLast, w.getLast? ≠ some '=' :=
  splitPlain_lastsAux cs.length cs le_rfl h

lemma tokenize_tksOK (s : String) : tksOK (tokenize s) := by
  refine ⟨?_, ?_, ?_⟩
  · intro w hw
    have hbasic := splitPlainAux_basic (normEq (s.toList.map Char.toLower)) []
      (by simp) w hw
    refine ⟨hbasic.1, ?_⟩
    intro c hc
    refine ⟨hbasic.2 c hc, ?_⟩
    have hsub : c ∈ normEq (s.toList.map Char.toLower) := by
      rcases splitPlainAux_subset _ [] w hw c hc with h | h
      · exact h
      · simp at h
    have hmem : c ∈ s.toList.map Char.toLower := normEq_subset _ c hsub
    rcases List.mem_map.mp hmem with ⟨d, _, hd⟩
    rw [← hd]
    exact toLower_idem d
  · exact splitPlain_tail_heads _ (normEq_noEqWs _)
  · exact splitPlain_lasts _ (normEq_noEqWs _)

lemma noEqWs_of_nows : ∀ w : List Char, (∀ c ∈ w, isWs c = false) → noEqWs w := by
  intro w
  induction w with
  | nil => intro _; trivial
  | cons a l ih =>
      intro h
      cases l with
      | nil => trivial
      | cons b r =>
          refine ⟨⟨?_, ?_⟩, ih (fun c hc => h c (List.mem_cons_of_mem _ hc))⟩
          · intro hcon
            rw [h a (List.mem_cons_self _ _)] at hcon
            exact absurd hcon.1 (by decide)
          · intro hcon
            rw [h b (List.mem_cons_of_mem _ (List.mem_cons_self _ _))] at hcon
            exact absurd hcon.2 (by decide)

lemma noEqWs_append_cons : ∀ (xs : List Char) (y : Char) (ys : List Char),
    noEqWs xs → noEqWs (y :: ys) →
    (∀ x, xs.getLast? = some x → eqOkPair x y) →
    noEqWs (xs ++ y :: ys) := by
  intro xs
  induction xs with
  | nil => intro y ys _ h2 _; exact h2
  | cons a xs ih =>
      intro y ys h1 h2 hj
      cases xs with
      | nil => exact ⟨hj a rfl, h2⟩
      | cons b xs' =>
          simp only [List.cons_append]
          refine ⟨h1.1, ?_⟩
          exact ih y ys h1.2 h2 (fun x hx => hj x (by
            rw [List.getLast?_cons_cons]; exact hx))

lemma interSp_cons₂ (w w' : List Char) (ws : List (List Char)) :
    interSp (w :: w' :: ws) = w ++ ' ' :: interSp (w' :: ws) := rfl

lemma interSp_append : ∀ (xs ys : List (List Char)), xs ≠ [] → ys ≠ [] →
    interSp (xs ++ ys) = interSp xs ++ ' ' :: interSp ys := by
  intro xs
  induction xs with
  | nil => intro ys h _; cases h rfl
  | cons w xs ih =>
      intro ys _ hy
      cases xs with
      | nil =>
          cases ys with
          | nil => cases hy rfl
          | cons y ys' => simp [interSp_cons₂, interSp]
      | cons w' xs' =>
          rw [show (w :: w' :: xs') ++ ys = w :: ((w' :: xs') ++ ys) from rfl]
          rw [show w :: ((w' :: xs') ++ ys) = w :: (w' :: (xs' ++ ys)) from rfl]
          rw [interSp_cons₂]
          rw [show w' :: (xs' ++ ys) = (w' :: xs') ++ ys from rfl]
          rw [ih ys (by simp) hy, interSp_cons₂]
          simp

lemma getLast?_cons_ne {α : Type} {a : α} {l : List α} (h : l ≠ []) :
    (a :: l).getLast? = l.getLast? := by
  cases l with
  | nil => cases h rfl
  | cons b r => exact List.getLast?_cons_cons

lemma interSp_head : ∀ (w : List Char) (ws : List (List Char)),
    ∃ t, interSp (w :: ws) = w ++ t := by
  intro w ws
  cases ws with
  | nil => exact ⟨[], by simp [interSp]⟩
  | cons w' ws' => exact ⟨' ' :: interSp (w' :: ws'), rfl⟩

lemma interSp_ne_nil : ∀ (w : List Char) (ws : List (List Char)),
    w ≠ [] → interSp (w :: ws) ≠ [] := by
  intro w ws hw
  rcases interSp_head w ws with ⟨t, ht⟩
  rw [ht]
  cases w with
  | nil => cases hw rfl
  | cons c cs => simp

lemma interSp_getLast?_snoc : ∀ (xs : List (List Char)) (w : List Char),
    w ≠ [] → (interSp (xs ++ [w])).getLast? = w.getLast? := by
  intro xs w hw
  cases xs with
  | nil => simp [interSp]
  | cons x xs' =>
      rw [interSp_append (x :: xs') [w] (by simp) (by simp)]
      rw [show interSp [w] = w from rfl]
      rw [List.getLast?_append, getLast?_cons_ne hw]
      rcases w with _ | ⟨c, cs⟩
      · cases hw rfl
      · have : (c :: cs).getLast? = some ((c :: cs).getLast (by simp)) := by
          simp [List.getLast?_eq_getLast]
        rw [this]
        rfl

lemma interSp_noEqWs : ∀ ws : List (List Char),
    (∀ w ∈ ws, w ≠ [] ∧ ∀ c ∈ w, isWs c = false) →
    (∀ w ∈ ws.tail, w.headD ' ' ≠ '=') →
    (∀ w ∈ ws.dropLast, w.getLast? ≠ some '=') →
    noEqWs (interSp ws) := by
  intro ws
  induction ws with
  | nil => intro _ _ _; trivial
  | cons w ws ih =>
      intro hb ht hd
      cases ws with
      | nil =>
          exact noEqWs_of_nows w (fun c hc =>
            ((hb w (List.mem_cons_self _ _)).2 c hc))
      | cons w' ws' =>
          rw [interSp_cons₂]
          refine noEqWs_append_cons w ' ' (interSp (w' :: ws')) ?_ ?_ ?_
          · exact noEqWs_of_nows w (fun c hc =>
              ((hb w (List.mem_cons_self _ _)).2 c hc))
          · rcases interSp_head w' ws' with ⟨t, htw⟩
            have hw' : w' ≠ [] := (hb w' (by simp)).1
            rcases w' with _ | ⟨c0, w'0⟩
            · cases hw' rfl
            · rw [htw]
              refine ⟨⟨?_, ?_⟩, ?_⟩
              · intro hcon
                have hc0 : c0 ≠ '=' := by
                  have := ht (c0 :: w'0) (by simp)
                  simpa using this
                exact hc0 hcon.2
              · intro hcon
                exact absurd hcon.1 (by decide)
              · have hrec := ih (fun x hx => hb x (List.mem_cons_of_mem _ hx))
                  (fun x hx => ht x (List.mem_cons_of_mem _ hx))
                  (fun x hx => hd x (by
                    rw [List.dropLast_cons₂]
                    exact List.mem_cons_of_mem _ hx))
                rw [htw] at hrec
                exact hrec
          · intro x hx
            refine ⟨?_, ?_⟩
            · intro hcon
              have hnw : isWs x = false := by
                have hmem : x ∈ w := by
                  rcases w with _ | ⟨c, cs⟩
                  · simp at hx
                  · exact List.mem_of_mem_getLast? hx
                exact (hb w (List.mem_cons_self _ _)).2 x hmem
              rw [hnw] at hcon
              exact absurd hcon.1 (by decide)
            · intro hcon
              have : w.getLast? ≠ some '=' := hd w (by
                rw [List.dropLast_cons₂]
                exact List.mem_cons_self _ _)
              rw [hcon.1] at hx
              exact this hx

lemma splitPlain_interSp (ws : List (List Char))
    (h : ∀ w ∈ ws, w ≠ [] ∧ ∀ c ∈ w, isWs c = false) :
    splitPlain (interSp ws) = ws := by
  rw [splitPlain_interSp_flat]
  induction ws with
  | nil => simp
  | cons w ws ih =>
      simp only [List.map_cons, List.flatten_cons]
      rw [splitPlain_single w (h w (by simp)).1 (h w (by simp)).2]
      rw [ih (fun x hx => h x (List.mem_cons_of_mem _ hx))]
      rfl

lemma parenBal_shift : ∀ (l : List Char) (b : Int),
    l.foldl (fun b c => if c = '(' then b + 1 else if c = ')' then b - 1
      else b) b = b + parenBal l := by
  intro l
  induction l with
  | nil => intro b; simp [parenBal]
  | cons c l ih =>
      intro b
      rw [show parenBal (c :: l)
          = l.foldl (fun b c => if c = '(' then b + 1 else if c = ')' then b - 1
            else b) (if c = '(' then (0:Int) + 1 else if c = ')' then 0 - 1
            else 0) from rfl]
      rw [List.foldl_cons, ih, ih]
      by_cases h1 : c = '('
      · simp [h1]; omega
      · by_cases h2 : c = ')'
        · simp [h1, h2]; omega
        · simp [h1, h2]

lemma parenBal_append (xs ys : List Char) :
    parenBal (xs ++ ys) = parenBal xs + parenBal ys := by
  rw [show parenBal (xs ++ ys)
      = (xs ++ ys).foldl (fun b c => if c = '(' then b + 1
        else if c = ')' then b - 1 else b) 0 from rfl]
  rw [List.foldl_append, parenBal_shift]
  rfl

lemma takeWhile_keq (v : List Char) :
    ∀ k : List Char, '=' ∉ k →
      (k ++ '=' :: v).takeWhile (fun c => c ≠ '=') = k := by
  intro k
  induction k with
  | nil => intro _; simp [List.takeWhile_cons]
  | cons a k ih =>
      intro h
      have ha : a ≠ '=' := fun hcon => h (hcon ▸ List.mem_cons_self _ _)
      simp only [List.cons_append, List.takeWhile_cons]
      rw [if_pos (by simp [ha])]
      rw [ih (fun hcon => h (List.mem_cons_of_mem _ hcon))]

lemma dropWhile_keq (v : List Char) :
    ∀ k : List Char, '=' ∉ k →
      (k ++ '=' :: v).dropWhile (fun c => c ≠ '=') = '=' :: v := by
  intro k
  induction k with
  | nil => intro _; simp [List.dropWhile_cons]
  | cons a k ih =>
      intro h
      have ha : a ≠ '=' := fun hcon => h (hcon ▸ List.mem_cons_self _ _)
      simp only [List.cons_append, List.dropWhile_cons]
      rw [if_pos (by simp [ha])]
      exact ih (fun hcon => h (List.mem_cons_of_mem _ hcon))

lemma ranOff_snoc : ∀ (cs : List (List Char)) (b : Int) (w : List Char),
    ranOff b cs → b + (cs.map parenBal).sum + parenBal w > 0 →
    ranOff b (cs ++ [w]) := by
  intro cs
  induction cs with
  | nil => intro b w _ h; exact ⟨by simpa using h, trivial⟩
  | cons c cs ih =>
      intro b w h hsum
      refine ⟨h.1, ih (b + parenBal c) w h.2 ?_⟩
      simp at hsum ⊢
      omega

lemma ranOff_fuse : ∀ (init : List (List Char)) (lst : List Char) (b : Int)
    (w : List Char), ranOff b (init ++ [lst]) →
    b + ((init ++ [lst]).map parenBal).sum + parenBal w > 0 →
    ranOff b (init ++ [lst ++ w]) := by
  intro init
  induction init with
  | nil =>
      intro lst b w _ hsum
      refine ⟨?_, trivial⟩
      rw [parenBal_append]
      simp at hsum
      omega
  | cons c init ih =>
      intro lst b w h hsum
      refine ⟨h.1, ih lst (b + parenBal c) w h.2 ?_⟩
      simp at hsum ⊢
      omega

lemma closesAt_of_ranOff_snoc : ∀ (cs : List (List Char)) (b : Int)
    (w : List Char), ranOff b cs →
    b + (cs.map parenBal).sum + parenBal w ≤ 0 →
    closesAt b (cs ++ [w]) := by
  intro cs
  induction cs with
  | nil =>
      intro b w _ hsum
      show b + parenBal w ≤ 0
      simpa using hsum
  | cons c cs ih =>
      intro b w h hsum
      cases cs with
      | nil =>
          refine ⟨h.1, ?_⟩
          show b + parenBal c + parenBal w ≤ 0
          simp at hsum
          omega
      | cons c2 cs2 =>
          refine ⟨h.1, ih (b + parenBal c) w h.2 ?_⟩
          simp at hsum ⊢
          omega

lemma closesAt_fuse : ∀ (init : List (List Char)) (lst : List Char) (b : Int)
    (w : List Char), ranOff b (init ++ [lst]) →
    b + ((init ++ [lst]).map parenBal).sum + parenBal w ≤ 0 →
    closesAt b (init ++ [lst ++ w]) := by
  intro init
  induction init with
  | nil =>
      intro lst b w _ hsum
      show b + parenBal (lst ++ w) ≤ 0
      rw [parenBal_append]
      simp at hsum
      omega
  | cons c init ih =>
      intro lst b w h hsum
      cases init with
      | nil =>
          refine ⟨h.1, ?_⟩
          show b + parenBal c + parenBal (lst ++ w) ≤ 0
          rw [parenBal_append]
          simp at hsum
          omega
      | cons c2 init2 =>
          refine ⟨h.1, ih lst (b + parenBal c) w h.2 ?_⟩
          simp at hsum ⊢
          omega

lemma gtoksOK_tail {w : List Char} {ws : List (List Char)}
    (h : gtoksOK (w :: ws)) : gtoksOK ws := by
  refine ⟨fun x hx => h.1 x (List.mem_cons_of_mem _ hx), ?_⟩
  intro x hx
  cases ws with
  | nil => simp at hx
  | cons y ys =>
      exact h.2 x (by
        rw [List.dropLast_cons₂]
        exact List.mem_cons_of_mem _ hx)

lemma gtoksOK_final {w : List Char} {ws : List (List Char)}
    (h : gtoksOK (w :: ws)) (hl : w.getLast? = some '=') : ws = [] := by
  cases ws with
  | nil => rfl
  | cons y ys =>
      exact absurd hl (h.2 w (by
        rw [List.dropLast_cons₂]
        exact List.mem_cons_self _ _))

lemma getLast?_append_ne {α : Type} : ∀ (l1 l2 : List α), l2 ≠ [] →
    (l1 ++ l2).getLast? = l2.getLast? := by
  intro l1
  induction l1 with
  | nil => intro l2 _; rfl
  | cons a l1 ih =>
      intro l2 h
      rw [List.cons_append, getLast?_cons_ne (by simp [h]), ih l2 h]

lemma token_split : ∀ (w : List Char), '=' ∈ w →
    w = w.takeWhile (fun c => c ≠ '=')
      ++ '=' :: (w.dropWhile (fun c => c ≠ '=')).tail ∧
    '=' ∉ w.takeWhile (fun c => c ≠ '=') := by
  intro w
  induction w with
  | nil => intro h; simp at h
  | cons c w ih =>
      intro h
      by_cases hc : c = '='
      · subst hc
        constructor
        · rw [List.takeWhile_cons, List.dropWhile_cons]
          simp
        · rw [List.takeWhile_cons]
          simp
      · have hmem : '=' ∈ w := by
          rcases List.mem_cons.mp h with h1 | h1
          · exact absurd h1.symm hc
          · exact h1
        obtain ⟨ih1, ih2⟩ := ih hmem
        constructor
        · rw [List.takeWhile_cons, List.dropWhile_cons]
          rw [if_pos (by simp [hc]), if_pos (by simp [hc])]
          rw [List.cons_append]
          exact congrArg (fun l => c :: l) ih1
        · rw [List.takeWhile_cons, if_pos (by simp [hc])]
          intro hcon
          rcases List.mem_cons.mp hcon with h1 | h1
          · exact hc h1.symm
          · exact ih2 h1

lemma joinStep_comma {acc t : List Char} (h : acc.getLast? = some ',') :
    joinStep acc t = acc ++ t := by
  simp only [joinStep]
  rw [if_pos h]

lemma joinStep_space {acc t : List Char} (h : acc.getLast? ≠ some ',') :
    joinStep acc t = acc ++ ' ' :: t := by
  simp only [joinStep]
  rw [if_neg h]

lemma interSp_snoc_fuse : ∀ (xs : List (List Char)) (lst w : List Char),
    interSp (xs ++ [lst]) ++ w = interSp (xs ++ [lst ++ w]) := by
  intro xs lst w
  cases xs with
  | nil => rfl
  | cons x xs' =>
      rw [interSp_append (x :: xs') [lst] (by simp) (by simp)]
      rw [interSp_append (x :: xs') [lst ++ w] (by simp) (by simp)]
      rw [show interSp [lst] = lst from rfl,
        show interSp [lst ++ w] = lst ++ w from rfl]
      simp

lemma parenBal_pos_ne_nil {x : List Char} (h : parenBal x > 0) : x ≠ [] := by
  intro hc
  subst hc
  simp [parenBal] at h

lemma chunks_getLast? (c : List Char) (cs : List (List Char))
    (hne : ∀ x ∈ c :: cs, x ≠ []) :
    (interSp (c :: cs)).getLast?
      = ((c :: cs).getLast (by simp)).getLast? := by
  have h2 := interSp_getLast?_snoc ((c :: cs).dropLast)
    ((c :: cs).getLast (by simp)) (hne _ (List.getLast_mem _))
  rwa [List.dropLast_concat_getLast] at h2

lemma mem_dropLast_or_getLast {α : Type} (l : List α) (h : l ≠ []) :
    ∀ x ∈ l, x ∈ l.dropLast ∨ x = l.getLast h := by
  intro x hx
  have hdec := List.dropLast_concat_getLast h
  rw [← hdec] at hx
  rcases List.mem_append.mp hx with h1 | h1
  · exact Or.inl h1
  · exact Or.inr (by simpa using h1)

lemma mem_takeWhile_mem (p : Char → Bool) :
    ∀ (l : List Char) (x : Char), x ∈ l.takeWhile p → x ∈ l := by
  intro l
  induction l with
  | nil => intro x hx; simpa using hx
  | cons a l ih =>
      intro x hx
      by_cases hp : p a
      · rw [List.takeWhile_cons, if_pos hp] at hx
        rcases List.mem_cons.mp hx with h | h
        · exact h ▸ List.mem_cons_self _ _
        · exact List.mem_cons_of_mem _ (ih x h)
      · rw [List.takeWhile_cons, if_neg hp] at hx
        simp at hx

lemma mem_dropLast_mem {α : Type} :
    ∀ (l : List α) (x : α), x ∈ l.dropLast → x ∈ l := by
  intro l
  induction l with
  | nil => intro x hx; simpa using hx
  | cons a l ih =>
      intro x hx
      cases l with
      | nil => simp at hx
      | cons b r =>
          rw [List.dropLast_cons₂] at hx
          rcases List.mem_cons.mp hx with h | h
          · exact h ▸ List.mem_cons_self _ _
          · exact List.mem_cons_of_mem _ (ih x h)

lemma headD_append_ne {l1 l2 : List Char} (h : l1 ≠ []) (d : Char) :
    (l1 ++ l2).headD d = l1.headD d := by
  cases l1 with
  | nil => cases h rfl
  | cons a r => rfl

lemma chunksGood_snoc (c : List Char) (cs : List (List Char)) (w : List Char)
    (hch : chunksGood (c :: cs)) (hw : tokBasic w) (hwH : w.headD ' ' ≠ '=')
    (hl1 : ((c :: cs).getLast (by simp)).getLast? ≠ some ',')
    (hl2 : ((c :: cs).getLast (by simp)).getLast? ≠ some '=') :
    chunksGood (c :: (cs ++ [w])) := by
  obtain ⟨hb, ht, hd⟩ := hch
  refine ⟨?_, ?_, ?_⟩
  · intro x hx
    rcases List.mem_cons.mp hx with h | h
    · exact hb x (h ▸ List.mem_cons_self _ _)
    · rcases List.mem_append.mp h with h2 | h2
      · exact hb x (List.mem_cons_of_mem _ h2)
      · have : x = w := by simpa using h2
        subst this
        exact ⟨hw.1, hw.2⟩
  · intro x hx
    rcases List.mem_append.mp hx with h2 | h2
    · exact ht x h2
    · have : x = w := by simpa using h2
      subst this
      exact hwH
  · intro x hx
    rw [show (c :: (cs ++ [w])) = (c :: cs) ++ [w] from rfl,
      List.dropLast_concat] at hx
    rcases mem_dropLast_or_getLast (c :: cs) (by simp) x hx with h | h
    · exact hd x h
    · subst h
      exact ⟨hl1, hl2⟩

lemma chunksGood_fuse (c c2 : List Char) (cs2 : List (List Char)) (w : List Char)
    (hch : chunksGood (c :: c2 :: cs2)) (hw : tokBasic w) :
    chunksGood (c :: ((c2 :: cs2).dropLast
      ++ [(c2 :: cs2).getLast (by simp) ++ w])) := by
  obtain ⟨hb, ht, hd⟩ := hch
  have hlmem : (c2 :: cs2).getLast (by simp) ∈ c2 :: cs2 := List.getLast_mem _
  have hlb := hb _ (List.mem_cons_of_mem _ hlmem)
  refine ⟨?_, ?_, ?_⟩
  · intro x hx
    rcases List.mem_cons.mp hx with h | h
    · exact hb x (h ▸ List.mem_cons_self _ _)
    · rcases List.mem_append.mp h with h2 | h2
      · exact hb x (List.mem_cons_of_mem _ (mem_dropLast_mem _ x h2))
      · have : x = (c2 :: cs2).getLast (by simp) ++ w := by simpa using h2
        subst this
        refine ⟨by simp [hlb.1], ?_⟩
        intro y hy
        rcases List.mem_append.mp hy with h3 | h3
        · exact hlb.2 y h3
        · exact hw.2 y h3
  · intro x hx
    rcases List.mem_append.mp hx with h2 | h2
    · exact ht x (mem_dropLast_mem _ x h2)
    · have : x = (c2 :: cs2).getLast (by simp) ++ w := by simpa using h2
      subst this
      rw [headD_append_ne hlb.1]
      exact ht _ hlmem
  · intro x hx
    rw [show (c :: ((c2 :: cs2).dropLast
        ++ [(c2 :: cs2).getLast (by simp) ++ w]))
      = (c :: (c2 :: cs2).dropLast)
        ++ [(c2 :: cs2).getLast (by simp) ++ w] from rfl,
      List.dropLast_concat] at hx
    refine hd x ?_
    rw [List.dropLast_cons₂]
    exact hx

lemma contains_iff_mem (w : List Char) (a : Char) :
    w.contains a = true ↔ a ∈ w := by
  simp

lemma joinVal_space (v c w : List Char) (cs : List (List Char))
    (hv : v = interSp (c :: cs)) :
    v ++ ' ' :: w = interSp (c :: (cs ++ [w])) := by
  rw [hv, show c :: (cs ++ [w]) = (c :: cs) ++ [w] from rfl,
    interSp_append (c :: cs) [w] (by simp) (by simp)]
  rfl

lemma joinVal_fuse (v c c2 w : List Char) (cs2 : List (List Char))
    (hv : v = interSp (c :: c2 :: cs2)) :
    v ++ w = interSp (c :: ((c2 :: cs2).dropLast
      ++ [(c2 :: cs2).getLast (by simp) ++ w])) := by
  have hdec : (c2 :: cs2).dropLast ++ [(c2 :: cs2).getLast (by simp)]
      = c2 :: cs2 := List.dropLast_concat_getLast _
  rw [hv, show c :: c2 :: cs2
    = c :: ((c2 :: cs2).dropLast ++ [(c2 :: cs2).getLast (by simp)])
    from by rw [hdec]]
  rw [show c :: ((c2 :: cs2).dropLast ++ [(c2 :: cs2).getLast (by simp)])
    = (c :: (c2 :: cs2).dropLast) ++ [(c2 :: cs2).getLast (by simp)] from rfl]
  rw [show c :: ((c2 :: cs2).dropLast ++ [(c2 :: cs2).getLast (by simp) ++ w])
    = (c :: (c2 :: cs2).dropLast)
      ++ [(c2 :: cs2).getLast (by simp) ++ w] from rfl]
  exact interSp_snoc_fuse _ _ _

lemma mapSum_fuse (c2 : List Char) (cs2 : List (List Char)) (w : List Char) :
    (((c2 :: cs2).dropLast
      ++ [(c2 :: cs2).getLast (by simp) ++ w]).map parenBal).sum
      = ((c2 :: cs2).map parenBal).sum + parenBal w := by
  conv_rhs => rw [← List.dropLast_concat_getLast (by simp : c2 :: cs2 ≠ [])]
  simp [parenBal_append]
  omega

lemma groupAux_image : ∀ (toks : List (List Char))
    (st : Option (List Char × List Char × Int)),
    gtoksOK toks → stOK st toks →
    posGood (groupAux toks st).1 ∧ prsGood (groupAux toks st).2 := by
  intro toks
  induction toks with
  | nil =>
      intro st hg hst
      rcases st with _ | ⟨k, v, b⟩
      · constructor
        · intro x hx
          simp [groupAux] at hx
        · show prsGood []
          trivial
      · obtain ⟨hk, c, cs, hv, hch, hc, hran, hb, hend⟩ := hst
        constructor
        · intro x hx
          simp [groupAux] at hx
        · show prsGood [(k, v)]
          exact ⟨hk, Or.inr (Or.inr ⟨c, cs, hv, hch, hc, hran⟩)⟩
  | cons w ws ih =>
      intro st hg hst
      have hwB : tokBasic w := (hg.1 w (List.mem_cons_self _ _)).1
      have hwH : w.headD ' ' ≠ '=' := (hg.1 w (List.mem_cons_self _ _)).2
      have hwne : w ≠ [] := hwB.1
      have hgt : gtoksOK ws := gtoksOK_tail hg
      rcases st with _ | ⟨k, v, b⟩
      · by_cases hcont : w.contains '=' = true
        · have hmem : '=' ∈ w := (contains_iff_mem w '=').mp hcont
          obtain ⟨hdecomp, hkfree⟩ := token_split w hmem
          have hk0 : kGood (w.takeWhile (fun c => c ≠ '=')) := by
            refine ⟨?_, hkfree, ?_⟩
            · intro hnil
              rw [hnil] at hdecomp
              rw [hdecomp] at hwH
              simp at hwH
            · intro x hx
              exact hwB.2 x (mem_takeWhile_mem _ w x hx)
          have hglast : w.getLast?
              = ('=' :: (w.dropWhile (fun c => c ≠ '=')).tail).getLast? := by
            conv_lhs => rw [hdecomp]
            exact getLast?_append_ne _ _ (by simp)
          have hv0sub : ∀ x ∈ (w.dropWhile (fun c => c ≠ '=')).tail, x ∈ w :=
            fun x hx => mem_dropWhile_mem _ w x (List.mem_of_mem_tail hx)
          by_cases hbal :
              parenBal ((w.dropWhile (fun c => c ≠ '=')).tail) > 0
          · rw [show groupAux (w :: ws) none
                = groupAux ws (some (w.takeWhile (fun c => c ≠ '='),
                    (w.dropWhile (fun c => c ≠ '=')).tail,
                    parenBal ((w.dropWhile (fun c => c ≠ '=')).tail)))
              from by simp only [groupAux]; rw [if_pos hcont, if_pos hbal]]
            apply ih _ hgt
            refine ⟨hk0, (w.dropWhile (fun c => c ≠ '=')).tail, [], rfl,
              ?_, hbal, trivial, by simp, ?_⟩
            · refine ⟨?_, by simp, by simp⟩
              intro x hx
              have hxv : x = (w.dropWhile (fun c => c ≠ '=')).tail := by
                simpa using hx
              subst hxv
              exact ⟨parenBal_pos_ne_nil hbal,
                fun y hy => hwB.2 y (hv0sub y hy)⟩
            · intro hvend
              refine gtoksOK_final hg ?_
              rw [hglast, getLast?_cons_ne (parenBal_pos_ne_nil hbal)]
              exact hvend
          · rw [show groupAux (w :: ws) none
                = ((groupAux ws none).1,
                   (w.takeWhile (fun c => c ≠ '='),
                    (w.dropWhile (fun c => c ≠ '=')).tail)
                     :: (groupAux ws none).2)
              from by simp only [groupAux]; rw [if_pos hcont, if_neg hbal]]
            obtain ⟨ihp, ihr⟩ := ih none hgt trivial
            refine ⟨ihp, ?_⟩
            have hsimple : pSimpleShape ((w.dropWhile (fun c => c ≠ '=')).tail) :=
              ⟨fun y hy => hwB.2 y (hv0sub y hy), by omega⟩
            rcases hrec : (groupAux ws none).2 with _ | ⟨p2, rest⟩
            · show pGoodFinal _
              exact ⟨hk0, Or.inl hsimple⟩
            · have hws : ws ≠ [] := by
                intro hnil
                subst hnil
                simp [groupAux] at hrec
              have hwlast : w.getLast? ≠ some '=' := by
                intro hl
                exact hws (gtoksOK_final hg hl)
              have hv0ne : (w.dropWhile (fun c => c ≠ '=')).tail ≠ [] := by
                intro hnil
                refine hwlast ?_
                rw [hglast, hnil]
                rfl
              refine ⟨⟨hk0, Or.inl hsimple, hv0ne, ?_⟩, ?_⟩
              · intro hl
                refine hwlast ?_
                rw [hglast, getLast?_cons_ne hv0ne]
                exact hl
              · rw [← hrec]
                exact ihr
        · rw [show groupAux (w :: ws) none
              = (w :: (groupAux ws none).1, (groupAux ws none).2)
            from by simp only [groupAux]; rw [if_neg hcont]]
          obtain ⟨ihp, ihr⟩ := ih none hgt trivial
          refine ⟨?_, ihr⟩
          intro x hx
          rcases List.mem_cons.mp hx with h1 | h1
          · subst h1
            exact ⟨hwB, fun hm => hcont ((contains_iff_mem _ '=').mpr hm)⟩
          · exact ihp x h1
      · obtain ⟨hk, c, cs, hv, hch, hc, hran, hb, hend⟩ := hst
        have hvne' : v.getLast? ≠ some '=' :=
          fun h => List.cons_ne_nil _ _ (hend h)
        have hcsne : ∀ x ∈ c :: cs, x ≠ [] := fun x hx => (hch.1 x hx).1
        have hvl : v.getLast? = ((c :: cs).getLast (by simp)).getLast? := by
          rw [hv]
          exact chunks_getLast? c cs hcsne
        have hendNew : ∀ u : List Char,
            u.getLast? = w.getLast? → (u.getLast? = some '=' → ws = []) := by
          intro u hu hl
          rw [hu] at hl
          exact gtoksOK_final hg hl
        by_cases habs : b + parenBal w > 0
        · rw [show groupAux (w :: ws) (some (k, v, b))
              = groupAux ws (some (k, joinStep v w, b + parenBal w))
            from by simp only [groupAux]; rw [if_pos habs]]
          apply ih _ hgt
          by_cases hcm : v.getLast? = some ','
          · rw [joinStep_comma hcm]
            cases cs with
            | nil =>
                have hvc : v = c := hv
                refine ⟨hk, c ++ w, [], by rw [hvc]; rfl, ?_, ?_, trivial,
                  ?_, ?_⟩
                · refine ⟨?_, by simp, by simp⟩
                  intro x hx
                  have hxv : x = c ++ w := by simpa using hx
                  subst hxv
                  refine ⟨by simp [hcsne c (by simp)], ?_⟩
                  intro y hy
                  rcases List.mem_append.mp hy with h3 | h3
                  · exact (hch.1 c (by simp)).2 y h3
                  · exact hwB.2 y h3
                · rw [parenBal_append]
                  simp at hb
                  omega
                · rw [parenBal_append]
                  simp at hb ⊢
                  omega
                · exact hendNew _ (getLast?_append_ne _ _ hwne)
            | cons c2 cs2 =>
                refine ⟨hk, c, (c2 :: cs2).dropLast
                    ++ [(c2 :: cs2).getLast (by simp) ++ w],
                  joinVal_fuse v c c2 w cs2 hv,
                  chunksGood_fuse c c2 cs2 w hch hwB, hc, ?_, ?_, ?_⟩
                · refine ranOff_fuse _ _ _ _ ?_ ?_
                  · rw [List.dropLast_concat_getLast]
                    exact hran
                  · rw [List.dropLast_concat_getLast]
                    omega
                · rw [mapSum_fuse]
                  omega
                · exact hendNew _ (getLast?_append_ne _ _ hwne)
          · rw [joinStep_space hcm]
            refine ⟨hk, c, cs ++ [w], joinVal_space v c w cs hv,
              chunksGood_snoc c cs w hch hwB hwH
                (by rw [← hvl]; exact hcm) (by rw [← hvl]; exact hvne'),
              hc, ranOff_snoc cs (parenBal c) w hran (by omega), ?_, ?_⟩
            · simp
              omega
            · refine hendNew _ ?_
              rw [getLast?_append_ne _ _ (by simp), getLast?_cons_ne hwne]
        · rw [show groupAux (w :: ws) (some (k, v, b))
              = ((groupAux ws none).1,
                 (k, joinStep v w) :: (groupAux ws none).2)
            from by simp only [groupAux]; rw [if_neg habs]]
          obtain ⟨ihp, ihr⟩ := ih none hgt trivial
          refine ⟨ihp, ?_⟩
          have hshape : pSimpleShape (joinStep v w) ∨ pClosedShape (joinStep v w) := by
            by_cases hcm : v.getLast? = some ','
            · rw [joinStep_comma hcm]
              cases cs with
              | nil =>
                  have hvc : v = c := hv
                  refine Or.inl ⟨?_, ?_⟩
                  · intro y hy
                    rw [hvc] at hy
                    rcases List.mem_append.mp hy with h3 | h3
                    · exact (hch.1 c (by simp)).2 y h3
                    · exact hwB.2 y h3
                  · rw [hvc, parenBal_append]
                    simp at hb
                    omega
              | cons c2 cs2 =>
                  refine Or.inr ⟨c, (c2 :: cs2).dropLast
                      ++ [(c2 :: cs2).getLast (by simp) ++ w],
                    joinVal_fuse v c c2 w cs2 hv, by simp,
                    chunksGood_fuse c c2 cs2 w hch hwB, hc, ?_⟩
                  refine closesAt_fuse _ _ _ _ ?_ ?_
                  · rw [List.dropLast_concat_getLast]
                    exact hran
                  · rw [List.dropLast_concat_getLast]
                    omega
            · rw [joinStep_space hcm]
              refine Or.inr ⟨c, cs ++ [w], joinVal_space v c w cs hv,
                by simp,
                chunksGood_snoc c cs w hch hwB hwH
                  (by rw [← hvl]; exact hcm) (by rw [← hvl]; exact hvne'),
                hc, closesAt_of_ranOff_snoc cs (parenBal c) w hran (by omega)⟩
          have hjlast : (joinStep v w).getLast? = w.getLast? := by
            by_cases hcm : v.getLast? = some ','
            · rw [joinStep_comma hcm]
              exact getLast?_append_ne _ _ hwne
            · rw [joinStep_space hcm]
              rw [getLast?_append_ne _ _ (by simp), getLast?_cons_ne hwne]
          rcases hrec : (groupAux ws none).2 with _ | ⟨p2, rest⟩
          · show pGoodFinal _
            rcases hshape with h | h
            · exact ⟨hk, Or.inl h⟩
            · exact ⟨hk, Or.inr (Or.inl h)⟩
          · have hws : ws ≠ [] := by
              intro hnil
              subst hnil
              simp [groupAux] at hrec
            have hwlast : w.getLast? ≠ some '=' := by
              intro hl
              exact hws (gtoksOK_final hg hl)
            refine ⟨⟨hk, hshape, ?_, ?_⟩, ?_⟩
            · simp only [joinStep]
              split
              · simp [hwne]
              · simp
            · rw [hjlast]
              exact hwlast
            · rw [← hrec]
              exact ihr

lemma splitPlain_param (k v : List Char) (hkne : k ≠ [])
    (hkws : ∀ c ∈ k, isWs c = false)
    (hshape : pSimpleShape v ∨ pClosedShape v ∨ pFinalShape v) :
    splitPlain (k ++ '=' :: v) = expandParam (k, v) := by
  rcases hshape with hs | hs | hs
  · cases v with
    | nil =>
        rw [show expandParam (k, []) = [k ++ ['=']] from rfl]
        refine splitPlain_single _ (by simp) ?_
        intro c hc
        rcases List.mem_append.mp hc with h | h
        · exact hkws c h
        · have : c = '=' := by simpa using h
          subst this
          decide
    | cons c0 v' =>
        have hvws : ∀ c ∈ c0 :: v', isWs c = false :=
          fun c hc => (hs.1 c hc).1
        rw [show expandParam (k, c0 :: v') = [k ++ '=' :: (c0 :: v')] from by
          simp only [expandParam]
          rw [splitPlain_single _ (by simp) hvws]]
        refine splitPlain_single _ (by simp) ?_
        intro c hc
        rcases List.mem_append.mp hc with h | h
        · exact hkws c h
        · rcases List.mem_cons.mp h with h2 | h2
          · subst h2; decide
          · exact hvws c h2
  all_goals {
    obtain ⟨c, cs, hv, hrest⟩ := hs
    have hch : chunksGood (c :: cs) := by
      first
      | exact hrest.2.1
      | exact hrest.1
    have hcsne : ∀ x ∈ c :: cs, x ≠ [] := fun x hx => (hch.1 x hx).1
    have hcsws : ∀ x ∈ c :: cs, ∀ y ∈ x, isWs y = false :=
      fun x hx y hy => ((hch.1 x hx).2 y hy).1
    have hsp : splitPlain v = c :: cs := by
      rw [hv]
      exact splitPlain_interSp _ (fun x hx => ⟨hcsne x hx, hcsws x hx⟩)
    rw [show expandParam (k, v) = (k ++ '=' :: c) :: cs from by
      simp only [expandParam]
      rw [hsp]]
    have hline : k ++ '=' :: v = interSp ((k ++ '=' :: c) :: cs) := by
      cases cs with
      | nil => rw [hv]; rfl
      | cons d ds =>
          rw [hv, interSp_cons₂, interSp_cons₂]
          simp
    rw [hline]
    refine splitPlain_interSp _ ?_
    intro x hx
    rcases List.mem_cons.mp hx with h | h
    · subst h
      refine ⟨by simp, ?_⟩
      intro y hy
      rcases List.mem_append.mp hy with h2 | h2
      · exact hkws y h2
      · rcases List.mem_cons.mp h2 with h3 | h3
        · subst h3; decide
        · exact hcsws c (by simp) y h3
    · exact ⟨hcsne x (List.mem_cons_of_mem _ h), hcsws x (List.mem_cons_of_mem _ h)⟩
  }

lemma absorb_ranOff_replay : ∀ (cs : List (List Char)) (k v : List Char)
    (b : Int), ranOff b cs →
    (cs ≠ [] → v.getLast? ≠ some ',') →
    (∀ x ∈ cs.dropLast, x.getLast? ≠ some ',') →
    (∀ x ∈ cs, x ≠ []) →
    groupAux cs (some (k, v, b)) = ([], [(k, interSp (v :: cs))]) := by
  intro cs
  induction cs with
  | nil =>
      intro k v b _ _ _ _
      rfl
  | cons c0 cs' ih =>
      intro k v b hran hcm hdc hne
      have hstep : b + parenBal c0 > 0 := hran.1
      rw [show groupAux (c0 :: cs') (some (k, v, b))
          = groupAux cs' (some (k, joinStep v c0, b + parenBal c0))
        from by simp only [groupAux]; rw [if_pos hstep]]
      rw [joinStep_space (hcm (by simp))]
      rw [ih k (v ++ ' ' :: c0) (b + parenBal c0) hran.2 ?_ ?_
        (fun x hx => hne x (List.mem_cons_of_mem _ hx))]
      · rw [show interSp ((v ++ ' ' :: c0) :: cs') = interSp (v :: c0 :: cs')
          from by
            cases cs' with
            | nil => rfl
            | cons d ds =>
                rw [interSp_cons₂, interSp_cons₂, interSp_cons₂]
                simp]
      · intro hcs'
        rw [getLast?_append_ne _ _ (by simp),
          getLast?_cons_ne (hne c0 (by simp))]
        refine hdc c0 ?_
        cases cs' with
        | nil => cases hcs' rfl
        | cons d ds =>
            rw [List.dropLast_cons₂]
            exact List.mem_cons_self _ _
      · intro x hx
        refine hdc x ?_
        cases cs' with
        | nil => simp at hx
        | cons d ds =>
            rw [List.dropLast_cons₂]
            exact List.mem_cons_of_mem _ hx

lemma absorb_closes_replay : ∀ (cs rest : List (List Char)) (k v : List Char)
    (b : Int), closesAt b cs →
    v.getLast? ≠ some ',' →
    (∀ x ∈ cs.dropLast, x.getLast? ≠ some ',') →
    (∀ x ∈ cs, x ≠ []) →
    groupAux (cs ++ rest) (some (k, v, b))
      = ((groupAux rest none).1,
         (k, interSp (v :: cs)) :: (groupAux rest none).2) := by
  intro cs
  induction cs with
  | nil =>
      intro rest k v b h _ _ _
      exact False.elim h
  | cons c0 cs' ih =>
      intro rest k v b hcl hcm hdc hne
      cases cs' with
      | nil =>
          have hle : b + parenBal c0 ≤ 0 := hcl
          rw [show groupAux ((c0 :: []) ++ rest) (some (k, v, b))
              = ((groupAux rest none).1,
                 (k, joinStep v c0) :: (groupAux rest none).2)
            from by
              simp only [List.cons_append, List.nil_append, groupAux]
              rw [if_neg (by omega)]
              rfl]
          rw [joinStep_space hcm]
          rfl
      | cons c1 cs'' =>
          have hstep : b + parenBal c0 > 0 := hcl.1
          rw [show groupAux ((c0 :: c1 :: cs'') ++ rest) (some (k, v, b))
              = groupAux ((c1 :: cs'') ++ rest)
                  (some (k, joinStep v c0, b + parenBal c0))
            from by
              simp only [List.cons_append, groupAux]
              rw [if_pos hstep]]
          rw [joinStep_space hcm]
          rw [ih rest k (v ++ ' ' :: c0) (b + parenBal c0) hcl.2 ?_ ?_
            (fun x hx => hne x (List.mem_cons_of_mem _ hx))]
          · rw [show interSp ((v ++ ' ' :: c0) :: c1 :: cs'')
                = interSp (v :: c0 :: c1 :: cs'') from by
              rw [interSp_cons₂, interSp_cons₂, interSp_cons₂]
              simp]
          · rw [getLast?_append_ne _ _ (by simp),
              getLast?_cons_ne (hne c0 (by simp))]
            refine hdc c0 ?_
            rw [List.dropLast_cons₂]
            exact List.mem_cons_self _ _
          · intro x hx
            refine hdc x ?_
            rw [List.dropLast_cons₂]
            exact List.mem_cons_of_mem _ hx

lemma groupAux_simple_step (k v : List Char) (rest : List (List Char))
    (hkfree : '=' ∉ k) (hsimple : pSimpleShape v) :
    groupAux (expandParam (k, v) ++ rest) none
      = ((groupAux rest none).1, (k, v) :: (groupAux rest none).2) := by
  have hvws : ∀ c ∈ v, isWs c = false := fun c hc => (hsimple.1 c hc).1
  rcases v with _ | ⟨c0, v'⟩
  · rw [show expandParam (k, ([] : List Char)) ++ rest
        = (k ++ ['=']) :: rest from rfl]
    have hcont : (k ++ ['=']).contains '=' = true :=
      (contains_iff_mem _ _).mpr (by simp)
    have htw : (k ++ ['=']).takeWhile (fun c => c ≠ '=') = k :=
      takeWhile_keq [] k hkfree
    have hdw : ((k ++ ['=']).dropWhile (fun c => c ≠ '=')).tail = [] := by
      rw [show (k ++ ['=']) = k ++ '=' :: ([] : List Char) from rfl,
        dropWhile_keq [] k hkfree]
      rfl
    simp only [groupAux]
    rw [htw, hdw, if_pos hcont, if_neg (by simp [parenBal])]
  · have hsp1 : splitPlain (c0 :: v') = [c0 :: v'] :=
      splitPlain_single _ (by simp) hvws
    rw [show expandParam (k, c0 :: v') ++ rest
        = (k ++ '=' :: (c0 :: v')) :: rest from by
      simp only [expandParam]
      rw [hsp1]
      rfl]
    have hcont : (k ++ '=' :: (c0 :: v')).contains '=' = true :=
      (contains_iff_mem _ _).mpr (by simp)
    have htw := takeWhile_keq (c0 :: v') k hkfree
    have hdw : ((k ++ '=' :: (c0 :: v')).dropWhile
        (fun c => c ≠ '=')).tail = c0 :: v' := by
      rw [dropWhile_keq (c0 :: v') k hkfree]
      rfl
    simp only [groupAux]
    rw [htw, hdw, if_pos hcont, if_neg (by have := hsimple.2; omega)]

lemma groupAux_closed_step (k v : List Char) (rest : List (List Char))
    (hkfree : '=' ∉ k) (hcl : pClosedShape v) :
    groupAux (expandParam (k, v) ++ rest) none
      = ((groupAux rest none).1, (k, v) :: (groupAux rest none).2) := by
  obtain ⟨c, cs, hv, hcsne', hch, hbal, hcls⟩ := hcl
  have hne : ∀ x ∈ c :: cs, x ≠ [] := fun x hx => (hch.1 x hx).1
  have hws : ∀ x ∈ c :: cs, ∀ y ∈ x, isWs y = false :=
    fun x hx y hy => ((hch.1 x hx).2 y hy).1
  have hsp : splitPlain v = c :: cs := by
    rw [hv]
    exact splitPlain_interSp _ (fun x hx => ⟨hne x hx, hws x hx⟩)
  rw [show expandParam (k, v) ++ rest = (k ++ '=' :: c) :: (cs ++ rest) from by
    simp only [expandParam]
    rw [hsp]
    simp]
  have hcont : (k ++ '=' :: c).contains '=' = true :=
    (contains_iff_mem _ _).mpr (by simp)
  have htw := takeWhile_keq c k hkfree
  have hdw : ((k ++ '=' :: c).dropWhile (fun c => c ≠ '=')).tail = c := by
    rw [dropWhile_keq c k hkfree]
    rfl
  simp only [groupAux]
  rw [htw, hdw, if_pos hcont, if_pos hbal]
  rw [absorb_closes_replay cs rest k c (parenBal c) hcls ?_ ?_
    (fun x hx => hne x (List.mem_cons_of_mem _ hx))]
  · rw [← hv]
  · refine (hch.2.2 c ?_).1
    cases cs with
    | nil => cases hcsne' rfl
    | cons d ds =>
        rw [List.dropLast_cons₂]
        exact List.mem_cons_self _ _
  · intro x hx
    refine (hch.2.2 x ?_).1
    cases cs with
    | nil => simp at hx
    | cons d ds =>
        rw [List.dropLast_cons₂]
        exact List.mem_cons_of_mem _ hx

lemma groupAux_final_step (k v : List Char)
    (hkfree : '=' ∉ k) (hfin : pFinalShape v) :
    groupAux (expandParam (k, v)) none = ([], [(k, v)]) := by
  obtain ⟨c, cs, hv, hch, hbal, hran⟩ := hfin
  have hne : ∀ x ∈ c :: cs, x ≠ [] := fun x hx => (hch.1 x hx).1
  have hws : ∀ x ∈ c :: cs, ∀ y ∈ x, isWs y = false :=
    fun x hx y hy => ((hch.1 x hx).2 y hy).1
  have hsp : splitPlain v = c :: cs := by
    rw [hv]
    exact splitPlain_interSp _ (fun x hx => ⟨hne x hx, hws x hx⟩)
  rw [show expandParam (k, v) = (k ++ '=' :: c) :: cs from by
    simp only [expandParam]
    rw [hsp]]
  have hcont : (k ++ '=' :: c).contains '=' = true :=
    (contains_iff_mem _ _).mpr (by simp)
  have htw := takeWhile_keq c k hkfree
  have hdw : ((k ++ '=' :: c).dropWhile (fun c => c ≠ '=')).tail = c := by
    rw [dropWhile_keq c k hkfree]
    rfl
  simp only [groupAux]
  rw [htw, hdw, if_pos hcont, if_pos hbal]
  rw [absorb_ranOff_replay cs k c (parenBal c) hran ?_ ?_
    (fun x hx => hne x (List.mem_cons_of_mem _ hx))]
  · rw [← hv]
  · intro hcs
    refine (hch.2.2 c ?_).1
    cases cs with
    | nil => cases hcs rfl
    | cons d ds =>
        rw [List.dropLast_cons₂]
        exact List.mem_cons_self _ _
  · intro x hx
    refine (hch.2.2 x ?_).1
    cases cs with
    | nil => simp at hx
    | cons d ds =>
        rw [List.dropLast_cons₂]
        exact List.mem_cons_of_mem _ hx

lemma groupAux_params_replay : ∀ prs : List (List Char × List Char),
    prsGood prs →
    groupAux ((prs.map expandParam).flatten) none = ([], prs) := by
  intro prs
  induction prs with
  | nil => intro _; rfl
  | cons p rest ih =>
      intro h
      obtain ⟨k, v⟩ := p
      cases rest with
      | nil =>
          have hp : pGoodFinal (k, v) := h
          obtain ⟨hk, hshape⟩ := hp
          rw [show (([(k, v)]).map expandParam).flatten
              = expandParam (k, v) ++ ([] : List (List Char)) from by simp]
          rcases hshape with hs | hs | hs
          · rw [groupAux_simple_step k v [] hk.2.1 hs]
            rfl
          · rw [groupAux_closed_step k v [] hk.2.1 hs]
            rfl
          · rw [List.append_nil, groupAux_final_step k v hk.2.1 hs]
      | cons q rest' =>
          have hp : pGood (k, v) := h.1
          obtain ⟨hk, hshape, _, _⟩ := hp
          rw [show (((k, v) :: q :: rest').map expandParam).flatten
              = expandParam (k, v)
                ++ ((q :: rest').map expandParam).flatten from by simp]
          rcases hshape with hs | hs
          · rw [groupAux_simple_step k v _ hk.2.1 hs, ih h.2]
          · rw [groupAux_closed_step k v _ hk.2.1 hs, ih h.2]

lemma groupAux_replay : ∀ (pos : List (List Char))
    (prs : List (List Char × List Char)),
    posGood pos → prsGood prs →
    groupAux (pos ++ (prs.map expandParam).flatten) none = (pos, prs) := by
  intro pos
  induction pos with
  | nil =>
      intro prs _ h
      rw [List.nil_append]
      exact groupAux_params_replay prs h
  | cons w pos' ih =>
      intro prs hpos hprs
      have hw := hpos w (List.mem_cons_self _ _)
      have hcont : ¬(w.contains '=' = true) :=
        fun hc => hw.2 ((contains_iff_mem _ _).mp hc)
      rw [show (w :: pos') ++ (prs.map expandParam).flatten
          = w :: (pos' ++ (prs.map expandParam).flatten) from rfl]
      rw [show groupAux (w :: (pos' ++ (prs.map expandParam).flatten)) none
          = (w :: (groupAux (pos' ++ (prs.map expandParam).flatten) none).1,
             (groupAux (pos' ++ (prs.map expandParam).flatten) none).2)
        from by
          simp only [groupAux]
          rw [if_neg hcont]]
      rw [ih prs (fun x hx => hpos x (List.mem_cons_of_mem _ hx)) hprs]

lemma headD_mem {α : Type} {l : List α} (h : l ≠ []) (d : α) :
    l.headD d ∈ l := by
  cases l with
  | nil => cases h rfl
  | cons a r => exact List.mem_cons_self _ _

lemma expandParam_simple_cons {k : List Char} {c0 : Char} {v' : List Char}
    (hvws : ∀ c ∈ c0 :: v', isWs c = false) :
    expandParam (k, c0 :: v') = [k ++ '=' :: (c0 :: v')] := by
  simp only [expandParam]
  rw [splitPlain_single _ (by simp) hvws]

lemma expandParam_chunks {v : List Char} (k : List Char) {c : List Char}
    {cs : List (List Char)} (hv : v = interSp (c :: cs))
    (hch : chunksGood (c :: cs)) :
    expandParam (k, v) = (k ++ '=' :: c) :: cs := by
  simp only [expandParam]
  rw [hv, splitPlain_interSp _ (fun x hx =>
    ⟨(hch.1 x hx).1, fun y hy => ((hch.1 x hx).2 y hy).1⟩)]

lemma expandParam_ne_nil (k v : List Char) : expandParam (k, v) ≠ [] := by
  simp only [expandParam]
  rcases splitPlain v with _ | ⟨c, cs⟩
  · simp
  · simp

lemma word_eq_expand (k v : List Char)
    (hshape : pSimpleShape v ∨ pClosedShape v ∨ pFinalShape v) :
    k ++ '=' :: v = interSp (expandParam (k, v)) := by
  rcases hshape with hs | hs | hs
  · rcases v with _ | ⟨c0, v'⟩
    · rfl
    · rw [expandParam_simple_cons (fun c hc => (hs.1 c hc).1)]
      rfl
  all_goals {
    obtain ⟨c, cs, hv, hrest⟩ := hs
    have hch : chunksGood (c :: cs) := by
      first
      | exact hrest.2.1
      | exact hrest.1
    rw [expandParam_chunks k hv hch]
    cases cs with
    | nil => rw [hv]; rfl
    | cons d ds =>
        rw [hv, interSp_cons₂, interSp_cons₂]
        simp
  }

lemma pGood_toFinal {p : List Char × List Char} (h : pGood p) :
    pGoodFinal p := by
  obtain ⟨hk, hs, _, _⟩ := h
  rcases hs with h1 | h1
  · exact ⟨hk, Or.inl h1⟩
  · exact ⟨hk, Or.inr (Or.inl h1)⟩

lemma expandParam_basic {p : List Char × List Char} (hp : pGoodFinal p) :
    ∀ x ∈ expandParam p, x ≠ [] ∧
      (∀ c ∈ x, isWs c = false ∧ Char.toLower c = c) ∧
      x.headD ' ' ≠ '=' := by
  obtain ⟨k, v⟩ := p
  obtain ⟨hk, hshape⟩ := hp
  have hkchars : ∀ c ∈ k, isWs c = false ∧ Char.toLower c = c := hk.2.2
  have hkhead : (k ++ '=' :: v).headD ' ' ≠ '=' ∧
      ∀ u : List Char, (k ++ u).headD ' ' ≠ '=' := by
    constructor
    · rw [headD_append_ne hk.1]
      intro hcon
      exact hk.2.1 (hcon ▸ headD_mem hk.1 ' ')
    · intro u
      rw [headD_append_ne hk.1]
      intro hcon
      exact hk.2.1 (hcon ▸ headD_mem hk.1 ' ')
  rcases hshape with hs | hs | hs
  · rcases v with _ | ⟨c0, v'⟩
    · intro x hx
      have hxv : x = k ++ ['='] := by
        rw [show expandParam (k, ([] : List Char)) = [k ++ ['=']] from rfl]
          at hx
        simpa using hx
      subst hxv
      refine ⟨by simp, ?_, hkhead.2 ['=']⟩
      intro c hc
      rcases List.mem_append.mp hc with h | h
      · exact hkchars c h
      · have : c = '=' := by simpa using h
        subst this
        exact ⟨by decide, by decide⟩
    · intro x hx
      rw [expandParam_simple_cons (fun c hc => (hs.1 c hc).1)] at hx
      have hxv : x = k ++ '=' :: (c0 :: v') := by simpa using hx
      subst hxv
      refine ⟨by simp, ?_, hkhead.2 _⟩
      intro c hc
      rcases List.mem_append.mp hc with h | h
      · exact hkchars c h
      · rcases List.mem_cons.mp h with h2 | h2
        · subst h2
          exact ⟨by decide, by decide⟩
        · exact hs.1 c h2
  all_goals {
    obtain ⟨c, cs, hv, hrest⟩ := hs
    have hch : chunksGood (c :: cs) := by
      first
      | exact hrest.2.1
      | exact hrest.1
    intro x hx
    rw [expandParam_chunks k hv hch] at hx
    rcases List.mem_cons.mp hx with h | h
    · subst h
      refine ⟨by simp, ?_, hkhead.2 _⟩
      intro y hy
      rcases List.mem_append.mp hy with h2 | h2
      · exact hkchars y h2
      · rcases List.mem_cons.mp h2 with h3 | h3
        · subst h3
          exact ⟨by decide, by decide⟩
        · exact (hch.1 c (by simp)).2 y h3
    · exact ⟨(hch.1 x (List.mem_cons_of_mem _ h)).1,
        (hch.1 x (List.mem_cons_of_mem _ h)).2,
        hch.2.1 x h⟩
  }

lemma expandParam_lasts_final {p : List Char × List Char} (hp : pGoodFinal p) :
    ∀ x ∈ (expandParam p).dropLast, x.getLast? ≠ some '=' := by
  obtain ⟨k, v⟩ := p
  obtain ⟨hk, hshape⟩ := hp
  rcases hshape with hs | hs | hs
  · rcases v with _ | ⟨c0, v'⟩
    · intro x hx
      simp [show expandParam (k, ([] : List Char)) = [k ++ ['=']] from rfl]
        at hx
    · intro x hx
      rw [expandParam_simple_cons (fun c hc => (hs.1 c hc).1)] at hx
      simp at hx
  all_goals {
    obtain ⟨c, cs, hv, hrest⟩ := hs
    have hch : chunksGood (c :: cs) := by
      first
      | exact hrest.2.1
      | exact hrest.1
    intro x hx
    rw [expandParam_chunks k hv hch] at hx
    cases cs with
    | nil => simp at hx
    | cons d ds =>
        rw [List.dropLast_cons₂] at hx
        rcases List.mem_cons.mp hx with h | h
        · subst h
          rw [getLast?_append_ne _ _ (by simp),
            getLast?_cons_ne (hch.1 c (by simp)).1]
          exact (hch.2.2 c (by
            rw [List.dropLast_cons₂]
            exact List.mem_cons_self _ _)).2
        · exact (hch.2.2 x (by
            rw [List.dropLast_cons₂]
            exact List.mem_cons_of_mem _ h)).2
  }

lemma expandParam_lasts_nonfinal {p : List Char × List Char} (hp : pGood p) :
    ∀ x ∈ expandParam p, x.getLast? ≠ some '=' := by
  obtain ⟨k, v⟩ := p
  obtain ⟨hk, hshape, hvne, hvlast⟩ := hp
  rcases hshape with hs | hs
  · rcases v with _ | ⟨c0, v'⟩
    · cases hvne rfl
    · intro x hx
      rw [expandParam_simple_cons (fun c hc => (hs.1 c hc).1)] at hx
      have hxv : x = k ++ '=' :: (c0 :: v') := by simpa using hx
      subst hxv
      rw [getLast?_append_ne _ _ (by simp), getLast?_cons_ne (by simp)]
      exact hvlast
  · obtain ⟨c, cs, hv, hcsne', hch, hbal, hcls⟩ := hs
    intro x hx
    rw [expandParam_chunks k hv hch] at hx
    have hv2 : v = interSp (c :: cs) := hv
    have hvl : v.getLast? = ((c :: cs).getLast (by simp)).getLast? := by
      rw [hv2]
      exact chunks_getLast? c cs (fun y hy => (hch.1 y hy).1)
    rcases List.mem_cons.mp hx with h | h
    · subst h
      rw [getLast?_append_ne _ _ (by simp),
        getLast?_cons_ne (hch.1 c (by simp)).1]
      refine (hch.2.2 c ?_).2
      cases cs with
      | nil => cases hcsne' rfl
      | cons d ds =>
          rw [List.dropLast_cons₂]
          exact List.mem_cons_self _ _
    · rcases mem_dropLast_or_getLast (c :: cs) (by simp) x
          (List.mem_cons_of_mem _ h) with h2 | h2
      · exact (hch.2.2 x h2).2
      · subst h2
        rw [← hvl]
        exact hvlast

lemma expParams_OK : ∀ prs : List (List Char × List Char), prsGood prs →
    (∀ x ∈ (prs.map expandParam).flatten, x ≠ [] ∧
      (∀ c ∈ x, isWs c = false ∧ Char.toLower c = c) ∧
      x.headD ' ' ≠ '=') ∧
    (∀ x ∈ ((prs.map expandParam).flatten).dropLast,
      x.getLast? ≠ some '=') := by
  intro prs
  induction prs with
  | nil => intro _; exact ⟨by simp, by simp⟩
  | cons p rest ih =>
      intro h
      have hflat : ((p :: rest).map expandParam).flatten
          = expandParam p ++ (rest.map expandParam).flatten := by simp
      cases rest with
      | nil =>
          have hp : pGoodFinal p := h
          rw [hflat]
          simp only [List.map_nil, List.flatten_nil, List.append_nil]
          exact ⟨expandParam_basic hp, expandParam_lasts_final hp⟩
      | cons q rest' =>
          have hp : pGood p := h.1
          obtain ⟨ih1, ih2⟩ := ih h.2
          rw [hflat]
          have hne : ((q :: rest').map expandParam).flatten ≠ [] := by
            simp only [List.map_cons, List.flatten_cons]
            obtain ⟨k, v⟩ := q
            exact List.append_ne_nil_of_left_ne_nil (expandParam_ne_nil k v) _
          constructor
          · intro x hx
            rcases List.mem_append.mp hx with h1 | h1
            · exact expandParam_basic (pGood_toFinal hp) x h1
            · exact ih1 x h1
          · intro x hx
            rw [List.dropLast_append_of_ne_nil _ hne] at hx
            rcases List.mem_append.mp hx with h1 | h1
            · exact expandParam_lasts_nonfinal hp x h1
            · exact ih2 x h1

lemma mem_interSp : ∀ (ws : List (List Char)) (x : Char),
    x ∈ interSp ws → (∃ w ∈ ws, x ∈ w) ∨ x = ' ' := by
  intro ws
  induction ws with
  | nil => intro x hx; simp [interSp] at hx
  | cons w ws ih =>
      intro x hx
      cases ws with
      | nil => exact Or.inl ⟨w, by simp, hx⟩
      | cons w' ws' =>
          rw [interSp_cons₂] at hx
          rcases List.mem_append.mp hx with h | h
          · exact Or.inl ⟨w, by simp, h⟩
          · rcases List.mem_cons.mp h with h2 | h2
            · exact Or.inr h2
            · rcases ih x h2 with ⟨u, hu, hxu⟩ | h3
              · exact Or.inl ⟨u, List.mem_cons_of_mem _ hu, hxu⟩
              · exact Or.inr h3

lemma map_toLower_id : ∀ l : List Char,
    (∀ c ∈ l, Char.toLower c = c) → l.map Char.toLower = l := by
  intro l
  induction l with
  | nil => intro _; rfl
  | cons c l ih =>
      intro h
      rw [List.map_cons, h c (List.mem_cons_self _ _),
        ih (fun x hx => h x (List.mem_cons_of_mem _ hx))]

lemma asString_nil_iff (l : List Char) : l.asString = "" ↔ l = [] := by
  constructor
  · intro h
    have h2 := congrArg String.toList h
    simpa using h2
  · intro h
    subst h
    rfl

lemma toList_asString_id (l : List (List Char)) :
    (l.map List.asString).map String.toList = l := by
  induction l with
  | nil => rfl
  | cons x r ih =>
      simp only [List.map_cons, ih]
      rfl

lemma interSp_graft (pre chunk suf : List (List Char)) (hch : chunk ≠ []) :
    interSp (pre ++ [interSp chunk] ++ suf)
      = interSp (pre ++ chunk ++ suf) := by
  rcases pre with _ | ⟨p0, pre'⟩ <;> rcases suf with _ | ⟨s0, suf'⟩
  · simp only [List.nil_append, List.append_nil]
    rfl
  · rw [List.nil_append, List.nil_append,
      interSp_append [interSp chunk] (s0 :: suf') (by simp) (by simp),
      interSp_append chunk (s0 :: suf') hch (by simp),
      show interSp [interSp chunk] = interSp chunk from rfl]
  · rw [List.append_nil, List.append_nil,
      interSp_append (p0 :: pre') [interSp chunk] (by simp) (by simp),
      interSp_append (p0 :: pre') chunk (by simp) hch,
      show interSp [interSp chunk] = interSp chunk from rfl]
  · rw [show (p0 :: pre') ++ [interSp chunk] ++ (s0 :: suf')
        = (p0 :: pre') ++ ([interSp chunk] ++ (s0 :: suf')) from by simp,
      show (p0 :: pre') ++ chunk ++ (s0 :: suf')
        = (p0 :: pre') ++ (chunk ++ (s0 :: suf')) from by simp,
      interSp_append (p0 :: pre') ([interSp chunk] ++ (s0 :: suf'))
        (by simp) (by simp),
      interSp_append (p0 :: pre') (chunk ++ (s0 :: suf'))
        (by simp) (fun hcon => hch (List.append_eq_nil.mp hcon).1),
      interSp_append [interSp chunk] (s0 :: suf') (by simp) (by simp),
      interSp_append chunk (s0 :: suf') hch (by simp),
      show interSp [interSp chunk] = interSp chunk from rfl]

lemma interSp_congr_suffix (pre xs ys : List (List Char))
    (h : interSp xs = interSp ys) (hiff : xs = [] ↔ ys = []) :
    interSp (pre ++ xs) = interSp (pre ++ ys) := by
  rcases pre with _ | ⟨p0, pre'⟩
  · simpa using h
  · rcases hxs : xs with _ | ⟨x0, xs'⟩
    · rw [hiff.mp hxs]
    · rcases hys : ys with _ | ⟨y0, ys'⟩
      · exact absurd hys (by
          intro hcon
          rw [hiff.mpr hcon] at hxs
          simp at hxs)
      · rw [interSp_append (p0 :: pre') (x0 :: xs') (by simp) (by simp),
          interSp_append (p0 :: pre') (y0 :: ys') (by simp) (by simp),
          ← hxs, ← hys, h]

lemma prsGood_shapes : ∀ prs : List (List Char × List Char), prsGood prs →
    ∀ p ∈ prs, kGood p.1 ∧
      (pSimpleShape p.2 ∨ pClosedShape p.2 ∨ pFinalShape p.2) := by
  intro prs
  induction prs with
  | nil => intro _ p hp; simp at hp
  | cons q rest ih =>
      intro h p hp
      cases rest with
      | nil =>
          have hq : pGoodFinal q := h
          have : p = q := by simpa using hp
          subst this
          exact ⟨hq.1, hq.2⟩
      | cons r rest' =>
          rcases List.mem_cons.mp hp with h1 | h1
          · subst h1
            exact ⟨h.1.1, (pGood_toFinal h.1).2⟩
          · exact ih h.2 p h1

lemma flatten_expand_nil_iff (prs : List (List Char × List Char)) :
    (prs.map expandParam).flatten = [] ↔ prs = [] := by
  constructor
  · intro h
    cases prs with
    | nil => rfl
    | cons p rest =>
        obtain ⟨k, v⟩ := p
        simp only [List.map_cons, List.flatten_cons] at h
        exact absurd (List.append_eq_nil.mp h).1 (expandParam_ne_nil k v)
  · intro h
    subst h
    rfl

lemma interSp_params_words : ∀ prs : List (List Char × List Char),
    (∀ p ∈ prs, pSimpleShape p.2 ∨ pClosedShape p.2 ∨ pFinalShape p.2) →
    interSp (prs.map (fun p => p.1 ++ '=' :: p.2))
      = interSp ((prs.map expandParam).flatten) := by
  intro prs
  induction prs with
  | nil => intro _; rfl
  | cons p rest ih =>
      intro h
      obtain ⟨k, v⟩ := p
      have hword : k ++ '=' :: v = interSp (expandParam (k, v)) :=
        word_eq_expand k v (h (k, v) (List.mem_cons_self _ _))
      cases rest with
      | nil =>
          simp only [List.map_cons, List.map_nil, List.flatten_cons,
            List.flatten_nil, List.append_nil]
          rw [show interSp [k ++ '=' :: v] = k ++ '=' :: v from rfl, hword]
      | cons q rest' =>
          rw [show ((k, v) :: q :: rest').map (fun p => p.1 ++ '=' :: p.2)
              = (k ++ '=' :: v) :: (q.1 ++ '=' :: q.2)
                :: rest'.map (fun p => p.1 ++ '=' :: p.2) from rfl,
            interSp_cons₂,
            show (q.1 ++ '=' :: q.2) :: rest'.map (fun p => p.1 ++ '=' :: p.2)
              = (q :: rest').map (fun p => p.1 ++ '=' :: p.2) from rfl,
            ih (fun x hx => h x (List.mem_cons_of_mem _ hx))]
          have hfne : ((q :: rest').map expandParam).flatten ≠ [] := by
            intro hcon
            have := (flatten_expand_nil_iff (q :: rest')).mp hcon
            simp at this
          rw [show (((k, v) :: q :: rest').map expandParam).flatten
              = expandParam (k, v) ++ ((q :: rest').map expandParam).flatten
            from by simp,
            interSp_append (expandParam (k, v))
              (((q :: rest').map expandParam).flatten)
              (expandParam_ne_nil k v) hfne,
            ← hword]

lemma tksOK_gtoks {w : List Char} {ws : List (List Char)}
    (h : tksOK (w :: ws)) : gtoksOK ws := by
  refine ⟨?_, ?_⟩
  · intro x hx
    exact ⟨h.1 x (List.mem_cons_of_mem _ hx), h.2.1 x hx⟩
  · intro x hx
    cases ws with
    | nil => simp at hx
    | cons y ys =>
        exact h.2.2 x (by
          rw [List.dropLast_cons₂]
          exact List.mem_cons_of_mem _ hx)

lemma line_tokens (w : List Char) (pos : List (List Char))
    (prs : List (List Char × List Char))
    (hw : tokBasic w)
    (hwlast : pos ++ (prs.map expandParam).flatten ≠ [] →
      w.getLast? ≠ some '=')
    (hpos : posGood pos) (hprs : prsGood prs) :
    tokenize ((interSp (w :: pos ++ (prs.map expandParam).flatten)).asString)
      = w :: pos ++ (prs.map expandParam).flatten := by
  obtain ⟨hpb, _⟩ := expParams_OK prs hprs
  have hbasics : ∀ x ∈ w :: pos ++ (prs.map expandParam).flatten,
      x ≠ [] ∧ ∀ c ∈ x, isWs c = false ∧ Char.toLower c = c := by
    intro x hx
    rcases List.mem_cons.mp hx with h1 | h1
    · subst h1
      exact ⟨hw.1, hw.2⟩
    · rcases List.mem_append.mp h1 with h2 | h2
      · exact ⟨(hpos x h2).1.1, (hpos x h2).1.2⟩
      · exact ⟨(hpb x h2).1, (hpb x h2).2.1⟩
  rw [show tokenize ((interSp
        (w :: pos ++ (prs.map expandParam).flatten)).asString)
      = splitPlain (normEq (((interSp
          (w :: pos ++ (prs.map expandParam).flatten)).asString.toList).map
            Char.toLower)) from rfl]
  rw [show ((interSp (w :: pos
      ++ (prs.map expandParam).flatten)).asString).toList
    = interSp (w :: pos ++ (prs.map expandParam).flatten) from rfl]
  rw [map_toLower_id _ (by
    intro c hc
    rcases mem_interSp _ c hc with ⟨u, hu, hcu⟩ | h
    · exact ((hbasics u hu).2 c hcu).2
    · subst h
      decide)]
  rw [normEq_id _ ?_]
  · exact splitPlain_interSp _ (fun x hx =>
      ⟨(hbasics x hx).1, fun c hc => ((hbasics x hx).2 c hc).1⟩)
  · refine interSp_noEqWs _ (fun x hx =>
      ⟨(hbasics x hx).1, fun c hc => ((hbasics x hx).2 c hc).1⟩) ?_ ?_
    · intro x hx
      rcases List.mem_append.mp hx with h2 | h2
      · have hxp := hpos x h2
        intro hcon
        exact hxp.2 (hcon ▸ headD_mem hxp.1.1 ' ')
      · exact (hpb x h2).2.2
    · intro x hx
      rw [show (w :: pos) ++ (prs.map expandParam).flatten
          = w :: (pos ++ (prs.map expandParam).flatten) from rfl] at hx
      rcases hrest : pos ++ (prs.map expandParam).flatten with _ | ⟨r0, rs⟩
      · rw [hrest] at hx
        simp at hx
      · rw [hrest, List.dropLast_cons₂, ← hrest] at hx
        rcases List.mem_cons.mp hx with h1 | h1
        · subst h1
          exact hwlast (by rw [hrest]; simp)
        · rcases hfl : (prs.map expandParam).flatten with _ | ⟨f0, fs⟩
          · rw [hfl, List.append_nil] at h1
            have hxp := hpos x (mem_dropLast_mem _ x h1)
            intro hcon
            refine hxp.2 ?_
            have hxne := hxp.1.1
            rcases x with _ | ⟨x0, x'⟩
            · cases hxne rfl
            · rw [show '=' = (x0 :: x').getLast (by simp) from by
                have := List.getLast?_eq_getLast (x0 :: x') (by simp)
                rw [this] at hcon
                exact (Option.some.inj hcon).symm]
              exact List.getLast_mem _
          · rw [hfl] at h1
            rw [List.dropLast_append_of_ne_nil _ (by simp)] at h1
            rcases List.mem_append.mp h1 with h2 | h2
            · have hxp := hpos x h2
              intro hcon
              refine hxp.2 ?_
              rcases x with _ | ⟨x0, x'⟩
              · cases hxp.1.1 rfl
              · rw [show '=' = (x0 :: x').getLast (by simp) from by
                  have := List.getLast?_eq_getLast (x0 :: x') (by simp)
                  rw [this] at hcon
                  exact (Option.some.inj hcon).symm]
                exact List.getLast_mem _
            · have := (expParams_OK prs hprs).2 x (by rw [hfl]; exact h2)
              exact this

lemma interSp_ne_nil2 (xs : List (List Char)) (hxs : xs ≠ [])
    (h : ∀ x ∈ xs, x ≠ []) : interSp xs ≠ [] := by
  rcases xs with _ | ⟨x0, xs'⟩
  · cases hxs rfl
  · exact interSp_ne_nil x0 xs' (h x0 (List.mem_cons_self _ _))

lemma params_words_eq (prs : List (List Char × List Char)) :
    (prs.map (fun p => (p.1.asString, p.2.asString))).map
        (fun p => p.1.toList ++ '=' :: p.2.toList)
      = prs.map (fun p => p.1 ++ '=' :: p.2) := by
  induction prs with
  | nil => rfl
  | cons p rest ih =>
      simp only [List.map_cons, ih]
      rfl

lemma params_words_nil_iff (prs : List (List Char × List Char)) :
    prs.map (fun p => p.1 ++ '=' :: p.2) = [] ↔ prs = [] := by
  cases prs <;> simp

lemma elem_serWords_interSp (w : List Char) (ws : List (List Char))
    (hpos : posGood (groupFields ws).1) (hprs : prsGood (groupFields ws).2) :
    interSp (elemOfWords 2 (w :: ws)).serWords
      = interSp ((w :: (groupFields ws).1)
          ++ (((groupFields ws).2).map expandParam).flatten) := by
  have hshapes := prsGood_shapes _ hprs
  have hwords : (elemOfWords 2 (w :: ws)).serWords
      = [w] ++ (groupFields ws).1.take 2
        ++ (if (interSp ((groupFields ws).1.drop 2)).asString = "" then []
            else [interSp ((groupFields ws).1.drop 2)])
        ++ (groupFields ws).2.map (fun p => p.1 ++ '=' :: p.2) := by
    simp only [Element.serWords, elemOfWords]
    rw [toList_asString_id, params_words_eq]
    rfl
  rw [hwords]
  have hiff : ((groupFields ws).2.map (fun p => p.1 ++ '=' :: p.2) = [])
      ↔ ((((groupFields ws).2).map expandParam).flatten = []) := by
    rw [params_words_nil_iff, flatten_expand_nil_iff]
  by_cases hdrop : (groupFields ws).1.drop 2 = []
  · simp only [hdrop]
    rw [if_pos (show (interSp ([] : List (List Char))).asString = ""
      from rfl)]
    rw [List.append_nil]
    have hpos2 : (groupFields ws).1 = (groupFields ws).1.take 2 := by
      conv_lhs => rw [← List.take_append_drop 2 (groupFields ws).1]
      rw [hdrop, List.append_nil]
    rw [show (w :: (groupFields ws).1) = [w] ++ (groupFields ws).1 from rfl]
    conv_rhs => rw [hpos2]
    exact interSp_congr_suffix ([w] ++ (groupFields ws).1.take 2) _ _
      (interSp_params_words _ (fun p hp => (hshapes p hp).2))
      ⟨fun h => (flatten_expand_nil_iff _).mpr ((params_words_nil_iff _).mp h),
       fun h => (params_words_nil_iff _).mpr ((flatten_expand_nil_iff _).mp h)⟩
  · have hvne : (interSp ((groupFields ws).1.drop 2)).asString ≠ "" := by
      intro hcon
      exact interSp_ne_nil2 _ hdrop
        (fun x hx => (hpos x (List.drop_subset 2 _ hx)).1.1)
        ((asString_nil_iff _).mp hcon)
    rw [if_neg hvne]
    rw [show [w] ++ (groupFields ws).1.take 2
          ++ [interSp ((groupFields ws).1.drop 2)]
          ++ (groupFields ws).2.map (fun p => p.1 ++ '=' :: p.2)
        = ([w] ++ (groupFields ws).1.take 2)
          ++ [interSp ((groupFields ws).1.drop 2)]
          ++ (groupFields ws).2.map (fun p => p.1 ++ '=' :: p.2) from by simp]
    rw [interSp_graft ([w] ++ (groupFields ws).1.take 2)
      ((groupFields ws).1.drop 2)
      ((groupFields ws).2.map (fun p => p.1 ++ '=' :: p.2))
      hdrop]
    rw [show ([w] ++ (groupFields ws).1.take 2) ++ (groupFields ws).1.drop 2
          ++ (groupFields ws).2.map (fun p => p.1 ++ '=' :: p.2)
        = ([w] ++ ((groupFields ws).1.take 2 ++ (groupFields ws).1.drop 2))
          ++ (groupFields ws).2.map (fun p => p.1 ++ '=' :: p.2) from by simp]
    rw [List.take_append_drop]
    exact interSp_congr_suffix ([w] ++ (groupFields ws).1) _ _
      (interSp_params_words _ (fun p hp => (hshapes p hp).2))
      ⟨fun h => (flatten_expand_nil_iff _).mpr ((params_words_nil_iff _).mp h),
       fun h => (params_words_nil_iff _).mpr ((flatten_expand_nil_iff _).mp h)⟩

lemma tksOK_first_last {w : List Char} {ws : List (List Char)}
    (htks : tksOK (w :: ws)) (hne : ws ≠ []) : w.getLast? ≠ some '=' := by
  cases ws with
  | nil => cases hne rfl
  | cons y ys =>
      exact htks.2.2 w (by
        rw [List.dropLast_cons₂]
        exact List.mem_cons_self _ _)

lemma elem_line_replay (w : List Char) (ws : List (List Char))
    (htks : tksOK (w :: ws)) :
    tokenize ((elemOfWords 2 (w :: ws)).toLine)
      = (w :: (groupFields ws).1)
        ++ (((groupFields ws).2).map expandParam).flatten := by
  obtain ⟨hpos, hprs⟩ := groupAux_image ws none (tksOK_gtoks htks) trivial
  rw [show (elemOfWords 2 (w :: ws)).toLine
      = (interSp (elemOfWords 2 (w :: ws)).serWords).asString from rfl]
  rw [elem_serWords_interSp w ws hpos hprs]
  refine line_tokens w _ _ (htks.1 w (List.mem_cons_self _ _)) ?_ hpos hprs
  intro hne
  have hws : ws ≠ [] := by
    intro hnil
    subst hnil
    exact hne rfl
  exact tksOK_first_last htks hws

lemma elemOfWords_roundtrip (w : List Char) (ws : List (List Char))
    (htks : tksOK (w :: ws)) :
    elemOfWords 2 (tokenize ((elemOfWords 2 (w :: ws)).toLine))
      = elemOfWords 2 (w :: ws) := by
  rw [elem_line_replay w ws htks]
  obtain ⟨hpos, hprs⟩ := groupAux_image ws none (tksOK_gtoks htks) trivial
  have hrep := groupAux_replay (groupFields ws).1 (groupFields ws).2 hpos hprs
  rw [show (w :: (groupFields ws).1)
      ++ (((groupFields ws).2).map expandParam).flatten
      = w :: ((groupFields ws).1
        ++ (((groupFields ws).2).map expandParam).flatten) from rfl]
  simp only [elemOfWords, List.headD_cons, List.tail_cons]
  rw [show groupFields ((groupFields ws).1
      ++ (((groupFields ws).2).map expandParam).flatten)
    = ((groupFields ws).1, (groupFields ws).2) from hrep]

lemma inst_serWords_interSp (w : List Char) (ws : List (List Char))
    (hpos : posGood (groupFields ws).1)
    (hprs : prsGood (groupFields ws).2) :
    interSp (instOfWords (w :: ws)).serWords
      = interSp ((w :: (groupFields ws).1)
          ++ (((groupFields ws).2).map expandParam).flatten) := by
  have hshapes := prsGood_shapes _ hprs
  have hwords : (instOfWords (w :: ws)).serWords
      = [w] ++ (groupFields ws).1.dropLast
        ++ (if ((groupFields ws).1.getLastD []).asString = "" then []
            else [(groupFields ws).1.getLastD []])
        ++ (groupFields ws).2.map (fun p => p.1 ++ '=' :: p.2) := by
    simp only [Element.serWords, instOfWords]
    rw [toList_asString_id, params_words_eq]
    rfl
  rw [hwords]
  by_cases hpose : (groupFields ws).1 = []
  · simp only [hpose]
    rw [if_pos (show (([] : List (List Char)).getLastD []).asString = ""
      from rfl)]
    exact interSp_congr_suffix [w] _ _
      (interSp_params_words _ (fun p hp => (hshapes p hp).2))
      ⟨fun h => (flatten_expand_nil_iff _).mpr ((params_words_nil_iff _).mp h),
       fun h => (params_words_nil_iff _).mpr ((flatten_expand_nil_iff _).mp h)⟩
  · have hgl : (groupFields ws).1.getLastD []
        = (groupFields ws).1.getLast hpose := by
      rw [List.getLastD_eq_getLast?, List.getLast?_eq_getLast _ hpose]
      rfl
    have hglne : (groupFields ws).1.getLast hpose ≠ [] :=
      (hpos _ (List.getLast_mem hpose)).1.1
    rw [if_neg (by
      rw [hgl]
      intro hcon
      exact hglne ((asString_nil_iff _).mp hcon))]
    rw [hgl]
    rw [show [w] ++ (groupFields ws).1.dropLast
          ++ [(groupFields ws).1.getLast hpose]
          ++ (groupFields ws).2.map (fun p => p.1 ++ '=' :: p.2)
        = ([w] ++ ((groupFields ws).1.dropLast
            ++ [(groupFields ws).1.getLast hpose]))
          ++ (groupFields ws).2.map (fun p => p.1 ++ '=' :: p.2) from by simp]
    rw [List.dropLast_concat_getLast hpose]
    exact interSp_congr_suffix ([w] ++ (groupFields ws).1) _ _
      (interSp_params_words _ (fun p hp => (hshapes p hp).2))
      ⟨fun h => (flatten_expand_nil_iff _).mpr ((params_words_nil_iff _).mp h),
       fun h => (params_words_nil_iff _).mpr ((flatten_expand_nil_iff _).mp h)⟩

lemma inst_line_replay (w : List Char) (ws : List (List Char))
    (htks : tksOK (w :: ws)) :
    tokenize ((instOfWords (w :: ws)).toLine)
      = (w :: (groupFields ws).1)
        ++ (((groupFields ws).2).map expandParam).flatten := by
  obtain ⟨hpos, hprs⟩ := groupAux_image ws none (tksOK_gtoks htks) trivial
  rw [show (instOfWords (w :: ws)).toLine
      = (interSp (instOfWords (w :: ws)).serWords).asString from rfl]
  rw [inst_serWords_interSp w ws hpos hprs]
  refine line_tokens w _ _ (htks.1 w (List.mem_cons_self _ _)) ?_ hpos hprs
  intro hne
  have hws : ws ≠ [] := by
    intro hnil
    subst hnil
    exact hne rfl
  exact tksOK_first_last htks hws

lemma instOfWords_roundtrip (w : List Char) (ws : List (List Char))
    (htks : tksOK (w :: ws)) :
    instOfWords (tokenize ((instOfWords (w :: ws)).toLine))
      = instOfWords (w :: ws) := by
  rw [inst_line_replay w ws htks]
  obtain ⟨hpos, hprs⟩ := groupAux_image ws none (tksOK_gtoks htks) trivial
  have hrep := groupAux_replay (groupFields ws).1 (groupFields ws).2 hpos hprs
  rw [show (w :: (groupFields ws).1)
      ++ (((groupFields ws).2).map expandParam).flatten
      = w :: ((groupFields ws).1
        ++ (((groupFields ws).2).map expandParam).flatten) from rfl]
  simp only [instOfWords, List.headD_cons, List.tail_cons]
  rw [show groupFields ((groupFields ws).1
      ++ (((groupFields ws).2).map expandParam).flatten)
    = ((groupFields ws).1, (groupFields ws).2) from hrep]

lemma dir_serWords_interSp (wt : List Char) (ws : List (List Char))
    (hprs : prsGood (groupFields ws).2) :
    interSp (mkDirective (('.' :: wt) :: ws)).serWords
      = interSp ((('.' :: wt) :: (groupFields ws).1)
          ++ (((groupFields ws).2).map expandParam).flatten) := by
  have hshapes := prsGood_shapes _ hprs
  have hwords : (mkDirective (('.' :: wt) :: ws)).serWords
      = [('.' :: wt)] ++ (groupFields ws).1
        ++ (groupFields ws).2.map (fun p => p.1 ++ '=' :: p.2) := by
    simp only [Directive.serWords, mkDirective]
    rw [toList_asString_id, params_words_eq]
    rfl
  rw [hwords]
  rw [show [('.' :: wt)] ++ (groupFields ws).1
        ++ (groupFields ws).2.map (fun p => p.1 ++ '=' :: p.2)
      = (('.' :: wt) :: (groupFields ws).1)
        ++ (groupFields ws).2.map (fun p => p.1 ++ '=' :: p.2) from by simp]
  exact interSp_congr_suffix (('.' :: wt) :: (groupFields ws).1) _ _
    (interSp_params_words _ (fun p hp => (hshapes p hp).2))
    ⟨fun h => (flatten_expand_nil_iff _).mpr ((params_words_nil_iff _).mp h),
     fun h => (params_words_nil_iff _).mpr ((flatten_expand_nil_iff _).mp h)⟩

lemma dir_line_replay (wt : List Char) (ws : List (List Char))
    (htks : tksOK (('.' :: wt) :: ws)) :
    tokenize ((mkDirective (('.' :: wt) :: ws)).toLine)
      = (('.' :: wt) :: (groupFields ws).1)
        ++ (((groupFields ws).2).map expandParam).flatten := by
  obtain ⟨hpos, hprs⟩ := groupAux_image ws none (tksOK_gtoks htks) trivial
  rw [show (mkDirective (('.' :: wt) :: ws)).toLine
      = (interSp (mkDirective (('.' :: wt) :: ws)).serWords).asString from rfl]
  rw [dir_serWords_interSp wt ws hprs]
  refine line_tokens ('.' :: wt) _ _
    (htks.1 ('.' :: wt) (List.mem_cons_self _ _)) ?_ hpos hprs
  intro hne
  have hws : ws ≠ [] := by
    intro hnil
    subst hnil
    exact hne rfl
  exact tksOK_first_last htks hws

lemma mkDirective_roundtrip (wt : List Char) (ws : List (List Char))
    (htks : tksOK (('.' :: wt) :: ws)) :
    mkDirective (tokenize ((mkDirective (('.' :: wt) :: ws)).toLine))
      = mkDirective (('.' :: wt) :: ws) := by
  rw [dir_line_replay wt ws htks]
  obtain ⟨hpos, hprs⟩ := groupAux_image ws none (tksOK_gtoks htks) trivial
  have hrep := groupAux_replay (groupFields ws).1 (groupFields ws).2 hpos hprs
  rw [show (('.' :: wt) :: (groupFields ws).1)
      ++ (((groupFields ws).2).map expandParam).flatten
      = ('.' :: wt) :: ((groupFields ws).1
        ++ (((groupFields ws).2).map expandParam).flatten) from rfl]
  simp only [mkDirective]
  rw [show groupFields ((groupFields ws).1
      ++ (((groupFields ws).2).map expandParam).flatten)
    = ((groupFields ws).1, (groupFields ws).2) from hrep]

lemma netStep_elemline (line : String) (w : List Char)
    (wrest : List (List Char)) (htok : tokenize line = w :: wrest)
    (hstar : w.headD ' ' ≠ '*') (hdot : w.headD ' ' ≠ '.')
    (acc : List NetItem) :
    netStep line ([], acc) = ([], acc ++ [.elem (if w.headD ' ' = 'x'
      then instOfWords (w :: wrest) else elemOfWords 2 (w :: wrest))]) := by
  simp only [netStep, htok]
  rw [if_neg hstar, if_neg hdot]

lemma netStep_elemline_frame (line : String) (w : List Char)
    (wrest : List (List Char)) (htok : tokenize line = w :: wrest)
    (hstar : w.headD ' ' ≠ '*') (hdot : w.headD ' ' ≠ '.')
    (f : Frame) (stack : List Frame) (acc : List NetItem) :
    netStep line (f :: stack, acc)
      = (⟨f.name, f.ports, f.elems ++ [if w.headD ' ' = 'x'
          then instOfWords (w :: wrest) else elemOfWords 2 (w :: wrest)],
          f.bs⟩ :: stack, acc) := by
  simp only [netStep, htok]
  rw [if_neg hstar, if_neg hdot]

lemma netStep_dirline (line : String) (w : List Char)
    (wrest : List (List Char)) (htok : tokenize line = w :: wrest)
    (hdot : w.headD ' ' = '.') (hk1 : (w.tail).asString ≠ "subckt")
    (hk2 : (w.tail).asString ≠ "ends") (st : List Frame × List NetItem) :
    netStep line st = (st.1, st.2 ++ [.dir (mkDirective (w :: wrest))]) := by
  simp only [netStep, htok]
  rw [if_neg (by rw [hdot]; decide), if_pos hdot, if_neg hk1, if_neg hk2]

lemma netStep_subcktline (line : String) (w : List Char)
    (wrest : List (List Char)) (htok : tokenize line = w :: wrest)
    (hdot : w.headD ' ' = '.') (hsub : (w.tail).asString = "subckt")
    (st : List Frame × List NetItem) :
    netStep line st = (⟨(wrest.headD []).asString,
      wrest.tail.map List.asString, [], .nil⟩ :: st.1, st.2) := by
  simp only [netStep, htok]
  rw [if_neg (by rw [hdot]; decide), if_pos hdot, if_pos hsub]

lemma netStep_endsline1 (line : String) (w : List Char)
    (wrest : List (List Char)) (htok : tokenize line = w :: wrest)
    (hdot : w.headD ' ' = '.') (hends : (w.tail).asString = "ends")
    (hsub : (w.tail).asString ≠ "subckt")
    (f : Frame) (acc : List NetItem) :
    netStep line ([f], acc) = ([], acc ++ [.blockDef (buildBlock f)]) := by
  simp only [netStep, htok]
  rw [if_neg (by rw [hdot]; decide), if_pos hdot, if_neg hsub, if_pos hends]

lemma netStep_endsline2 (line : String) (w : List Char)
    (wrest : List (List Char)) (htok : tokenize line = w :: wrest)
    (hdot : w.headD ' ' = '.') (hends : (w.tail).asString = "ends")
    (hsub : (w.tail).asString ≠ "subckt")
    (f f2 : Frame) (s2 : List Frame) (acc : List NetItem) :
    netStep line (f :: f2 :: s2, acc)
      = (⟨f2.name, f2.ports, f2.elems,
          appendB f2.bs (buildBlock f).name (buildBlock f)⟩ :: s2, acc) := by
  simp only [netStep, htok]
  rw [if_neg (by rw [hdot]; decide), if_pos hdot, if_neg hsub, if_pos hends]

lemma asString_toList_id (l : List String) :
    (l.map String.toList).map List.asString = l := by
  induction l with
  | nil => rfl
  | cons x r ih =>
      simp only [List.map_cons, ih]
      rfl

lemma tokenize_interSp_tksOK (ws : List (List Char)) (h : tksOK ws) :
    tokenize ((interSp ws).asString) = ws := by
  have hbasics : ∀ x ∈ ws, x ≠ [] ∧
      ∀ c ∈ x, isWs c = false ∧ Char.toLower c = c :=
    fun x hx => ⟨(h.1 x hx).1, (h.1 x hx).2⟩
  rw [show tokenize ((interSp ws).asString)
      = splitPlain (normEq (((interSp ws).asString.toList).map Char.toLower))
    from rfl]
  rw [show ((interSp ws).asString).toList = interSp ws from rfl]
  rw [map_toLower_id _ (by
    intro c hc
    rcases mem_interSp _ c hc with ⟨u, hu, hcu⟩ | hsp
    · exact ((hbasics u hu).2 c hcu).2
    · subst hsp
      decide)]
  rw [normEq_id _ (interSp_noEqWs _ (fun x hx =>
    ⟨(hbasics x hx).1, fun c hc => ((hbasics x hx).2 c hc).1⟩) h.2.1 h.2.2)]
  exact splitPlain_interSp _ (fun x hx =>
    ⟨(hbasics x hx).1, fun c hc => ((hbasics x hx).2 c hc).1⟩)

lemma netFold_cons (l : String) (ls : List String)
    (st : List Frame × List NetItem) :
    netFold (l :: ls) st = netFold ls (netStep l st) := rfl

lemma netFold_append (l1 l2 : List String) (st : List Frame × List NetItem) :
    netFold (l1 ++ l2) st = netFold l2 (netFold l1 st) := by
  simp [netFold, List.foldl_append]

lemma concatB_nil : ∀ bs : BlockList, concatB bs .nil = bs
  | .nil => rfl
  | .cons k b r => by simp only [concatB, concatB_nil r]

lemma concatB_appendB : ∀ (bs : BlockList) (k : String) (b : Block)
    (r : BlockList), concatB (appendB bs k b) r = concatB bs (.cons k b r)
  | .nil, k, b, r => rfl
  | .cons k0 b0 bs', k, b, r => by
      simp only [appendB, concatB, concatB_appendB bs' k b r]

lemma appendAll_concatB : ∀ (bl bs : BlockList),
    appendAll bs bl = concatB bs bl
  | .nil, bs => (concatB_nil bs).symm
  | .cons k b r, bs => by
      simp only [appendAll]
      rw [appendAll_concatB r (appendB bs k b), concatB_appendB]

lemma appendAll_nil_left (bl : BlockList) : appendAll .nil bl = bl := by
  rw [appendAll_concatB]
  rfl

lemma netStep_elem_nil (e : Element) (he : elemGood e) (acc : List NetItem) :
    netStep e.toLine ([], acc) = ([], acc ++ [.elem e]) := by
  obtain ⟨w, ws, htks, hstar, hdot, hbr⟩ := he
  rcases hbr with ⟨hx, hee⟩ | ⟨hx, hee⟩
  · have hrt := instOfWords_roundtrip w ws htks
    rw [inst_line_replay w ws htks] at hrt
    have hrt2 : instOfWords (w :: ((groupFields ws).1
        ++ (List.map expandParam (groupFields ws).2).flatten))
        = instOfWords (w :: ws) := hrt
    subst hee
    rw [netStep_elemline _ w _ (inst_line_replay w ws htks) hstar hdot]
    rw [if_pos hx]
    simp only [List.append_eq]
    rw [hrt2]
  · have hrt := elemOfWords_roundtrip w ws htks
    rw [elem_line_replay w ws htks] at hrt
    have hrt2 : elemOfWords 2 (w :: ((groupFields ws).1
        ++ (List.map expandParam (groupFields ws).2).flatten))
        = elemOfWords 2 (w :: ws) := hrt
    subst hee
    rw [netStep_elemline _ w _ (elem_line_replay w ws htks) hstar hdot]
    rw [if_neg hx]
    simp only [List.append_eq]
    rw [hrt2]

lemma netStep_elem_frame (e : Element) (he : elemGood e) (f : Frame)
    (stack : List Frame) (acc : List NetItem) :
    netStep e.toLine (f :: stack, acc)
      = (⟨f.name, f.ports, f.elems ++ [e], f.bs⟩ :: stack, acc) := by
  obtain ⟨w, ws, htks, hstar, hdot, hbr⟩ := he
  rcases hbr with ⟨hx, hee⟩ | ⟨hx, hee⟩
  · have hrt := instOfWords_roundtrip w ws htks
    rw [inst_line_replay w ws htks] at hrt
    have hrt2 : instOfWords (w :: ((groupFields ws).1
        ++ (List.map expandParam (groupFields ws).2).flatten))
        = instOfWords (w :: ws) := hrt
    subst hee
    rw [netStep_elemline_frame _ w _ (inst_line_replay w ws htks) hstar hdot]
    rw [if_pos hx]
    simp only [List.append_eq]
    rw [hrt2]
  · have hrt := elemOfWords_roundtrip w ws htks
    rw [elem_line_replay w ws htks] at hrt
    have hrt2 : elemOfWords 2 (w :: ((groupFields ws).1
        ++ (List.map expandParam (groupFields ws).2).flatten))
        = elemOfWords 2 (w :: ws) := hrt
    subst hee
    rw [netStep_elemline_frame _ w _ (elem_line_replay w ws htks) hstar hdot]
    rw [if_neg hx]
    simp only [List.append_eq]
    rw [hrt2]

lemma netStep_dir_item (d : Directive) (hd : dirGood d)
    (st : List Frame × List NetItem) :
    netStep d.toLine st = (st.1, st.2 ++ [.dir d]) := by
  obtain ⟨w, ws, htks, hdot, hk1, hk2, hdd⟩ := hd
  have hwne : w ≠ [] := (htks.1 w (List.mem_cons_self _ _)).1
  rcases w with _ | ⟨c, wt⟩
  · cases hwne rfl
  · have hc : c = '.' := by simpa using hdot
    subst hc
    have hrt := mkDirective_roundtrip wt ws htks
    rw [dir_line_replay wt ws htks] at hrt
    have hrt2 : mkDirective (('.' :: wt) :: ((groupFields ws).1
        ++ (List.map expandParam (groupFields ws).2).flatten))
        = mkDirective (('.' :: wt) :: ws) := hrt
    subst hdd
    rw [netStep_dirline _ ('.' :: wt) _ (dir_line_replay wt ws htks)
      (by simp) hk1 hk2]
    simp only [List.append_eq]
    rw [hrt2]

lemma header_tok (b : Block) (hb : blockGood b) :
    ∃ wrest, tokenize (subcktHeader b) = ".subckt".toList :: wrest ∧
      (wrest.headD []).asString = b.name ∧
      wrest.tail.map List.asString = b.ports := by
  cases b with
  | mk n p es g bs =>
      obtain ⟨⟨nw, pws, htks, hnp⟩, _, _, _⟩ := hb
      rcases hnp with ⟨hnw, hn, hp⟩ | ⟨nt, hnw, hn, hp⟩
      · subst hnw
        subst hn
        subst hp
        refine ⟨[], ?_, rfl, rfl⟩
        rw [show subcktHeader (.mk "" [] es g bs)
            = (interSp [".subckt".toList, []]).asString from rfl]
        decide
      · subst hnw
        refine ⟨nt :: pws.map String.toList, ?_, hn.symm, ?_⟩
        · rw [show subcktHeader (Block.mk n p es g bs)
              = (interSp ([".subckt".toList] ++ [n.toList]
                  ++ p.map String.toList)).asString from rfl]
          rw [hn, hp]
          rw [show ([".subckt".toList] ++ [(List.asString nt).toList]
              ++ pws.map String.toList)
            = ".subckt".toList :: [nt] ++ pws.map String.toList from rfl]
          exact tokenize_interSp_tksOK _ htks
        · rw [show (nt :: pws.map String.toList).tail
              = pws.map String.toList from rfl]
          rw [asString_toList_id]
          exact hp.symm

lemma ends_tok (b : Block) (hb : blockGood b) :
    ∃ wrest, tokenize (".ends " ++ b.name) = ".ends".toList :: wrest := by
  cases b with
  | mk n p es g bs =>
      obtain ⟨⟨nw, pws, htks, hnp⟩, _, _, _⟩ := hb
      rcases hnp with ⟨hnw, hn, hp⟩ | ⟨nt, hnw, hn, hp⟩
      · subst hn
        refine ⟨[], ?_⟩
        rw [show (Block.mk "" p es g bs).name = "" from rfl]
        decide
      · subst hnw
        subst hn
        refine ⟨[nt], ?_⟩
        rw [show (Block.mk (List.asString nt) p es g bs).name
            = List.asString nt from rfl]
        rw [show (".ends " ++ (List.asString nt) : String)
            = (interSp [".ends".toList, nt]).asString from rfl]
        refine tokenize_interSp_tksOK _ ?_
        refine ⟨?_, ?_, ?_⟩
        · intro x hx
          rcases List.mem_cons.mp hx with h1 | h1
          · subst h1
            exact ⟨by decide, by decide⟩
          · have hnt : x = nt := by simpa using h1
            subst hnt
            exact htks.1 x (by simp)
        · intro x hx
          have hnt : x = nt := by simpa using hx
          subst hnt
          exact htks.2.1 x (by simp)
        · intro x hx
          have hx2 : x = ".ends".toList := by simpa using hx
          subst hx2
          decide

lemma elems_replay : ∀ (es : List Element), (∀ e ∈ es, elemGood e) →
    ∀ (f : Frame) (stack : List Frame) (acc : List NetItem),
    netFold (es.map Element.toLine) (f :: stack, acc)
      = (⟨f.name, f.ports, f.elems ++ es, f.bs⟩ :: stack, acc) := by
  intro es
  induction es with
  | nil =>
      intro _ f stack acc
      simp [netFold]
  | cons e es ih =>
      intro hes f stack acc
      rw [List.map_cons, netFold_cons,
        netStep_elem_frame e (hes e (by simp)) f stack acc]
      rw [ih (fun x hx => hes x (List.mem_cons_of_mem _ hx)) _ stack acc]
      simp

lemma buildBlock_frame_eq (b : Block) (hb : blockGood b) (f2 : Frame)
    (hf : f2 = ⟨b.name, b.ports, [], .nil⟩) :
    buildBlock ⟨f2.name, f2.ports, f2.elems ++ b.elements,
      appendAll f2.bs b.blocks⟩ = b := by
  subst hf
  cases b with
  | mk n p es g bs =>
      obtain ⟨_, hg, _, _⟩ := hb
      simp only [buildBlock, Block.name, Block.ports, Block.elements,
        Block.blocks, List.nil_append]
      rw [appendAll_nil_left]
      rw [← hg]

mutual
lemma block_body_replay : ∀ (b : Block), blockGood b →
    ∀ (f : Frame) (stack : List Frame) (acc : List NetItem),
    netFold (Block.defnLines b) (f :: stack, acc)
      = (⟨f.name, f.ports, f.elems ++ b.elements,
          appendAll f.bs b.blocks⟩ :: stack, acc)
  | .mk n p es g bs, hb, f, stack, acc => by
      obtain ⟨_, hg, hes, hbs⟩ := hb
      rw [show Block.defnLines (.mk n p es g bs)
          = BlockList.defnLines bs ++ es.map Element.toLine from rfl]
      rw [netFold_append]
      rw [blockList_replay bs hbs f stack acc]
      rw [elems_replay es hes _ stack acc]
      rfl
lemma blockList_replay : ∀ (bl : BlockList), blockListGood bl →
    ∀ (f : Frame) (stack : List Frame) (acc : List NetItem),
    netFold (BlockList.defnLines bl) (f :: stack, acc)
      = (⟨f.name, f.ports, f.elems, appendAll f.bs bl⟩ :: stack, acc)
  | .nil, _, f, stack, acc => by
      simp [netFold, appendAll, BlockList.defnLines]
  | .cons k b rest, hbl, f, stack, acc => by
      obtain ⟨hk, hb, hrest⟩ := hbl
      rw [show BlockList.defnLines (.cons k b rest)
          = (subcktHeader b :: (Block.defnLines b ++ [".ends " ++ b.name]))
            ++ BlockList.defnLines rest from rfl]
      rw [netFold_append]
      rw [netFold_cons]
      obtain ⟨wrest, htok, hname, hports⟩ := header_tok b hb
      rw [netStep_subcktline _ _ _ htok (by decide) (by decide)]
      rw [hname, hports]
      rw [netFold_append]
      rw [block_body_replay b hb ⟨b.name, b.ports, [], .nil⟩ (f :: stack) acc]
      obtain ⟨wrest2, htok2⟩ := ends_tok b hb
      rw [netFold_cons]
      rw [netStep_endsline2 _ _ _ htok2 (by decide) (by decide) (by decide)]
      rw [buildBlock_frame_eq b hb _ rfl]
      rw [show netFold [] (⟨Frame.name f, Frame.ports f, Frame.elems f,
          appendB (Frame.bs f) (Block.name b) b⟩ :: stack, acc)
        = (⟨Frame.name f, Frame.ports f, Frame.elems f,
            appendB (Frame.bs f) (Block.name b) b⟩ :: stack, acc) from rfl]
      rw [blockList_replay rest hrest
        ⟨Frame.name f, Frame.ports f, Frame.elems f,
          appendB (Frame.bs f) (Block.name b) b⟩ stack acc]
      rw [← hk]
      rfl
end

lemma blockdef_replay (b : Block) (hb : blockGood b) (acc : List NetItem) :
    netFold (NetItem.lines (.blockDef b)) ([], acc)
      = ([], acc ++ [.blockDef b]) := by
  rw [show NetItem.lines (.blockDef b)
      = subcktHeader b :: (Block.defnLines b ++ [".ends " ++ b.name])
    from rfl]
  rw [netFold_cons]
  obtain ⟨wrest, htok, hname, hports⟩ := header_tok b hb
  rw [netStep_subcktline _ _ _ htok (by decide) (by decide)]
  rw [hname, hports]
  rw [netFold_append]
  rw [block_body_replay b hb ⟨b.name, b.ports, [], .nil⟩ [] acc]
  obtain ⟨wrest2, htok2⟩ := ends_tok b hb
  rw [netFold_cons]
  rw [netStep_endsline1 _ _ _ htok2 (by decide) (by decide) (by decide)]
  rw [buildBlock_frame_eq b hb _ rfl]
  rfl

lemma item_replay (it : NetItem) (hit : itemGood it) (acc : List NetItem) :
    netFold (NetItem.lines it) ([], acc) = ([], acc ++ [it]) := by
  cases it with
  | elem e =>
      rw [show NetItem.lines (.elem e) = [e.toLine] from rfl, netFold_cons,
        netStep_elem_nil e hit acc]
      rfl
  | dir d =>
      rw [show NetItem.lines (.dir d) = [d.toLine] from rfl, netFold_cons,
        netStep_dir_item d hit ([], acc)]
      rfl
  | blockDef b => exact blockdef_replay b hit acc

lemma items_replay : ∀ (its : List NetItem), (∀ it ∈ its, itemGood it) →
    ∀ acc, netFold ((its.map NetItem.lines).flatten) ([], acc)
      = ([], acc ++ its) := by
  intro its
  induction its with
  | nil =>
      intro _ acc
      simp [netFold]
  | cons it its ih =>
      intro hits acc
      rw [show ((it :: its).map NetItem.lines).flatten
          = NetItem.lines it ++ (its.map NetItem.lines).flatten from by simp]
      rw [netFold_append, item_replay it (hits it (by simp)) acc]
      rw [ih (fun x hx => hits x (List.mem_cons_of_mem _ hx)) (acc ++ [it])]
      simp

lemma buildBlock_good (f : Frame) (hf : frameGood f) :
    blockGood (buildBlock f) := by
  obtain ⟨hw, hes, hbs⟩ := hf
  cases f with
  | mk n p es bs =>
      exact ⟨hw, rfl, hes, hbs⟩

lemma appendB_good : ∀ (bs : BlockList), blockListGood bs →
    ∀ (k : String) (b : Block), k = b.name → blockGood b →
    blockListGood (appendB bs k b)
  | .nil, _, k, b, hk, hb => ⟨hk, hb, trivial⟩
  | .cons k0 b0 r, hbs, k, b, hk, hb =>
      ⟨hbs.1, hbs.2.1, appendB_good r hbs.2.2 k b hk hb⟩

lemma netStep_good (line : String) (st : List Frame × List NetItem)
    (h1 : ∀ f ∈ st.1, frameGood f) (h2 : ∀ it ∈ st.2, itemGood it) :
    (∀ f ∈ (netStep line st).1, frameGood f) ∧
    (∀ it ∈ (netStep line st).2, itemGood it) := by
  obtain ⟨stack, items⟩ := st
  simp only at h1 h2
  rcases htok : tokenize line with _ | ⟨w, wrest⟩
  · simp only [netStep, htok]
    exact ⟨h1, h2⟩
  · have htks : tksOK (w :: wrest) := by
      rw [← htok]
      exact tokenize_tksOK line
    simp only [netStep, htok]
    by_cases hstar : w.headD ' ' = '*'
    · rw [if_pos hstar]
      exact ⟨h1, h2⟩
    · rw [if_neg hstar]
      by_cases hdot : w.headD ' ' = '.'
      · rw [if_pos hdot]
        by_cases hsub : (w.tail).asString = "subckt"
        · rw [if_pos hsub]
          refine ⟨?_, h2⟩
          intro f hf
          rcases List.mem_cons.mp hf with hfe | hfe
          · subst hfe
            have hwne : w ≠ [] := (htks.1 w (List.mem_cons_self _ _)).1
            have hw : w = ".subckt".toList := by
              rcases w with _ | ⟨c, wt⟩
              · cases hwne rfl
              · have hc : c = '.' := by simpa using hdot
                subst hc
                have hwt : wt = "subckt".toList := by
                  have := congrArg String.toList hsub
                  simpa using this
                rw [hwt]
                decide
            refine ⟨?_, ?_, ?_⟩
            · rcases wrest with _ | ⟨t, rest⟩
              · refine ⟨[], [], ?_, Or.inl ⟨rfl, rfl, rfl⟩⟩
                rw [← hw] at *
                exact htks
              · refine ⟨[t], rest.map List.asString, ?_,
                  Or.inr ⟨t, rfl, rfl, rfl⟩⟩
                rw [toList_asString_id, ← hw]
                exact htks
            · intro e he
              simp at he
            · trivial
          · exact h1 f hfe
        · rw [if_neg hsub]
          by_cases hends : (w.tail).asString = "ends"
          · rw [if_pos hends]
            rcases stack with _ | ⟨f, stack'⟩
            · exact ⟨h1, h2⟩
            · rcases stack' with _ | ⟨f2, s2⟩
              · refine ⟨by simp, ?_⟩
                intro it hit
                rcases List.mem_append.mp hit with hia | hib
                · exact h2 it hia
                · have heq : it = .blockDef (buildBlock f) := by
                    simpa using hib
                  subst heq
                  exact buildBlock_good f (h1 f (List.mem_cons_self _ _))
              · refine ⟨?_, h2⟩
                intro fr hfr
                rcases List.mem_cons.mp hfr with hfe | hfe
                · subst hfe
                  have hf2 := h1 f2
                    (List.mem_cons_of_mem _ (List.mem_cons_self _ _))
                  refine ⟨hf2.1, hf2.2.1, ?_⟩
                  exact appendB_good f2.bs hf2.2.2 _ (buildBlock f) rfl
                    (buildBlock_good f (h1 f (List.mem_cons_self _ _)))
                · exact h1 fr
                    (List.mem_cons_of_mem _ (List.mem_cons_of_mem _ hfe))
          · rw [if_neg hends]
            refine ⟨h1, ?_⟩
            intro it hit
            rcases List.mem_append.mp hit with hia | hib
            · exact h2 it hia
            · have heq : it = .dir (mkDirective (w :: wrest)) := by
                simpa using hib
              subst heq
              exact ⟨w, wrest, htks, hdot, hsub, hends, rfl⟩
      · rw [if_neg hdot]
        rcases stack with _ | ⟨f, stack'⟩
        · refine ⟨by simp, ?_⟩
          intro it hit
          rcases List.mem_append.mp hit with hia | hib
          · exact h2 it hia
          · have heq : it = .elem (if w.headD ' ' = 'x'
                then instOfWords (w :: wrest)
                else elemOfWords 2 (w :: wrest)) := by
              simpa using hib
            subst heq
            refine ⟨w, wrest, htks, hstar, hdot, ?_⟩
            by_cases hx : w.headD ' ' = 'x'
            · exact Or.inl ⟨hx, by rw [if_pos hx]⟩
            · exact Or.inr ⟨hx, by rw [if_neg hx]⟩
        · refine ⟨?_, h2⟩
          intro fr hfr
          rcases List.mem_cons.mp hfr with hfe | hfe
          · subst hfe
            have hf := h1 f (List.mem_cons_self _ _)
            refine ⟨hf.1, ?_, hf.2.2⟩
            intro e he
            rcases List.mem_append.mp he with hea | heb
            · exact hf.2.1 e hea
            · have heq : e = (if w.headD ' ' = 'x'
                  then instOfWords (w :: wrest)
                  else elemOfWords 2 (w :: wrest)) := by
                simpa using heb
              subst heq
              refine ⟨w, wrest, htks, hstar, hdot, ?_⟩
              by_cases hx : w.headD ' ' = 'x'
              · exact Or.inl ⟨hx, by rw [if_pos hx]⟩
              · exact Or.inr ⟨hx, by rw [if_neg hx]⟩
          · exact h1 fr (List.mem_cons_of_mem _ hfe)

lemma netFold_good : ∀ (lines : List String)
    (st : List Frame × List NetItem),
    (∀ f ∈ st.1, frameGood f) → (∀ it ∈ st.2, itemGood it) →
    (∀ f ∈ (netFold lines st).1, frameGood f) ∧
    (∀ it ∈ (netFold lines st).2, itemGood it) := by
  intro lines
  induction lines with
  | nil => intro st g1 g2; exact ⟨g1, g2⟩
  | cons l ls ih =>
      intro st g1 g2
      rw [netFold_cons]
      obtain ⟨g1', g2'⟩ := netStep_good l st g1 g2
      exact ih _ g1' g2'

lemma parseNetlist_items_good (nm : String) (lines : List String) :
    ∀ it ∈ (parseNetlist nm lines).items, itemGood it :=
  (netFold_good lines ([], []) (by simp) (by simp)).2

lemma normEq_head (c : Char) (X : List Char) (h1 : isWs c = false)
    (h2 : c ≠ '=') : ∃ Y, normEq (c :: X) = c :: Y := by
  rcases hx : normEq X with _ | ⟨d, ds⟩
  · exact ⟨[], normEq_cons_nil hx⟩
  · rw [normEq_cons_cons hx]
    rw [if_neg (by simp [h1]), if_neg (by simp [h2])]
    exact ⟨d :: ds, rfl⟩

lemma star_skip (nm : String) (st : List Frame × List NetItem) :
    netStep ("* Netlist: " ++ nm) st = st := by
  obtain ⟨Y, hY⟩ := normEq_head '*'
    ((" Netlist: ".toList ++ nm.toList).map Char.toLower)
    (by decide) (by decide)
  have h0 : (("* Netlist: " ++ nm).toList).map Char.toLower
      = '*' :: ((" Netlist: ".toList ++ nm.toList).map Char.toLower) := by
    rw [show ("* Netlist: " ++ nm).toList
        = '*' :: (" Netlist: ".toList ++ nm.toList) from rfl]
    rw [List.map_cons]
    rw [show Char.toLower '*' = '*' from by decide]
  have htok : tokenize ("* Netlist: " ++ nm)
      = ('*' :: Y.takeWhile (fun x => !isWs x))
        :: splitPlain (Y.dropWhile (fun x => !isWs x)) := by
    rw [show tokenize ("* Netlist: " ++ nm)
        = splitPlain (normEq ((("* Netlist: " ++ nm).toList).map
            Char.toLower)) from rfl]
    rw [h0, hY, splitPlain_cons_nws (by decide)]
  simp only [netStep, htok]
  rw [if_pos (show ('*' :: Y.takeWhile (fun x => !isWs x)).headD ' ' = '*'
    from rfl)]

lemma parseNetlist_roundtrip (nm : String) (lines : List String) :
    parseNetlist nm ((parseNetlist nm lines).lines)
      = parseNetlist nm lines := by
  have hgood := parseNetlist_items_good nm lines
  rw [show (parseNetlist nm lines).lines
      = ("* Netlist: " ++ nm)
        :: (((parseNetlist nm lines).items.map NetItem.lines).flatten)
    from rfl]
  have hfold : netFold (("* Netlist: " ++ nm)
      :: (((parseNetlist nm lines).items.map NetItem.lines).flatten)) ([], [])
      = ([], (parseNetlist nm lines).items) := by
    rw [netFold_cons, star_skip]
    rw [items_replay _ hgood []]
    rfl
  show Netlist.mk nm (netFold (("* Netlist: " ++ nm)
      :: (((parseNetlist nm lines).items.map NetItem.lines).flatten))
        ([], [])).2
    = parseNetlist nm lines
  rw [hfold]
  rfl

lemma netStep_dirs (line : String) (st : List Frame × List NetItem)
    (h : ∀ d : Directive, NetItem.dir d ∈ st.2 →
      d.kind ≠ "subckt" ∧ d.kind ≠ "ends") :
    ∀ d : Directive, NetItem.dir d ∈ (netStep line st).2 →
      d.kind ≠ "subckt" ∧ d.kind ≠ "ends" := by
  intro d hd
  unfold netStep at hd
  split at hd
  · exact h d hd
  · rename_i w wrest
    split at hd
    · exact h d hd
    · split at hd
      · split at hd
        · exact h d hd
        · split at hd
          · split at hd
            · exact h d hd
            · split at hd
              · rcases List.mem_append.mp hd with hold | hnew
                · exact h d hold
                · simp at hnew
              · exact h d hd
          · rcases List.mem_append.mp hd with hold | hnew
            · exact h d hold
            · simp at hnew
              subst hnew
              simp only [Linsim.mkDirective]
              exact ⟨by assumption, by assumption⟩
      · split at hd
        · rcases List.mem_append.mp hd with hold | hnew
          · exact h d hold
          · simp at hnew
        · exact h d hd

lemma parseNet_dirs (lines : List String) :
    ∀ (st : List Frame × List NetItem),
      (∀ d : Directive, NetItem.dir d ∈ st.2 →
        d.kind ≠ "subckt" ∧ d.kind ≠ "ends") →
      ∀ d : Directive,
        NetItem.dir d ∈ (lines.foldl (fun s l => netStep l s) st).2 →
        d.kind ≠ "subckt" ∧ d.kind ≠ "ends" := by
  induction lines with
  | nil =>
      intro st h d hd
      simp only [List.foldl_nil] at hd
      exact h d hd
  | cons l ls ih =>
      intro st h d hd
      simp only [List.foldl_cons] at hd
      exact ih _ (netStep_dirs l st h) d hd

lemma pickLongest_none (L : List String) (h : pickLongest L = none) :
    L = [] := by
  cases L with
  | nil => rfl
  | cons p ps =>
      exfalso
      simp only [pickLongest] at h
      rcases hrec : pickLongest ps with _ | q
      · simp [hrec] at h
      · rw [hrec] at h
        by_cases hl : p.length < q.length
        · simp [hl] at h
        · simp [hl] at h

lemma pickLongest_mem (L : List String) (s : String)
    (h : pickLongest L = some s) : s ∈ L := by
  induction L with
  | nil => simp [pickLongest] at h
  | cons p ps ih =>
      simp only [pickLongest] at h
      rcases hrec : pickLongest ps with _ | q
      · rw [hrec] at h
        simp at h
        simp [h]
      · rw [hrec] at h
        by_cases hl : p.length < q.length
        · simp [hl] at h
          subst h
          exact List.mem_cons_of_mem _ (ih hrec)
        · simp [hl] at h
          simp [h]

lemma pickLongest_max (L : List String) (s : String)
    (h : pickLongest L = some s) : ∀ p ∈ L, p.length ≤ s.length := by
  induction L generalizing s with
  | nil => simp [pickLongest] at h
  | cons p ps ih =>
      intro p' hp'
      simp only [pickLongest] at h
      rcases hrec : pickLongest ps with _ | q
      · rw [hrec] at h
        simp at h
        subst h
        rcases List.mem_cons.mp hp' with h' | h'
        · simp [h']
        · exact absurd (pickLongest_none ps hrec ▸ h') (by simp)
      · rw [hrec] at h
        by_cases hl : p.length < q.length
        · simp [hl] at h
          subst h
          rcases List.mem_cons.mp hp' with h' | h'
          · subst h'
            exact Nat.le_of_lt hl
          · exact ih _ hrec p' h'
        · simp [hl] at h
          subst h
          rcases List.mem_cons.mp hp' with h' | h'
          · simp [h']
          · exact Nat.le_trans (ih _ hrec p' h') (Nat.le_of_not_lt hl)

lemma foldl_graphAdd_mem (x : String) (nodes : List String) :
    ∀ (g : Graph) (n : String),
      ((∃ s, alookup g n = some s ∧ x ∈ s) ∨ n ∈ nodes) →
      ∃ s, alookup (nodes.foldl (fun g' n' => graphAdd g' n' x) g) n = some s ∧
        x ∈ s := by
  induction nodes with
  | nil =>
      intro g n h
      rcases h with h | h
      · simpa using h
      · simp at h
  | cons n0 ns ih =>
      intro g n h
      simp only [List.foldl_cons]
      apply ih (graphAdd g n0 x) n
      rcases h with h | h
      · exact Or.inl (graphAdd_lookup_preserve g n0 x n h)
      · rcases List.mem_cons.mp h with h | h
        · subst h
          exact Or.inl (graphAdd_lookup_self g n x)
        · exact Or.inr h

end Linsim

namespace QLearn

lemma lookStep_SA {σ State Action : Type} [Inhabited State]
    [Inhabited Action] (L : Learner σ State Action) (t : Nat)
    (ls : LoopState σ State Action) :
    ((lookStep L t ls).S = ls.S ∧ (lookStep L t ls).A = ls.A) ∨
    (∃ x y, (lookStep L t ls).S = ls.S ++ [x] ∧
      (lookStep L t ls).A = ls.A ++ [y]) := by
  unfold lookStep
  split
  · right
    exact ⟨_, _, rfl, rfl⟩
  · left
    exact ⟨rfl, rfl⟩

lemma vnsLoop_shape {σ State Action : Type} [Inhabited State]
    [Inhabited Action] (L : Learner σ State Action) :
    ∀ (n : Nat) (tau : Int) (t : Nat) (ls : LoopState σ State Action),
      L.depth - t ≤ n →
      ∃ (Sx : List State) (Ax : List Action),
        vnsLoop L tau t ls = (ls.S ++ Sx, ls.A ++ Ax) ∧
        Sx.length = Ax.length ∧ Sx.length ≤ L.depth - t := by
  intro n
  induction n with
  | zero =>
      intro tau t ls hle
      have hnot : ¬(tauCond ls.T tau = true ∧ t < L.depth) := by
        intro hcon
        exact absurd hcon.2 (by omega)
      rw [vnsLoop, dif_neg hnot]
      exact ⟨[], [], by simp, by simp, by simp⟩
  | succ n ih =>
      intro tau t ls hle
      by_cases hc : tauCond ls.T tau = true ∧ t < L.depth
      · obtain ⟨hc1, hc2⟩ := hc
        rw [vnsLoop, dif_pos ⟨hc1, hc2⟩]
        set ls2 := (if 0 ≤ (t : Int) - L.steps + 1 then
            { lookStep L t ls with
              env := updStep L ((t : Int) - L.steps + 1).toNat
                (lookStep L t ls) }
          else lookStep L t ls) with hls2
        have hS2 : ls2.S = (lookStep L t ls).S ∧
            ls2.A = (lookStep L t ls).A := by
          rw [hls2]
          split <;> exact ⟨rfl, rfl⟩
        obtain ⟨Sx, Ax, heq, hlen, hb⟩ :=
          ih ((t : Int) - L.steps + 1) (t + 1) ls2 (by omega)
        rcases lookStep_SA L t ls with ⟨h1, h2⟩ | ⟨x, y, h1, h2⟩
        · refine ⟨Sx, Ax, ?_, hlen, by omega⟩
          rw [heq, hS2.1, hS2.2, h1, h2]
        · refine ⟨x :: Sx, y :: Ax, ?_, by simp [hlen], ?_⟩
          · rw [heq, hS2.1, hS2.2, h1, h2]
            simp
          · simp only [List.length_cons]
            omega
      · rw [vnsLoop, dif_neg hc]
        exact ⟨[], [], by simp, by simp, by simp⟩

end QLearn

/-! ## Claim theorems -/

/-- C2: for every cardinality vector `b` of positive integers and every index
`i ∈ [0, Π b)`, `decode i` succeeds and `encode` of the resulting digit vector
returns `i`, where `encode` uses most-significant-digit-first mixed-radix
weighting. -/
theorem claim_c2_decode_encode_roundtrip (b : List Nat) (i : Nat)
    (hpos : ∀ x ∈ b, 0 < x) (hi : i < Linsim.states b) :
    Linsim.decode b i = some (Linsim.decodeAux b i) ∧
    Linsim.encode b (Linsim.decodeAux b i) = i := by
  refine ⟨?_, Linsim.encode_decodeAux b i hi⟩
  simp [Linsim.decode, hi]

theorem claim_c2_decode_encode_roundtrip_witness :
    ((∀ x ∈ [4, 3, 2], 0 < x) ∧ 12 < Linsim.states [4, 3, 2]) ∧
    (Linsim.decode [4, 3, 2] 12 = some (Linsim.decodeAux [4, 3, 2] 12) ∧
     Linsim.encode [4, 3, 2] (Linsim.decodeAux [4, 3, 2] 12) = 12) :=
  ⟨⟨by decide, by decide⟩,
   claim_c2_decode_encode_roundtrip [4, 3, 2] 12 (by decide) (by decide)⟩

/-- C7 counterexample: for the cardinality vector [4,3,2,14] the codec does
not decode 12 to [2,0,0,0] (most-significant-first weighting gives
[0,0,0,12]; the claim's digit vector [2,0,0,0] encodes to 168). -/
theorem claim_c7_counterexample :
    ¬ (Linsim.states [4, 3, 2, 14] = 336 ∧
       Linsim.decode [4, 3, 2, 14] 12 = some [2, 0, 0, 0]) := by
  decide

/-- C7 (amended): for the codec constructed from [4,3,2,14], `states` is 336
and `decode 12` returns [0,0,0,12]; for the test's vector [4,3,2],
`decode 12` returns [2,0,0]. -/
theorem claim_c7_decode_concrete :
    Linsim.states [4, 3, 2, 14] = 336 ∧
    Linsim.decode [4, 3, 2, 14] 12 = some [0, 0, 0, 12] ∧
    Linsim.decode [4, 3, 2] 12 = some [2, 0, 0] := by
  decide

/-- C8: parsing `R100 N1 0 100k` yields prefix `r`, nodes `[n1, 0]` and value
`100k`; parsing `G1 N3 n2 n1 0 table=(0 1e-1, 10 100)` with the default 2
positional node fields yields nodes `[n3, n2]`, value `n1 0`, and parameter
`table` equal to `(0 1e-1,10 100)` with whitespace after commas stripped. -/
theorem claim_c8_element_parsing :
    (Linsim.parseElement "R100 N1 0 100k").pfx = "r" ∧
    (Linsim.parseElement "R100 N1 0 100k").nodes = ["n1", "0"] ∧
    (Linsim.parseElement "R100 N1 0 100k").value = "100k" ∧
    (Linsim.parseElement "G1 N3 n2 n1 0 table=(0 1e-1, 10 100)").nodes
      = ["n3", "n2"] ∧
    (Linsim.parseElement "G1 N3 n2 n1 0 table=(0 1e-1, 10 100)").value
      = "n1 0" ∧
    (Linsim.parseElement "G1 N3 n2 n1 0 table=(0 1e-1, 10 100)").param "table"
      = some "(0 1e-1,10 100)" := by
  decide

/-- C5: `Block.add` fails when an element with the same name already exists
and then has no effect (the Block is returned unchanged as `none`); when the
name is new, the element is appended to `elements` and added to the
adjacency set of every node in its `nodes`, creating graph entries as
needed. -/
theorem claim_c5_block_add (b : Linsim.Block) (e : Linsim.Element) :
    ((∃ e' ∈ b.elements, e'.name = e.name) → b.add e = none) ∧
    ((∀ e' ∈ b.elements, e'.name ≠ e.name) →
      ∃ b', b.add e = some b' ∧
        b'.elements = b.elements ++ [e] ∧
        b'.name = b.name ∧
        ∀ n ∈ e.nodes, ∃ s, Linsim.alookup b'.graph n = some s ∧
          e.name ∈ s) := by
  constructor
  · rintro ⟨e', he', hname⟩
    have hany : b.elements.any (fun e'' => e''.name = e.name) = true := by
      simp only [List.any_eq_true]
      exact ⟨e', he', by simp [hname]⟩
    simp [Linsim.Block.add, hany]
  · intro hfresh
    have hany : b.elements.any (fun e'' => e''.name = e.name) = false := by
      simp only [List.any_eq_false]
      intro e' he'
      simp [hfresh e' he']
    refine ⟨b.setEG (b.elements ++ [e])
        (e.nodes.foldl (fun g n => Linsim.graphAdd g n e.name) b.graph),
      by simp [Linsim.Block.add, hany], ?_, ?_, ?_⟩
    · exact Linsim.setEG_elements _ _ _
    · exact Linsim.setEG_name _ _ _
    · intro n hn
      rw [Linsim.setEG_graph]
      exact Linsim.foldl_graphAdd_mem e.name e.nodes b.graph n (Or.inr hn)

theorem claim_c5_block_add_witness :
    ((∃ e' ∈ Linsim.sampleBlock.elements,
        e'.name = (Linsim.parseElement "R1 n5 n6 7").name) ∧
      Linsim.sampleBlock.add (Linsim.parseElement "R1 n5 n6 7") = none) ∧
    ((∀ e' ∈ Linsim.sampleBlock.elements,
        e'.name ≠ (Linsim.parseElement "C9 n1 n7 5").name) ∧
      ∃ b', Linsim.sampleBlock.add (Linsim.parseElement "C9 n1 n7 5")
          = some b' ∧
        b'.elements = Linsim.sampleBlock.elements
          ++ [Linsim.parseElement "C9 n1 n7 5"] ∧
        b'.name = Linsim.sampleBlock.name ∧
        ∀ n ∈ (Linsim.parseElement "C9 n1 n7 5").nodes,
          ∃ s, Linsim.alookup b'.graph n = some s ∧
            (Linsim.parseElement "C9 n1 n7 5").name ∈ s) :=
  ⟨⟨by decide, (claim_c5_block_add _ _).1 (by decide)⟩,
   ⟨by decide, (claim_c5_block_add _ _).2 (by decide)⟩⟩

/-- C3: `short(node_a, node_b)` merges `node_b` into `node_a`: every element
of the result is an original element with `node_b` replaced by `node_a` (so
no element references `node_b` any more), `node_b`'s entry is deleted from
`graph`, and any element that after substitution has two or more identical
entries in its nodes is removed from the Block entirely (cascading through
`remove`). -/
theorem claim_c3_block_short (b : Linsim.Block) (na nb : String)
    (b' : Linsim.Block) (hne : na ≠ nb) (h : b.short na nb = some b') :
    (∀ e' ∈ b'.elements,
      (∃ e0 ∈ b.elements, e' = e0.substNode na nb) ∧ nb ∉ e'.nodes) ∧
    Linsim.alookup b'.graph nb = none ∧
    (∀ e0 ∈ b.elements, Linsim.hasDup (e0.substNode na nb).nodes = true →
      ∀ e' ∈ b'.elements, e'.name ≠ e0.name) := by
  simp only [Linsim.Block.short] at h
  by_cases hguard : (Linsim.alookup b.graph na).isNone
      || (Linsim.alookup b.graph nb).isNone
  · rw [if_pos hguard] at h
    exact absurd h (by simp)
  · rw [if_neg hguard] at h
    have hb' := Option.some.inj h
    set elems := b.elements.map (fun e => e.substNode na nb) with helems
    set nbSet := (Linsim.alookup b.graph nb).getD [] with hnbSet
    set g1 := (b.graph.filter (fun p => p.1 ≠ nb)).map
      (fun p => if p.1 = na
        then (p.1, p.2 ++ nbSet.filter (fun x => !p.2.contains x)) else p)
      with hg1
    have hb1elems : (b.setEG elems g1).elements = elems :=
      Linsim.setEG_elements _ _ _
    have hb1graph : (b.setEG elems g1).graph = g1 :=
      Linsim.setEG_graph _ _ _
    refine ⟨?_, ?_, ?_⟩
    · intro e' he'
      rw [← hb'] at he'
      have hmem := Linsim.foldl_remove_subset _ _ _ he'
      rw [hb1elems] at hmem
      obtain ⟨e0, he0, he0e⟩ := List.mem_map.mp hmem
      refine ⟨⟨e0, he0, he0e.symm⟩, ?_⟩
      intro hcon
      rw [← he0e] at hcon
      simp only [Linsim.Element.substNode] at hcon
      obtain ⟨n0, _, hn0⟩ := List.mem_map.mp hcon
      by_cases hcase : n0 = nb
      · rw [if_pos hcase] at hn0
        exact hne hn0
      · rw [if_neg hcase] at hn0
        exact hcase hn0
    · rw [← hb']
      apply Linsim.foldl_remove_graph_none
      rw [hb1graph, Linsim.alookup_none_iff]
      intro p' hp'
      obtain ⟨p, hp, hpe⟩ := List.mem_map.mp hp'
      have hkey : p.1 ≠ nb := by
        have := List.of_mem_filter hp
        simpa using this
      rw [← hpe]
      by_cases hcase : p.1 = na
      · rw [if_pos hcase]
        simpa [hcase] using hne
      · rw [if_neg hcase]
        exact hkey
    · intro e0 he0 hdup e' he'
      rw [← hb'] at he'
      have hin : e0.substNode na nb ∈ elems.filter
          (fun e => Linsim.hasDup e.nodes) :=
        List.mem_filter.mpr ⟨List.mem_map.mpr ⟨e0, he0, rfl⟩, hdup⟩
      have hnames := Linsim.foldl_remove_names _ _ _ hin _ he'
      rw [Linsim.substNode_name] at hnames
      exact hnames

/-- C9: for every learner with a finite positive depth, `variablenstep`
terminates (the loop definition is total: `t` increments each iteration and
the guard requires `t < depth`, so the measure `depth - t` decreases) and
the returned state history has at most `depth` entries. -/
theorem claim_c9_variablenstep_depth_bound {σ State Action : Type}
    [Inhabited State] [Inhabited Action] (L : QLearn.Learner σ State Action)
    (env : σ) (state : State) (action : Option Action)
    (hdepth : 0 < L.depth) :
    (QLearn.variablenstep L env state action).1.length ≤ L.depth := by
  obtain ⟨Sx, Ax, heq, hlen, hb⟩ := QLearn.vnsLoop_shape L L.depth 0 0
    (QLearn.initLS L env state action) (by omega)
  unfold QLearn.variablenstep
  rw [heq]
  simp only [QLearn.initLS, List.singleton_append, List.drop_succ_cons,
    List.drop_zero]
  omega

theorem claim_c9_variablenstep_depth_bound_witness :
    0 < QLearn.unitLearner.depth ∧
    (QLearn.variablenstep QLearn.unitLearner () () none).1.length
      ≤ QLearn.unitLearner.depth :=
  ⟨by decide,
   claim_c9_variablenstep_depth_bound QLearn.unitLearner () () none
     (by decide)⟩

/-- C10: `variablenstep` returns a pair (states, actions) where the actions
list has exactly one more element than the states list: the initial action
(from policy when the action argument is None) heads the returned actions,
the initial state is excluded from the returned states (the loop's full
state history is the initial state consed onto the returned states), and
thereafter states and actions are appended in lockstep. -/
theorem claim_c10_variablenstep_lockstep {σ State Action : Type}
    [Inhabited State] [Inhabited Action] (L : QLearn.Learner σ State Action)
    (env : σ) (state : State) (action : Option Action) :
    (QLearn.variablenstep L env state action).2.length
      = (QLearn.variablenstep L env state action).1.length + 1 ∧
    (QLearn.variablenstep L env state action).2.head?
      = some (QLearn.initAction L env state action) ∧
    (QLearn.vnsLoop L 0 0 (QLearn.initLS L env state action)).1
      = state :: (QLearn.variablenstep L env state action).1 := by
  obtain ⟨Sx, Ax, heq, hlen, hb⟩ := QLearn.vnsLoop_shape L L.depth 0 0
    (QLearn.initLS L env state action) (by omega)
  unfold QLearn.variablenstep
  rw [heq]
  refine ⟨?_, ?_, ?_⟩
  · simp only [QLearn.initLS, List.singleton_append, List.drop_succ_cons,
      List.drop_zero, List.length_cons, List.length_append,
      List.length_singleton]
    omega
  · simp [QLearn.initLS]
  · simp [QLearn.initLS]

theorem claim_c3_block_short_witness :
    ("s1" ≠ "s2" ∧ (Linsim.shortBlock.short "s1" "s2").isSome) ∧
    ∃ b', Linsim.shortBlock.short "s1" "s2" = some b' ∧
      Linsim.alookup b'.graph "s2" = none := by
  refine ⟨⟨by decide, by decide⟩, ?_⟩
  obtain ⟨b', hb'⟩ := Option.isSome_iff_exists.mp (show
    (Linsim.shortBlock.short "s1" "s2").isSome by decide)
  exact ⟨b', hb',
    (claim_c3_block_short Linsim.shortBlock "s1" "s2" b' (by decide)
      hb').2.1⟩

/-- C4: serializing a Netlist produces the header comment line
`* Netlist: <name>` followed by the case-normalized definition, element and
directive lines; re-parsing the serialized text of ANY parsed Netlist
yields that Netlist back (a general, side-condition-free round-trip:
parse ∘ serialize ∘ parse = parse), verified additionally in concrete form
on the test_netlist_class netlist; and subcircuit boundary lines
(`.subckt`/`.ends`) are never stored among a parsed Netlist's
directives. -/
theorem claim_c4_netlist_roundtrip :
    (∀ (nm : String) (lines : List String),
      Linsim.parseNetlist nm ((Linsim.parseNetlist nm lines).lines)
        = Linsim.parseNetlist nm lines) ∧
    (∀ nl : Linsim.Netlist, nl.lines.headD "" = "* Netlist: " ++ nl.name) ∧
    (∀ (nm : String) (lines : List String) (d : Linsim.Directive),
      Linsim.NetItem.dir d ∈ (Linsim.parseNetlist nm lines).items →
      d.kind ≠ "subckt" ∧ d.kind ≠ "ends") ∧
    Linsim.testNetlist.lines
      = ["* Netlist: test", ".model sw sw0", ".subckt blah 1 2 3",
         "r1 1 2 1e10", "c1 1 3 1e-4", ".ends blah", "c1 0 t1 1mf",
         "r1 t1 n001 1k", "g1 n001 0 t1 0 1 table=(0 0,0.1 1m)",
         ".ic 0 15s 0 1m uic v(t1)=10v", ".end"] ∧
    Linsim.Netlist.beq (Linsim.parseNetlist "test" Linsim.testNetlist.lines)
      Linsim.testNetlist = true := by
  refine ⟨Linsim.parseNetlist_roundtrip, ?_, ?_, by decide, by decide⟩
  · intro nl
    rfl
  · intro nm lines d hd
    exact Linsim.parseNet_dirs lines ([], []) (by simp) d hd

/-- C6: `mux` selects the registered type whose prefix is the longest
registered prefix that is itself a prefix of the leading alphabetic run of
the declaration's name token, returns the root when no registered prefix
matches, and prefixes named in the exclusion set (`leave`) have their
descendants (their whole subtree) not enrolled in the registry; the
concrete conjuncts mirror test_element_mux. -/
theorem claim_c6_element_mux (m : Linsim.ElementMux) (decl : String)
    (leave : List String) (t : Linsim.TypeTree) :
    ((∃ p ∈ m.registry,
        Linsim.isPfx p.toList (Linsim.leadingAlphaRun decl) = true) →
      m.mux decl ∈ m.registry ∧
      Linsim.isPfx (m.mux decl).toList (Linsim.leadingAlphaRun decl)
        = true ∧
      ∀ p ∈ m.registry,
        Linsim.isPfx p.toList (Linsim.leadingAlphaRun decl) = true →
        p.length ≤ (m.mux decl).length) ∧
    ((∀ p ∈ m.registry,
        Linsim.isPfx p.toList (Linsim.leadingAlphaRun decl) = false) →
      m.mux decl = m.rootPfx) ∧
    (t.pfx ∈ leave → Linsim.TypeTree.enroll leave t = []) ∧
    (Linsim.testMux.registry = ["b", "bc"] ∧
      Linsim.testMux.mux "b200 blah blah" = "b" ∧
      Linsim.testMux.mux "bcb1 blah blah blah" = "bc" ∧
      Linsim.testMux.mux "a7 asdjaa alskdj" = "a" ∧
      Linsim.testMux.mux "j20 asd knwe" = "a") := by
  refine ⟨?_, ?_, ?_, by decide⟩
  · rintro ⟨p0, hp0, hpfx⟩
    have hmem : p0 ∈ m.registry.filter
        (fun p => Linsim.isPfx p.toList (Linsim.leadingAlphaRun decl)) :=
      List.mem_filter.mpr ⟨hp0, hpfx⟩
    rcases hpick : Linsim.pickLongest (m.registry.filter
        (fun p => Linsim.isPfx p.toList (Linsim.leadingAlphaRun decl)))
        with _ | s
    · rw [Linsim.pickLongest_none _ hpick] at hmem
      simp at hmem
    · have hmux : m.mux decl = s := by
        unfold Linsim.ElementMux.mux
        rw [hpick]
      have hs := Linsim.pickLongest_mem _ _ hpick
      refine ⟨?_, ?_, ?_⟩
      · rw [hmux]
        exact List.mem_of_mem_filter hs
      · rw [hmux]
        exact (List.mem_filter.mp hs).2
      · intro p hp hpp
        rw [hmux]
        exact Linsim.pickLongest_max _ _ hpick p
          (List.mem_filter.mpr ⟨hp, hpp⟩)
  · intro hnone
    have hfil : m.registry.filter
        (fun p => Linsim.isPfx p.toList (Linsim.leadingAlphaRun decl))
        = [] := by
      rw [List.filter_eq_nil_iff]
      intro p hp hcon
      have hcon' : Linsim.isPfx p.toList (Linsim.leadingAlphaRun decl)
          = true := hcon
      rw [hnone p hp] at hcon'
      exact Bool.false_ne_true hcon'
    unfold Linsim.ElementMux.mux
    rw [hfil]
    rfl
  · intro hleave
    cases t with
    | node p cs =>
        simp only [Linsim.TypeTree.pfx] at hleave
        simp [Linsim.TypeTree.enroll, hleave]

theorem claim_c6_element_mux_witness :
    ((∃ p ∈ Linsim.testMux.registry,
        Linsim.isPfx p.toList
          (Linsim.leadingAlphaRun "bcb1 blah blah blah") = true) ∧
      (Linsim.testMux.mux "bcb1 blah blah blah" ∈ Linsim.testMux.registry ∧
        Linsim.isPfx (Linsim.testMux.mux "bcb1 blah blah blah").toList
          (Linsim.leadingAlphaRun "bcb1 blah blah blah") = true ∧
        ∀ p ∈ Linsim.testMux.registry,
          Linsim.isPfx p.toList
            (Linsim.leadingAlphaRun "bcb1 blah blah blah") = true →
          p.length ≤ (Linsim.testMux.mux "bcb1 blah blah blah").length)) ∧
    ((∀ p ∈ Linsim.testMux.registry,
        Linsim.isPfx p.toList (Linsim.leadingAlphaRun "j20 asd knwe")
          = false) ∧
      Linsim.testMux.mux "j20 asd knwe" = Linsim.testMux.rootPfx) ∧
    ((Linsim.TypeTree.node "x" Linsim.TypeTreeList.nil).pfx ∈ ["x"] ∧
      Linsim.TypeTree.enroll ["x"]
        (Linsim.TypeTree.node "x" Linsim.TypeTreeList.nil) = []) :=
  ⟨⟨by decide,
    (claim_c6_element_mux Linsim.testMux "bcb1 blah blah blah" ["x"]
      (Linsim.TypeTree.node "x" Linsim.TypeTreeList.nil)).1 (by decide)⟩,
   ⟨by decide,
    (claim_c6_element_mux Linsim.testMux "j20 asd knwe" ["x"]
      (Linsim.TypeTree.node "x" Linsim.TypeTreeList.nil)).2.1 (by decide)⟩,
   ⟨by decide,
    (claim_c6_element_mux Linsim.testMux "j20 asd knwe" ["x"]
      (Linsim.TypeTree.node "x" Linsim.TypeTreeList.nil)).2.2.1
        (by decide)⟩⟩

/-- C1 counterexample: flattening the test_block_class Block (instance `x1`
of subcircuit `block1`) does not produce elements named
`<instance-name>_<depth>_<original-element-name>` (`x1_1_e1`): the renamed
copy of `e1` is `block1_1_e1`, derived from the referenced block's name. -/
theorem claim_c1_counterexample :
    "x1_1_e1" ∉
      Linsim.flattenParent.flatten.elements.map Linsim.Element.name ∧
    "x1_1_e2" ∉
      Linsim.flattenParent.flatten.elements.map Linsim.Element.name ∧
    "block1_1_e1" ∈
      Linsim.flattenParent.flatten.elements.map Linsim.Element.name := by
  decide

/-- C1 (amended): `flatten()` removes the original BlockInstance element,
leaves `blocks` empty (for every Block), and adds, for every element inside
the referenced Block, a renamed copy whose name is
`<referenced-block-name>_<depth>_<original-element-name>`, with internal
non-port nodes likewise renamed (`block1_1_3`), collision-free. -/
theorem claim_c1_flatten_amended :
    (∀ (bl : Linsim.Block) (d : Nat),
      (bl.flattenAux d).blocks = Linsim.BlockList.nil) ∧
    (∀ (sub : Linsim.Block) (d : Nat) (inst : Linsim.Element),
      (Linsim.expandInstance sub d inst).map Linsim.Element.name
        = sub.elements.map (fun se =>
            sub.name ++ "_" ++ toString d ++ "_" ++ se.name)) ∧
    "x1" ∉ Linsim.flattenParent.flatten.elements.map Linsim.Element.name ∧
    Linsim.flattenParent.flatten.blocks = Linsim.BlockList.nil ∧
    "block1_1_e1" ∈
      Linsim.flattenParent.flatten.elements.map Linsim.Element.name ∧
    "block1_1_e2" ∈
      Linsim.flattenParent.flatten.elements.map Linsim.Element.name ∧
    "block1_1_3" ∈ Linsim.flattenParent.flatten.graph.map Prod.fst ∧
    (Linsim.flattenParent.flatten.elements.map Linsim.Element.name).Nodup := by
  refine ⟨?_, ?_, by decide, rfl, by decide, by decide, by decide, by decide⟩
  · intro bl d
    cases bl
    rfl
  · intro sub d inst
    simp [Linsim.expandInstance, List.map_map]
